import Mathlib

/-!
Verification of the Tempo columnar iterator engine (pkg/parquetquery/iters.go)
and the distributor's replication-aware discard accounting.

The Go source is shallowly embedded:
- `RowNumber` ([8]int32) becomes a length-8 `List Int`; positions are modelled
  as unbounded integers except where the code manipulates the int32 extremes
  (`math.MaxInt32`), which are kept literally.
- The parquet reader interface (row groups / column chunks / pages / value
  readers) is modelled by pure data: a row group is a list of pages, a page a
  list of values carrying repetition and definition levels.  I/O errors do not
  arise in the pure model.
- `SyncIterator` is a state machine over that data; its `next` loop is encoded
  as a fuel-indexed recursion whose branches mirror the Go control flow.
- Composite iterators (`JoinIterator`, `LeftJoinIterator`, `UnionIterator`)
  operate over child iterators through the `Iterator` interface only; children
  are modelled by their interface contract as pure streams (lists) of results,
  where `Next` pops the head and `SeekTo(t, d)` drops results whose row number
  compares less than `t` at level `d`.
-/

namespace Tempo

/-- A row number: the Go type `RowNumber [8]int32`. We use a `List Int` whose
length is 8 by convention; theorems carry the length where it matters. -/
abbrev RowNumber := List Int

/-- `math.MaxInt32`, used literally by the Go code as a sentinel. -/
def maxInt32 : Int := 2147483647

/-- Go `MaxDefinitionLevel = 7`. -/
def MaxDefinitionLevel : Nat := 7

/-- Go `EmptyRowNumber()`: all positions `-1`. -/
def EmptyRowNumber : RowNumber := List.replicate 8 (-1)

/-- Go `MaxRowNumber()`: `RowNumber{math.MaxInt32}`, i.e. position 0 is
INT32_MAX and the remaining array positions are zero-initialised. -/
def MaxRowNumber : RowNumber := maxInt32 :: List.replicate 7 0

/-- Lexicographic comparison of two integer lists, the loop body of
`CompareRowNumbers`: the first differing position decides. -/
def lexCmp : List Int → List Int → Int
  | [], _ => 0
  | _ :: _, [] => 0
  | a :: as, b :: bs =>
    if a < b then -1
    else if b < a then 1
    else lexCmp as bs

/-- Go `CompareRowNumbers(upToDefinitionLevel, a, b)`: lexicographic
comparison of positions `0..upToDefinitionLevel`. -/
def CompareRowNumbers (upToDefinitionLevel : Nat) (a b : RowNumber) : Int :=
  lexCmp (a.take (upToDefinitionLevel + 1)) (b.take (upToDefinitionLevel + 1))

/-- Go `EqualRowNumber(upToDefinitionLevel, a, b)`: equality of positions
`0..upToDefinitionLevel`. -/
def EqualRowNumber (upToDefinitionLevel : Nat) (a b : RowNumber) : Bool :=
  a.take (upToDefinitionLevel + 1) == b.take (upToDefinitionLevel + 1)

/-- Go `TruncateRowNumber(definitionLevelToKeep, t)`: keep positions
`0..definitionLevelToKeep`, set the rest to `-1`. -/
def TruncateRowNumber (definitionLevelToKeep : Nat) (t : RowNumber) : RowNumber :=
  t.take (definitionLevelToKeep + 1) ++ List.replicate (7 - definitionLevelToKeep) (-1)

/-- Go `(t *RowNumber).Valid()`: position 0 is nonnegative. -/
def RowNumber.Valid (t : RowNumber) : Bool := decide (0 ≤ t.headD (-1))

/-- The body of `RowNumber.Next`, position by position.  Mirrors the Go
sequence: `t[repetitionLevel]++`, then positions `repetitionLevel+1 ..
definitionLevel` are zeroed, then positions `definitionLevel+1 ..
maxDefinitionLevel` (bounded by the array length) are set to `-1`; the later
writes win. -/
def nextAux (repetitionLevel definitionLevel maxDefinitionLevel : Nat) :
    Nat → List Int → List Int
  | _, [] => []
  | i, v :: rest =>
    (if definitionLevel < i ∧ i ≤ maxDefinitionLevel then -1
     else if repetitionLevel < i ∧ i ≤ definitionLevel then 0
     else if i = repetitionLevel then v + 1
     else v) :: nextAux repetitionLevel definitionLevel maxDefinitionLevel (i + 1) rest

/-- Go `(t *RowNumber).Next(repetitionLevel, definitionLevel, maxDefinitionLevel)`. -/
def RowNumber.next (t : RowNumber) (repetitionLevel definitionLevel maxDefinitionLevel : Nat) :
    RowNumber :=
  nextAux repetitionLevel definitionLevel maxDefinitionLevel 0 t

/-- Go `(t *RowNumber).Skip(numRows)`: advance position 0, undefine the rest. -/
def RowNumber.Skip (t : RowNumber) (numRows : Int) : RowNumber :=
  match t with
  | [] => []
  | x :: rest => (x + numRows) :: rest.map (fun _ => -1)

/-- The loop body of `Preceding`, walking the positions from the last one
backwards (hence operating on the reversed list): `-1` positions are kept,
`0` becomes INT32_MAX, and the first positive position is decremented, at
which point the remaining (earlier) positions are kept unchanged. -/
def precR : List Int → List Int
  | [] => []
  | x :: rest =>
    if x = -1 then x :: precR rest
    else if x = 0 then maxInt32 :: precR rest
    else (x - 1) :: rest

/-- Go `(t RowNumber).Preceding()`. -/
def RowNumber.Preceding (t : RowNumber) : RowNumber := (precR t.reverse).reverse

/-! ### The SyncIterator model

The parquet reader interface is modelled by pure data.  A value carries its
repetition and definition levels (as read by `v.RepetitionLevel()` and
`v.DefinitionLevel()`) and an integer payload standing for the column value.
A page knows its row count (`Page.NumRows()`, metadata) and its values; a row
group knows its row count (`RowGroup.NumRows()`) and its pages (the column
chunk of the iterated column).  The `Predicate` interface becomes a triple of
boolean functions; a `nil` Go predicate corresponds to constantly-true
functions.  Value buffering (`readSize`/`ReadValues`) only batches reads and
is modelled by consuming the page's value list directly. -/

structure PQValue where
  repetitionLevel : Nat
  definitionLevel : Nat
  payload : Int
deriving DecidableEq, Repr

structure PageM where
  numRows : Nat
  values : List PQValue
deriving DecidableEq, Repr

structure RowGroupM where
  numRows : Nat
  pages : List PageM
deriving DecidableEq, Repr

structure SyncPredicate where
  KeepColumnChunk : RowGroupM → Bool
  KeepPage : PageM → Bool
  KeepValue : PQValue → Bool

/-- One entry of the parallel slices `rgs`/`rgsMin`/`rgsMax` of `SyncIterator`. -/
structure RGEntry where
  rg : RowGroupM
  min : RowNumber
  max : RowNumber
deriving DecidableEq, Repr

/-- The open column chunk: `currRowGroup`/`currChunk` (remaining pages) with
`currRowGroupMin`/`currRowGroupMax`. -/
structure CurrRGM where
  pages : List PageM
  rgMin : RowNumber
  rgMax : RowNumber
deriving DecidableEq, Repr

/-- The open page: `currPage` (the page object), `currValues` (the value
reader, i.e. the values not yet read), `currPageN`, `currPageMin`,
`currPageMax`. -/
structure CurrPageM where
  page : PageM
  remaining : List PQValue
  pageN : Nat
  pMin : RowNumber
  pMax : RowNumber
deriving DecidableEq, Repr

/-- The mutable state of a `SyncIterator`. -/
structure SyncState where
  rgs : List RGEntry
  curr : RowNumber
  currRG : Option CurrRGM
  currPage : Option CurrPageM
deriving DecidableEq, Repr

/-- The configuration of a `SyncIterator` (fields fixed at construction). -/
structure SyncConfig where
  filter : SyncPredicate
  maxDefinitionLevel : Nat

/-- The row-group bound computation in `NewSyncIterator`: lower bound
inclusive, upper bound exclusive (`rn.Skip(NumRows+1)`), and the running row
number advances by `NumRows` per group. -/
def syncBounds : RowNumber → List RowGroupM → List RGEntry
  | _, [] => []
  | rn, rg :: rest =>
    { rg := rg, min := rn, max := rn.Skip ((rg.numRows : Int) + 1) } ::
      syncBounds (rn.Skip (rg.numRows : Int)) rest

/-- Go `NewSyncIterator`: precompute the per-row-group bounds and start with
`curr = EmptyRowNumber()` and no open row group or page. -/
def NewSyncIterator (rgs : List RowGroupM) : SyncState :=
  { rgs := syncBounds EmptyRowNumber rgs
    curr := EmptyRowNumber
    currRG := none
    currPage := none }

/-- Go `SyncIterator.setPage(nil)`: reposition `curr` at the end of the
outgoing page and drop it. -/
def setPageNil (s : SyncState) : SyncState :=
  match s.currPage with
  | some cp => { s with curr := cp.pMax.Preceding, currPage := none }
  | none => s

/-- Go `SyncIterator.setPage(pg)` for an incoming page (call sites only pass
a non-nil page when no page is open): `currPageMin = curr` and
`currPageMax = curr.Skip(NumRows+1)`, exclusive. -/
def setPageNew (s : SyncState) (pg : PageM) : SyncState :=
  let cp : CurrPageM :=
    { page := pg
      remaining := pg.values
      pageN := 0
      pMin := s.curr
      pMax := s.curr.Skip ((pg.numRows : Int) + 1) }
  { s with currPage := some cp }

/-- Go `SyncIterator.closeCurrRowGroup()`. -/
def closeCurrRowGroup (s : SyncState) : SyncState :=
  let s := setPageNil s
  { s with currRG := none }

/-- Go `SyncIterator.setRowGroup(rg, min, max, cc)`. -/
def setRowGroup (s : SyncState) (e : RGEntry) : SyncState :=
  let s := closeCurrRowGroup s
  { s with curr := e.min
           currRG := some { pages := e.rg.pages, rgMin := e.min, rgMax := e.max } }

/-- Rows of a value sequence: each row starts at a repetition-0 value. -/
def splitRows : List PQValue → List (List PQValue)
  | [] => []
  | v :: rest =>
    (v :: rest.takeWhile (fun w => !(w.repetitionLevel == 0))) ::
      splitRows (rest.dropWhile (fun w => !(w.repetitionLevel == 0)))
termination_by vs => vs.length
decreasing_by
  simp only [List.length_cons]
  exact Nat.lt_succ_of_le ((List.dropWhile_suffix _).sublist.length_le)

/-- Parquet `Page.Slice(i, j)`: the page restricted to rows `[i, j)`. -/
def pageSlice (p : PageM) (i j : Nat) : PageM :=
  { numRows := j - i
    values := (((splitRows p.values).drop i).take (j - i)).flatten }

/-- Go `SyncIterator.next()`: the core loop, returning the next matching
`(RowNumber, value)` or `none` on exhaustion.  Each `continue` of the Go loop
is a recursive call; the fuel only bounds the number of loop iterations and
an outer `none` means the fuel ran out. -/
def nextFuel (cfg : SyncConfig) : Nat → SyncState → Option (Option (RowNumber × PQValue) × SyncState)
  | 0, _ => none
  | fuel + 1, s =>
    match s.currRG with
    | none =>
      match s.rgs with
      | [] => some (none, s)
      | e :: rest =>
        if cfg.filter.KeepColumnChunk e.rg then
          nextFuel cfg fuel (setRowGroup { s with rgs := rest } e)
        else
          nextFuel cfg fuel { s with rgs := rest }
    | some rg =>
      match s.currPage with
      | none =>
        match rg.pages with
        | [] => nextFuel cfg fuel (closeCurrRowGroup s)
        | pg :: rest =>
          let s' := { s with currRG := some { rg with pages := rest } }
          if cfg.filter.KeepPage pg then
            nextFuel cfg fuel (setPageNew s' pg)
          else
            nextFuel cfg fuel { s' with curr := s'.curr.Skip (pg.numRows : Int) }
      | some cp =>
        match cp.remaining with
        | [] => nextFuel cfg fuel (setPageNil s)
        | v :: vs =>
          let s' := { s with
            currPage := some { cp with remaining := vs, pageN := cp.pageN + 1 }
            curr := s.curr.next v.repetitionLevel v.definitionLevel cfg.maxDefinitionLevel }
          if cfg.filter.KeepValue v then some (some (s'.curr, v), s')
          else nextFuel cfg fuel s'

/-- The row-group loop of `SyncIterator.seekRowGroup`: pop row groups,
skipping those whose `max` is not past the target at the given level and
those rejected by `KeepColumnChunk`; returns `done = true` when the groups
run out. -/
def seekRGLoop (cfg : SyncConfig) (tgt : RowNumber) (d : Nat) (s : SyncState) :
    List RGEntry → Bool × SyncState
  | [] => (true, { s with rgs := [] })
  | e :: rest =>
    if CompareRowNumbers d tgt e.max ≠ -1 then seekRGLoop cfg tgt d s rest
    else if cfg.filter.KeepColumnChunk e.rg then
      (false, setRowGroup { s with rgs := rest } e)
    else seekRGLoop cfg tgt d s rest

/-- Go `SyncIterator.seekRowGroup(seekTo, definitionLevel)`. -/
def seekRowGroup (cfg : SyncConfig) (s : SyncState) (tgt : RowNumber) (d : Nat) :
    Bool × SyncState :=
  let s1 :=
    match s.currRG with
    | some rg => if 0 ≤ CompareRowNumbers d tgt rg.rgMax then closeCurrRowGroup s else s
    | none => s
  match s1.currRG with
  | some _ => (false, s1)
  | none => seekRGLoop cfg tgt d s1 s1.rgs

/-- The page loop of `SyncIterator.seekPages`: advance pages of the current
chunk, skipping by row number or by `KeepPage`; `done = true` (with the row
group closed) when the chunk runs out of pages. -/
def seekPagesLoop (cfg : SyncConfig) (tgt : RowNumber) (d : Nat) (rg : CurrRGM) :
    SyncState → List PageM → Bool × SyncState
  | s, [] => (true, closeCurrRowGroup { s with currRG := some { rg with pages := [] } })
  | s, pg :: rest =>
    let newRN := s.curr.Skip ((pg.numRows : Int) + 1)
    if 0 ≤ CompareRowNumbers d tgt newRN then
      seekPagesLoop cfg tgt d rg { s with curr := s.curr.Skip (pg.numRows : Int) } rest
    else if cfg.filter.KeepPage pg then
      (false, setPageNew { s with currRG := some { rg with pages := rest } } pg)
    else
      seekPagesLoop cfg tgt d rg { s with curr := s.curr.Skip (pg.numRows : Int) } rest

/-- Go `SyncIterator.seekPages(seekTo, definitionLevel)`. -/
def seekPages (cfg : SyncConfig) (s : SyncState) (tgt : RowNumber) (d : Nat) :
    Bool × SyncState :=
  let s1 :=
    match s.currPage with
    | some cp => if 0 ≤ CompareRowNumbers d tgt cp.pMax then setPageNil s else s
    | none => s
  match s1.currPage with
  | some _ => (false, s1)
  | none =>
    match s1.currRG with
    | some rg => seekPagesLoop cfg tgt d rg s1 rg.pages
    | none => (true, s1)

/-- The repetition-level counting loop of `seekWithinPage` (the
`definitionLevel > 0` branch): count the `Next()` calls needed tgt reach the
target row, giving up (and deciding tgt reslice) past the magic threshold of
1000. -/
def countLoop : List Nat → Int → Nat → Bool
  | [], _, _ => false
  | r :: rest, rowsLeft, nexts =>
    let nexts := nexts + 1
    if nexts > 1000 then true
    else if r = 0 then
      (if rowsLeft - 1 ≤ 0 then false else countLoop rest (rowsLeft - 1) nexts)
    else countLoop rest rowsLeft nexts

/-- Go `SyncIterator.seekWithinPage(tgt, definitionLevel)`: heuristically
reslice the current page tgt jump near the target row, resetting `curr` tgt
`Truncate(0, tgt).Preceding()`. -/
def seekWithinPage (cfg : SyncConfig) (s : SyncState) (tgt : RowNumber) (d : Nat) :
    SyncState :=
  match s.currPage with
  | none => s
  | some cp =>
    let rowSkipRelative : Int := tgt.headD (-1) - s.curr.headD (-1)
    if rowSkipRelative = 0 then s
    else
      let shouldSkip : Bool :=
        if d = 0 then decide (rowSkipRelative > 1000)
        else countLoop ((cp.page.values.map PQValue.repetitionLevel).drop cp.pageN)
          rowSkipRelative 0
      if shouldSkip = false then s
      else
        let rowSkip := tgt.headD (-1) - cp.pMin.headD (-1)
        if rowSkip < 1 then s
        else if rowSkip > (cp.page.numRows : Int) then s
        else
          let pg := pageSlice cp.page (rowSkip - 1).toNat cp.page.numRows
          let curr2 := (TruncateRowNumber 0 tgt).Preceding
          { s with curr := curr2
                   currPage := some { page := pg, remaining := pg.values, pageN := 0,
                                      pMin := curr2, pMax := cp.pMax } }

/-- The final scan loop of `SyncIterator.SeekTo`: call `next()` until a row
number at or past the target (at the given level) appears. -/
def seekScan (cfg : SyncConfig) (tgt : RowNumber) (d : Nat) :
    Nat → SyncState → Option (Option (RowNumber × PQValue) × SyncState)
  | 0, _ => none
  | f + 1, s =>
    match nextFuel cfg (f + 1) s with
    | none => none
    | some (none, s') => some (none, s')
    | some (some (rn, v), s') =>
      if 0 ≤ CompareRowNumbers d rn tgt then some (some (rn, v), s')
      else seekScan cfg tgt d f s'

/-- Go `SyncIterator.SeekTo(tgt, definitionLevel)`. -/
def SeekToFuel (cfg : SyncConfig) (fuel : Nat) (s : SyncState) (tgt : RowNumber)
    (d : Nat) : Option (Option (RowNumber × PQValue) × SyncState) :=
  let r1 := seekRowGroup cfg s tgt d
  if r1.1 then some (none, r1.2)
  else
    let r2 := seekPages cfg r1.2 tgt d
    if r2.1 then some (none, r2.2)
    else
      let s3 := seekWithinPage cfg r2.2 tgt d
      seekScan cfg tgt d fuel s3

/-- Iterating `Next()` and collecting the emitted results; the final flag is
true when the iterator reported exhaustion within the fuel. -/
def syncRun (cfg : SyncConfig) : Nat → SyncState → List (RowNumber × PQValue) × SyncState × Bool
  | 0, s => ([], s, false)
  | fuel + 1, s =>
    match nextFuel cfg (fuel + 1) s with
    | none => ([], s, false)
    | some (none, s') => ([], s', true)
    | some (some rv, s') =>
      let rec' := syncRun cfg fuel s'
      (rv :: rec'.1, rec'.2)

/-! ### Well-formedness of the parquet data and the iterator invariant -/

/-- A parquet value has consistent levels: `rep ≤ def ≤ maxDef (≤ 7)`. -/
def wfValue (maxDef : Nat) (v : PQValue) : Prop :=
  v.repetitionLevel ≤ v.definitionLevel ∧ v.definitionLevel ≤ maxDef

/-- Number of row starts (repetition level 0) in a value sequence. -/
def rep0count (vs : List PQValue) : Nat := vs.countP (fun v => v.repetitionLevel == 0)

/-- A well-formed page: values have consistent levels, the page is row-aligned
(nonempty, starting at a repetition-0 value) and its `NumRows` metadata equals
the number of row starts it contains. -/
def wfPage (maxDef : Nat) (p : PageM) : Prop :=
  (∀ v ∈ p.values, wfValue maxDef v) ∧
  p.values ≠ [] ∧
  (∀ v ∈ p.values.head?, v.repetitionLevel = 0) ∧
  p.numRows = rep0count p.values

def pagesRows (ps : List PageM) : Int := (ps.map (fun p => (p.numRows : Int))).sum

/-- A well-formed row group entry: pages well-formed, `NumRows` metadata
consistent with the pages, bounds as computed by `NewSyncIterator`, and `min`
of the canonical shape (position 0 defined, the rest `-1`). -/
def wfEntry (maxDef : Nat) (e : RGEntry) : Prop :=
  (∀ p ∈ e.rg.pages, wfPage maxDef p) ∧
  (e.rg.numRows : Int) = pagesRows e.rg.pages ∧
  e.max.headD (-1) = e.min.headD (-1) + (e.rg.numRows : Int) + 1 ∧
  e.min = e.min.headD (-1) :: List.replicate 7 (-1) ∧
  -1 ≤ e.min.headD (-1)

/-- The remaining row-group entries start at or after row-before `x` and chain. -/
def chainFrom : Int → List RGEntry → Prop
  | _, [] => True
  | x, e :: rest =>
    x ≤ e.min.headD (-1) ∧ chainFrom (e.min.headD (-1) + (e.rg.numRows : Int)) rest

def pageContrib : Option CurrPageM → Int
  | none => 0
  | some cp => (rep0count cp.remaining : Int)

/-- No value of the open page has been consumed yet (or no page is open). -/
def freshPage (s : SyncState) : Prop :=
  match s.currPage with
  | none => True
  | some cp => cp.remaining = cp.page.values

/-- Row accounting for the open row group. -/
def rgInv (cfg : SyncConfig) (s : SyncState) : Prop :=
  match s.currRG with
  | none => s.currPage = none ∧ chainFrom (s.curr.headD (-1)) s.rgs
  | some rg =>
    (∀ p ∈ rg.pages, wfPage cfg.maxDefinitionLevel p) ∧
    chainFrom (rg.rgMax.headD (-1) - 1) s.rgs ∧
    s.curr.headD (-1) + pagesRows rg.pages + pageContrib s.currPage =
      rg.rgMax.headD (-1) - 1

/-- Row accounting for the open page. -/
def pageInv (cfg : SyncConfig) (s : SyncState) : Prop :=
  match s.currPage with
  | none => True
  | some cp =>
    (∀ v ∈ cp.remaining, wfValue cfg.maxDefinitionLevel v) ∧
    wfPage cfg.maxDefinitionLevel cp.page ∧
    cp.pMax = cp.pMax.headD (-1) :: List.replicate 7 (-1) ∧
    1 ≤ cp.pMax.headD (-1) ∧
    s.curr.headD (-1) + (rep0count cp.remaining : Int) = cp.pMax.headD (-1) - 1

/-- Relation between the last emitted row number and the iterator position:
either the current position has caught up with the last emission under full
comparison, or the next value to be consumed starts a fresh page (hence a new
row past position 0 of the last emission). -/
def lastInv (s : SyncState) : Option RowNumber → Prop
  | none => True
  | some l =>
    l.length = 8 ∧ l.headD (-1) ≤ s.curr.headD (-1) ∧
    (CompareRowNumbers 7 l s.curr ≤ 0 ∨ freshPage s)

/-- The full invariant of the `SyncIterator` state machine. -/
structure WFSync (cfg : SyncConfig) (s : SyncState) (last : Option RowNumber) : Prop where
  maxDef_le : cfg.maxDefinitionLevel ≤ 7
  curr_len : s.curr.length = 8
  curr_head : -1 ≤ s.curr.headD (-1)
  rgs_wf : ∀ e ∈ s.rgs, wfEntry cfg.maxDefinitionLevel e
  rg_inv : rgInv cfg s
  page_inv : pageInv cfg s
  last_inv : lastInv s last

/-- The state after consuming one value from the open page, as in the value
loop of `next()`. -/
def consumeValue (cfg : SyncConfig) (s : SyncState) (cp : CurrPageM) (v : PQValue)
    (vs : List PQValue) : SyncState :=
  { s with currPage := some { cp with remaining := vs, pageN := cp.pageN + 1 }
           curr := s.curr.next v.repetitionLevel v.definitionLevel cfg.maxDefinitionLevel }

/-- Well-formed input data for a `SyncIterator`: pages are well-formed and
the row-group `NumRows` metadata is consistent. -/
def wfInput (maxDef : Nat) (rgs : List RowGroupM) : Prop :=
  ∀ rg ∈ rgs, (∀ p ∈ rg.pages, wfPage maxDef p) ∧ (rg.numRows : Int) = pagesRows rg.pages

/-- The filter used by the C10 counterexample: pages are kept only when all
their values carry payload 1. -/
def c10cfg : SyncConfig :=
  { filter := { KeepColumnChunk := fun _ => true
                KeepPage := fun p => p.values.all (fun v => v.payload == 1)
                KeepValue := fun _ => true }
    maxDefinitionLevel := 0 }

def c10rgA : RowGroupM := { numRows := 1, pages := [{ numRows := 1, values := [⟨0, 0, 0⟩] }] }

def c10rgB : RowGroupM := { numRows := 1, pages := [{ numRows := 1, values := [⟨0, 0, 1⟩] }] }

/-! ### Composite iterators

`JoinIterator`, `LeftJoinIterator` and `UnionIterator` interact with their
children only through the `Iterator` interface (`Next`, `SeekTo`).  Children
are therefore modelled by the interface contract as pure streams (lists) of
results: `Next` pops the head; `SeekTo(t, d)` skips results whose RowNumber
compares less than `t` at level `d` and returns the first remaining one.  A
child is the pair of its peek slot (`peeks[i]`) and its stream. -/

/-- `IteratorResult`: a row number with named entries.  Values are modelled
as byte strings (`pq.Value.ByteArray()`); `OtherEntries` values are opaque
and modelled the same way. -/
structure Res where
  rn : RowNumber
  Entries : List (String × String)
  OtherEntries : List (String × String)
deriving DecidableEq, Repr

abbrev ResStream := List Res

/-- A child iterator as seen by a composite iterator: its peek slot and the
results it has not yet produced. -/
abbrev Child := Option Res × ResStream

/-- The `Iterator.Next` contract on a stream. -/
def streamNext : ResStream → Option Res × ResStream
  | [] => (none, [])
  | r :: rest => (some r, rest)

/-- The `Iterator.SeekTo(t, d)` contract on a stream: skip results below `t`
at level `d`, return the first one at or past it. -/
def streamSeek (tgt : RowNumber) (d : Nat) : ResStream → Option Res × ResStream
  | [] => (none, [])
  | r :: rest =>
    if CompareRowNumbers d r.rn tgt = -1 then streamSeek tgt d rest
    else (some r, rest)

/-- `peek(i)` for one child: refill an empty peek slot from the stream. -/
def childPeek : Child → Child
  | (none, s) => streamNext s
  | c => c

/-- The first-pass peek loop of `JoinIterator.Next` (also used by
`LeftJoinIterator.Next` on its required children): refill every peek in
order, stopping at the first exhausted child. -/
def peekPhase : List Child → Bool × List Child
  | [] => (true, [])
  | c :: rest =>
    let c' := childPeek c
    match c'.1 with
    | none => (false, c' :: rest)
    | some _ =>
      let r := peekPhase rest
      (r.1, c' :: r.2)

/-- `JoinIterator.seek(iterNum, t, d)`: truncate the target to the join
level, then seek the child if its peek is empty or below the target. -/
def joinSeekChild (d : Nat) (tgt : RowNumber) (c : Child) : Child :=
  let t := TruncateRowNumber d tgt
  match c.1 with
  | none => streamSeek t d c.2
  | some p => if CompareRowNumbers d p.rn t = -1 then streamSeek t d c.2 else c

/-- `LeftJoinIterator.seek(iterNum, t, d)` (and the body of
`seekAllOptional`): identical to the join seek but without truncating the
target. -/
def ljSeekChild (d : Nat) (tgt : RowNumber) (c : Child) : Child :=
  match c.1 with
  | none => streamSeek tgt d c.2
  | some p => if CompareRowNumbers d p.rn tgt = -1 then streamSeek tgt d c.2 else c

/-- Outcome of the `iterNum = 1..N` seek loop of the join iterators. -/
inductive SeekOut where
  | exhausted (tail : List Child)
  | swapped (c0 : Child) (tail : List Child)
  | ready (tail : List Child)
deriving Repr

/-- The `iterNum = 1..N` loop of `JoinIterator.Next` /
`LeftJoinIterator.Next`: seek each later child to the leader's row number;
if a child ends up strictly past the leader at the join level, swap it with
the leader (slot 0) and restart. -/
def seekTail (d : Nat) (seekChild : RowNumber → Child → Child) (c0 : Child) (p0 : Res) :
    List Child → SeekOut
  | [] => .ready []
  | c :: rest =>
    let c' := seekChild p0.rn c
    match c'.1 with
    | none => .exhausted (c' :: rest)
    | some p =>
      if CompareRowNumbers d p.rn p0.rn = 1 then
        .swapped c' (c0 :: rest)
      else
        match seekTail d seekChild c0 p0 rest with
        | .exhausted tail' => .exhausted (c' :: tail')
        | .swapped c0' tail' => .swapped c0' (c' :: tail')
        | .ready tail' => .ready (c' :: tail')

/-- The collect loop for one child (`JoinIterator.collect` /
`LeftJoinIterator.collect` / `UnionIterator.collect` inner loop): append
successive peeks equal to the group row number at the join level, refilling
the peek from the stream each time. -/
def collectChild (d : Nat) (rn : RowNumber) : Option Res → ResStream → List Res × Child
  | none, s => ([], (none, s))
  | some r, s =>
    if EqualRowNumber d r.rn rn then
      match s with
      | [] => ([r], (none, []))
      | r2 :: rest =>
        let rec' := collectChild d rn (some r2) rest
        (r :: rec'.1, rec'.2)
    else ([], (some r, s))

/-- Collect over all children in order. -/
def collectAll (d : Nat) (rn : RowNumber) : List Child → List Res × List Child
  | [] => ([], [])
  | c :: rest =>
    let r1 := collectChild d rn c.1 c.2
    let r2 := collectAll d rn rest
    (r1.1 ++ r2.1, r1.2 :: r2.2)

/-- Assemble the group result: `Reset`, set the row number, and `Append`
each collected child result in order. -/
def assemble (rn : RowNumber) (rs : List Res) : Res :=
  { rn := rn
    Entries := (rs.map Res.Entries).flatten
    OtherEntries := (rs.map Res.OtherEntries).flatten }

/-- Go `JoinIterator.Next`.  The fuel bounds the iterations of the outer
loop; the remaining fuel is returned.  `none` (fuel ran out) never occurs
with sufficient fuel.  An empty child list is outside the Go contract
(`j.peeks[0]` would panic) and is reported as exhaustion. -/
def joinNext (pred : Option (Res → Bool)) (d : Nat) :
    Nat → List Child → Option (Option Res × List Child × Nat)
  | 0, _ => none
  | fuel + 1, children =>
    match children with
    | [] => some (none, [], fuel)
    | c0 :: tail =>
      match (if c0.1.isNone then peekPhase (c0 :: tail) else (true, c0 :: tail)) with
      | (false, children') => some (none, children', fuel)
      | (true, children') =>
        match children' with
        | [] => some (none, [], fuel)
        | c0' :: tail' =>
          match c0'.1 with
          | none => some (none, c0' :: tail', fuel)
          | some p0 =>
            match seekTail d (joinSeekChild d) c0' p0 tail' with
            | .exhausted tail2 => some (none, c0' :: tail2, fuel)
            | .swapped c02 tail2 => joinNext pred d fuel (c02 :: tail2)
            | .ready tail2 =>
              let col := collectAll d p0.rn (c0' :: tail2)
              let result := assemble p0.rn col.1
              match pred with
              | none => some (some result, col.2, fuel)
              | some pr =>
                if pr result then some (some result, col.2, fuel)
                else joinNext pred d fuel col.2

/-- Go `LeftJoinIterator.Next`: the same loop on the required children;
on a match, `collect` first seeks all optional children to the group row
number, then collects required and optional children in order. -/
def leftNext (pred : Option (Res → Bool)) (d : Nat) :
    Nat → List Child → List Child → Option (Option Res × (List Child × List Child) × Nat)
  | 0, _, _ => none
  | fuel + 1, required, optional =>
    match required with
    | [] => some (none, ([], optional), fuel)
    | c0 :: tail =>
      match (if c0.1.isNone then peekPhase (c0 :: tail) else (true, c0 :: tail)) with
      | (false, required') => some (none, (required', optional), fuel)
      | (true, required') =>
        match required' with
        | [] => some (none, ([], optional), fuel)
        | c0' :: tail' =>
          match c0'.1 with
          | none => some (none, (c0' :: tail', optional), fuel)
          | some p0 =>
            match seekTail d (ljSeekChild d) c0' p0 tail' with
            | .exhausted tail2 => some (none, (c0' :: tail2, optional), fuel)
            | .swapped c02 tail2 => leftNext pred d fuel (c02 :: tail2) optional
            | .ready tail2 =>
              let optional2 := optional.map (ljSeekChild d p0.rn)
              let colR := collectAll d p0.rn (c0' :: tail2)
              let colO := collectAll d p0.rn optional2
              let result := assemble p0.rn (colR.1 ++ colO.1)
              match pred with
              | none => some (some result, (colR.2, colO.2), fuel)
              | some pr =>
                if pr result then some (some result, (colR.2, colO.2), fuel)
                else leftNext pred d fuel colR.2 colO.2

/-- The minimum-finding loop of `UnionIterator.Next`: the accumulator is
`lowestRowNumber` (starting at `MaxRowNumber()`), replaced whenever a peek
compares strictly lower at the union level, so it ends as the full row
number of the first child attaining the minimal level-`d` class. -/
def unionLowest (d : Nat) : List Child → RowNumber → RowNumber
  | [], lowest => lowest
  | c :: rest, lowest =>
    match c.1 with
    | none => unionLowest d rest lowest
    | some r =>
      if CompareRowNumbers d r.rn lowest = -1 then unionLowest d rest r.rn
      else unionLowest d rest lowest

/-- Go `UnionIterator.Next`.  `lowestIters` is not materialised: collecting
from every child (in order) while its peek equals the lowest row number at
level `d` collects exactly from the tied children, since a non-tied child's
peek is strictly greater at level `d` and contributes nothing; the
`len(u.lowestIters) > 0` check becomes `anyTied` (some peek compares equal
to the final lowest row number at level `d`, which is exactly membership in
`lowestIters`). -/
def unionNext (pred : Option (Res → Bool)) (d : Nat) :
    Nat → List Child → Option (Option Res × List Child × Nat)
  | 0, _ => none
  | fuel + 1, children =>
    let children1 := children.map childPeek
    let lowest := unionLowest d children1 MaxRowNumber
    let anyTied := children1.any (fun c =>
      match c.1 with
      | some r => CompareRowNumbers d r.rn lowest == 0
      | none => false)
    let col := collectAll d lowest children1
    let result := assemble lowest col.1
    if anyTied then
      match pred with
      | none => some (some result, col.2, fuel)
      | some pr =>
        if pr result then some (some result, col.2, fuel)
        else unionNext pred d fuel col.2
    else some (none, col.2, fuel)

/-- Repeated `Next()` on a `JoinIterator`, collecting emissions.  The first
fuel bounds the number of emissions, the second is threaded through
`joinNext`; the flag reports that exhaustion was reached. -/
def joinRun (pred : Option (Res → Bool)) (d : Nat) :
    Nat → Nat → List Child → List Res × List Child × Nat × Bool
  | 0, itf, cs => ([], cs, itf, false)
  | emf + 1, itf, cs =>
    match joinNext pred d itf cs with
    | none => ([], cs, itf, false)
    | some (none, cs', itf') => ([], cs', itf', true)
    | some (some r, cs', itf') =>
      let rest := joinRun pred d emf itf' cs'
      (r :: rest.1, rest.2.1, rest.2.2.1, rest.2.2.2)

/-- Repeated `Next()` on a `LeftJoinIterator`. -/
def leftRun (pred : Option (Res → Bool)) (d : Nat) :
    Nat → Nat → List Child → List Child → List Res × (List Child × List Child) × Nat × Bool
  | 0, itf, req, opt => ([], (req, opt), itf, false)
  | emf + 1, itf, req, opt =>
    match leftNext pred d itf req opt with
    | none => ([], (req, opt), itf, false)
    | some (none, st', itf') => ([], st', itf', true)
    | some (some r, st', itf') =>
      let rest := leftRun pred d emf itf' st'.1 st'.2
      (r :: rest.1, rest.2.1, rest.2.2.1, rest.2.2.2)

/-- Repeated `Next()` on a `UnionIterator`. -/
def unionRun (pred : Option (Res → Bool)) (d : Nat) :
    Nat → Nat → List Child → List Res × List Child × Nat × Bool
  | 0, itf, cs => ([], cs, itf, false)
  | emf + 1, itf, cs =>
    match unionNext pred d itf cs with
    | none => ([], cs, itf, false)
    | some (none, cs', itf') => ([], cs', itf', true)
    | some (some r, cs', itf') =>
      let rest := unionRun pred d emf itf' cs'
      (r :: rest.1, rest.2.1, rest.2.2.1, rest.2.2.2)

/-- Concrete child streams used to instantiate the union-completeness
theorem: groups 0 and 2 at definition level 0, with a tie on group 0. -/
def c3s1 : ResStream :=
  [⟨[0,-1,-1,-1,-1,-1,-1,-1], [("a","1")], []⟩,
   ⟨[2,-1,-1,-1,-1,-1,-1,-1], [("c","3")], []⟩]

def c3s2 : ResStream :=
  [⟨[0,-1,-1,-1,-1,-1,-1,-1], [("b","2")], []⟩]

/-! ### `KeyValueGroupPredicate` -/

/-- Go `KeyValueGroupPredicate`: the requested key and value byte slices
(modelled as strings, compared byte-for-byte by string equality). -/
structure KeyValueGroupPredicate where
  keys : List String
  vals : List String

/-- Go `NewKeyValueGroupPredicate`: stores the pre-converted pairs. -/
def NewKeyValueGroupPredicate (keys values : List String) : KeyValueGroupPredicate :=
  { keys := keys, vals := values }

/-- The inner loop of `IteratorResult.Columns`: an entry is appended to the
buffer of the first requested name matching its key. -/
def appendFirst : List String → List (List String) → (String × String) → List (List String)
  | [], bufs, _ => bufs
  | _ :: _, [], _ => []
  | n :: ns, b :: bs, e => if e.1 = n then (b ++ [e.2]) :: bs else b :: appendFirst ns bs e

/-- Go `IteratorResult.Columns`: one buffer per requested name, filled from
the entries in order. -/
def Columns (entries : List (String × String)) (names : List String) : List (List String) :=
  entries.foldl (appendFirst names) (names.map (fun _ => []))

/-- Go `KeyValueGroupPredicate.KeepGroup`: gather the `keys` and `values`
columns, reject short or mismatched columns, then require every requested
pair to appear at some common index. -/
def KeepGroup (a : KeyValueGroupPredicate) (group : Res) : Bool :=
  let buffer := Columns group.Entries ["keys", "values"]
  let keys := buffer.getD 0 []
  let vals := buffer.getD 1 []
  if keys.length < a.keys.length ∨ keys.length ≠ vals.length then false
  else (a.keys.zip a.vals).all (fun kv =>
    (keys.zip vals).any (fun p => p.1 == kv.1 && p.2 == kv.2))

/-- A group with a single key/value pair, used against a two-pair predicate
requesting that same pair twice. -/
def c6group : Res := ⟨[0,-1,-1,-1,-1,-1,-1,-1], [("keys","a"), ("values","b")], []⟩

/-! ### Replication-aware discard accounting (distributor) -/

/-- The per-replica push outcome (`tempopb.PushErrorReason`) as used by the
replication accounting: success, or the two discard reasons tracked by the
counters under test. -/
inductive PushErrorReason where
  | noError
  | maxLiveTraces
  | traceTooLarge
deriving DecidableEq, Repr

/-- The slice of a rebatched trace that the accounting reads. -/
structure RebatchedTrace where
  spanCount : Nat
deriving DecidableEq, Repr

/-- Modelled from the spec: per-trace replication accounting.  Each trace
with fewer successful replica responses than the quorum is discarded and its
full span count is added to the counter of its last non-success reason; the
quorum that reproduces the distributor test table is `⌊R/2⌋ + 1` successes
(integer division), not the `⌈R/2⌉ + 1` written in the spec text. -/
def countDiscardedSpans : List Nat → List PushErrorReason → List RebatchedTrace →
    Nat → Nat × Nat
  | n :: ns, e :: le, t :: ts, rf =>
    let rest := countDiscardedSpans ns le ts rf
    if n < rf / 2 + 1 then
      match e with
      | .maxLiveTraces => (rest.1 + t.spanCount, rest.2)
      | .traceTooLarge => (rest.1, rest.2 + t.spanCount)
      | .noError => rest
    else rest
  | _, _, _, _ => (0, 0)

/-- The response-aggregation loop of `TestDiscardCountReplicationFactor`:
each replica response vector is walked by ring index, translated to a trace
index through `keys`, counting successes and recording the last error. -/
def applyResponse (keys : List Nat) (acc : List Nat × List PushErrorReason)
    (resp : List PushErrorReason) : List Nat × List PushErrorReason :=
  (List.range resp.length).foldl (fun acc2 ringIndex =>
    let ti := keys.getD ringIndex 0
    match resp.getD ringIndex .noError with
    | .noError => (acc2.1.set ti (acc2.1.getD ti 0 + 1), acc2.2)
    | e => (acc2.1, acc2.2.set ti e)) acc

def aggregateResponses (keys : List Nat) (numTraces : Nat)
    (pushErrorByTrace : List (List PushErrorReason)) :
    List Nat × List PushErrorReason :=
  pushErrorByTrace.foldl (applyResponse keys)
    (List.replicate numTraces 0, List.replicate numTraces .noError)

/-- The fixed traces of `TestDiscardCountReplicationFactor`: span counts
5, 15 and 10, addressed through the ring-to-trace map `[0, 2, 1]`. -/
def c8traces : List RebatchedTrace := [⟨5⟩, ⟨15⟩, ⟨10⟩]

def c8keys : List Nat := [0, 2, 1]

/-- One table row of the distributor test: run the aggregation loop and the
accounting on the given response vectors. -/
def c8row (pushErrorByTrace : List (List PushErrorReason)) (rf : Nat) : Nat × Nat :=
  countDiscardedSpans (aggregateResponses c8keys 3 pushErrorByTrace).1
    (aggregateResponses c8keys 3 pushErrorByTrace).2 c8traces rf

/-- The state assembled by Go `NewLeftJoinIterator` (peek slots start
empty; the modelled children are the iterators' result streams). -/
structure LeftJoinIteratorM where
  definitionLevel : Nat
  required : List ResStream
  optional : List ResStream
  pred : Option (Res → Bool)

/-- Go `NewLeftJoinIterator`: fails exactly on an empty required list. -/
def NewLeftJoinIterator (definitionLevel : Nat)
    (required optional : List ResStream) (pred : Option (Res → Bool)) :
    Except String LeftJoinIteratorM :=
  if required.length = 0 then
    Except.error "left join iterator requires at least one required iterator"
  else
    Except.ok ⟨definitionLevel, required, optional, pred⟩

/-! ### Stream-level notions for the composite-iterator proofs -/

/-- The results a child has not yet handed to its parent: the peek slot
followed by the stream. -/
def Child.remaining (c : Child) : ResStream := c.1.toList ++ c.2

/-- A child stream as produced by any engine iterator: strictly increasing
under full comparison, with length-8 row numbers. -/
def wfRes (l : ResStream) : Prop :=
  List.Chain' (fun a b => CompareRowNumbers 7 a.rn b.rn = -1) l ∧
  ∀ r ∈ l, r.rn.length = 8

def wfChild (c : Child) : Prop := wfRes (Child.remaining c)

/-- A child whose peek slot is faithful: an empty peek means an exhausted
stream. -/
def peeked (c : Child) : Prop := c.1 = none → c.2 = []

/-- "Every child iterator yields at least one result whose RowNumber equals
the group when compared at level `d`." -/
def CompleteGroup (d : Nat) (cs : List Child) (g : RowNumber) : Prop :=
  ∀ c ∈ cs, ∃ r ∈ Child.remaining c, EqualRowNumber d r.rn g = true

/-- A child as left by a partial pass of the join seek loop: either untouched
or advanced past everything strictly below the target at level `d`. -/
def procRel (d : Nat) (t : RowNumber) (c c' : Child) : Prop :=
  Child.remaining c' = (Child.remaining c).dropWhile
    (fun r => decide (CompareRowNumbers d r.rn t = -1)) ∨ c' = c

/-- Everything one `JoinIterator.Next` call guarantees.  An emission is an
accepted result for a complete group (every child matches it at level `d`);
without a group predicate the complete groups of the new state are exactly
the old ones minus the emitted group, and reported exhaustion means no
complete group was left.  The new state is well formed and strictly past the
emitted group. -/
def JoinNextSpec (pred : Option (Res → Bool)) (d : Nat) (fuel : Nat)
    (cs : List Child) : Prop :=
  (∀ res cs' f', joinNext pred d fuel cs = some (some res, cs', f') →
    res.rn.length = 8 ∧
    (∃ c ∈ cs, ∃ r ∈ Child.remaining c, r.rn = res.rn) ∧
    CompleteGroup d cs res.rn ∧
    (∀ pr, pred = some pr → pr res = true) ∧
    (∀ g, EqualRowNumber d res.rn g = true ∨ CompleteGroup d cs' g →
      CompleteGroup d cs g) ∧
    (pred = none → ∀ g, CompleteGroup d cs g →
      EqualRowNumber d res.rn g = true ∨ CompleteGroup d cs' g) ∧
    (∀ c' ∈ cs', wfChild c') ∧ cs' ≠ [] ∧
    (∀ c' ∈ cs', ∃ c ∈ cs, ∀ r ∈ Child.remaining c', r ∈ Child.remaining c) ∧
    (∀ c' ∈ cs', ∀ r ∈ Child.remaining c', CompareRowNumbers d res.rn r.rn = -1)) ∧
  (∀ cs' f', joinNext pred d fuel cs = some (none, cs', f') →
    pred = none → ∀ g, ¬ CompleteGroup d cs g)

/-- The step relation of the join/left-join bisimulation: both calls agree on
fuel-exhaustion, exhaustion reporting, the returned required-side state and
remaining fuel, and emit results with the same row number. -/
def BisimRel (jv : Option (Option Res × List Child × Nat))
    (lv : Option (Option Res × (List Child × List Child) × Nat)) : Prop :=
  match jv, lv with
  | none, none => True
  | some (none, req', f'), some (none, st', f'') => req' = st'.1 ∧ f' = f''
  | some (some resJ, req', f'), some (some resL, st', f'') =>
      resL.rn = resJ.rn ∧ req' = st'.1 ∧ f' = f''
  | _, _ => False

/-- Concrete child streams for the join witness: both children match group 0
at level 0, only the first matches group 2. -/
def c2s1 : ResStream :=
  [⟨[0,-1,-1,-1,-1,-1,-1,-1], [("a","1")], []⟩,
   ⟨[2,-1,-1,-1,-1,-1,-1,-1], [("c","3")], []⟩]

def c2s2 : ResStream :=
  [⟨[0,-1,-1,-1,-1,-1,-1,-1], [("b","2")], []⟩]

/-- Concrete streams for the left-join witness: one required child with
groups 0 and 2, one optional child contributing extra entries on group 0. -/
def c4r1 : ResStream :=
  [⟨[0,-1,-1,-1,-1,-1,-1,-1], [("a","1")], []⟩,
   ⟨[2,-1,-1,-1,-1,-1,-1,-1], [("c","3")], []⟩]

def c4o1 : ResStream :=
  [⟨[0,-1,-1,-1,-1,-1,-1,-1], [("b","2")], []⟩]

/-- Concrete stream for the monotonicity witness. -/
def c1s1 : ResStream :=
  [⟨[0,-1,-1,-1,-1,-1,-1,-1], [("a","1")], []⟩,
   ⟨[2,-1,-1,-1,-1,-1,-1,-1], [("c","3")], []⟩]

def c1cfg : SyncConfig where
  filter := { KeepColumnChunk := fun _ => true, KeepPage := fun _ => true, KeepValue := fun _ => true }
  maxDefinitionLevel := 0

/-- The amended bound discipline: starting from row-before-first `x`, each
entry has `min` at `x`, exclusive `max` at `x + NumRows + 1` (the row number
of the first row of the next group, under the row-before convention), and the
next entry continues at `x + NumRows`. -/
def boundsChained : Int → List RGEntry → Prop
  | _, [] => True
  | x, e :: rest =>
    e.min.headD (-1) = x ∧
    e.max.headD (-1) = x + (e.rg.numRows : Int) + 1 ∧
    boundsChained (x + (e.rg.numRows : Int)) rest

/-! ## Theorems -/

/-! ### Facts about lexicographic comparison -/

theorem lexCmp_self (l : List Int) : lexCmp l l = 0 := by
  induction l with
  | nil => rfl
  | cons x xs ih => simp [lexCmp, ih]

theorem lexCmp_cases (a b : List Int) : lexCmp a b = -1 ∨ lexCmp a b = 0 ∨ lexCmp a b = 1 := by
  induction a generalizing b with
  | nil => simp [lexCmp]
  | cons x xs ih =>
    cases b with
    | nil => simp [lexCmp]
    | cons y ys =>
      by_cases h1 : x < y
      · simp [lexCmp, h1]
      · by_cases h2 : y < x
        · simp [lexCmp, h1, h2]
        · simpa [lexCmp, h1, h2] using ih ys

theorem lexCmp_eq_zero_iff {a b : List Int} (h : a.length = b.length) :
    lexCmp a b = 0 ↔ a = b := by
  induction a generalizing b with
  | nil => cases b <;> simp_all [lexCmp]
  | cons x xs ih =>
    cases b with
    | nil => simp at h
    | cons y ys =>
      simp only [List.length_cons, Nat.add_right_cancel_iff] at h
      by_cases h1 : x < y
      · simp only [lexCmp, h1, if_true]
        constructor
        · intro hc; exact absurd hc (by decide)
        · intro hc; injection hc with h h; omega
      · by_cases h2 : y < x
        · simp only [lexCmp, h1, h2, if_true, if_false]
          constructor
          · intro hc; exact absurd hc (by decide)
          · intro hc; injection hc with h h; omega
        · have hxy : x = y := by omega
          simp [lexCmp, h1, h2, hxy, ih h]

theorem lexCmp_swap (a b : List Int) : lexCmp a b = -lexCmp b a := by
  induction a generalizing b with
  | nil => cases b <;> simp [lexCmp]
  | cons x xs ih =>
    cases b with
    | nil => simp [lexCmp]
    | cons y ys =>
      by_cases h1 : x < y
      · simp [lexCmp, h1, not_lt.mpr (le_of_lt h1), Int.ne_of_lt h1]
      · by_cases h2 : y < x
        · simp [lexCmp, h1, h2]
        · simp [lexCmp, h1, h2, ih ys]

theorem lexCmp_trans_lt {a b c : List Int} (hab : a.length = b.length)
    (hbc : b.length = c.length) :
    lexCmp a b = -1 → lexCmp b c = -1 → lexCmp a c = -1 := by
  induction a generalizing b c with
  | nil => cases b <;> simp_all [lexCmp]
  | cons x xs ih =>
    cases b with
    | nil => simp at hab
    | cons y ys =>
      cases c with
      | nil => simp at hbc
      | cons z zs =>
        simp only [List.length_cons, Nat.add_right_cancel_iff] at hab hbc
        intro h1 h2
        by_cases hxy : x < y
        · by_cases hyz : y < z
          · simp [lexCmp, show x < z by omega]
          · by_cases hzy : z < y
            · simp [lexCmp, hyz, hzy] at h2
            · have : y = z := by omega
              subst this
              simp [lexCmp, hxy]
        · by_cases hyx : y < x
          · simp [lexCmp, hxy, hyx] at h1
          · have : x = y := by omega
            subst this
            simp only [lexCmp, hxy, if_false, lt_irrefl] at h1
            by_cases hyz : x < z
            · simp [lexCmp, hyz]
            · by_cases hzy : z < x
              · simp [lexCmp, hyz, hzy] at h2
              · have : x = z := by omega
                subst this
                simp only [lexCmp, lt_irrefl, if_false] at h2 ⊢
                exact ih hab hbc h1 h2

/-- A strict comparison on a prefix decides the full comparison. -/
theorem lexCmp_of_take_lt {a b : List Int} {k : Nat}
    (h : lexCmp (a.take k) (b.take k) = -1) : lexCmp a b = -1 := by
  induction a generalizing b k with
  | nil => simp [lexCmp] at h
  | cons x xs ih =>
    cases b with
    | nil =>
      rcases k with _ | k <;> simp [lexCmp] at h
    | cons y ys =>
      rcases k with _ | k
      · simp [lexCmp] at h
      · simp only [List.take_succ_cons] at h
        by_cases h1 : x < y
        · simp [lexCmp, h1]
        · by_cases h2 : y < x
          · simp [lexCmp, h1, h2] at h
          · simp only [lexCmp, h1, h2, if_false] at h ⊢
            exact ih h

/-- The full comparison bounds every prefix comparison. -/
theorem lexCmp_take_le {a b : List Int} (k : Nat)
    (h : lexCmp a b = -1) : lexCmp (a.take k) (b.take k) ≤ 0 := by
  induction a generalizing b k with
  | nil => simp [lexCmp] at h
  | cons x xs ih =>
    cases b with
    | nil => simp [lexCmp] at h
    | cons y ys =>
      rcases k with _ | k
      · simp [lexCmp]
      · simp only [List.take_succ_cons]
        by_cases h1 : x < y
        · simp [lexCmp, h1]
        · by_cases h2 : y < x
          · simp [lexCmp, h1, h2] at h
          · simp only [lexCmp, h1, h2, if_false] at h ⊢
            exact ih k h

/-- Comparison ignores a shared prefix. -/
theorem lexCmp_append_left (p a b : List Int) :
    lexCmp (p ++ a) (p ++ b) = lexCmp a b := by
  induction p with
  | nil => rfl
  | cons x xs ih => simp [lexCmp, ih]

/-- Strictly between `pre ++ [x]` and `pre ++ [x+1]` there is no list of the
same length. -/
theorem lexCmp_squeeze (pre : List Int) (x : Int) (r' : List Int)
    (hlen : r'.length = pre.length + 1)
    (h1 : lexCmp (pre ++ [x]) r' = -1) (h2 : lexCmp r' (pre ++ [x + 1]) = -1) : False := by
  induction pre generalizing r' with
  | nil =>
    cases r' with
    | nil => simp at hlen
    | cons y ys =>
      simp only [List.length_cons, List.length_nil] at hlen
      have hys : ys = [] := List.eq_nil_of_length_eq_zero (by omega)
      subst hys
      simp only [List.nil_append] at h1 h2
      have hx : x < y := by
        by_contra hc
        simp only [lexCmp, hc, if_false] at h1
        split at h1 <;> omega
      have hy : y < x + 1 := by
        by_contra hc
        simp only [lexCmp, hc, if_false] at h2
        split at h2 <;> omega
      omega
  | cons a pre ih =>
    cases r' with
    | nil => simp at hlen
    | cons y ys =>
      simp only [List.length_cons, Nat.add_right_cancel_iff] at hlen
      simp only [List.cons_append] at h1 h2
      by_cases hay : a < y
      · by_cases hya : y < a
        · omega
        · simp [lexCmp, hya, show ¬ y < a from by omega] at h2
          omega
      · by_cases hya : y < a
        · simp [lexCmp, hay, hya] at h1
        · have : a = y := by omega
          subst this
          simp only [lexCmp, lt_irrefl, if_false] at h1 h2
          exact ih ys hlen h1 h2

theorem lexCmp_lt_of_prefix_eq_lt {p1 p2 : List Int} {x y : Int} (a b : List Int)
    (hp : p1 = p2) (hxy : x < y) : lexCmp (p1 ++ x :: a) (p2 ++ y :: b) = -1 := by
  subst hp
  apply @lexCmp_of_take_lt _ _ (p1.length + 1)
  rw [show p1 ++ x :: a = (p1 ++ [x]) ++ a by simp,
      show p1 ++ y :: b = (p1 ++ [y]) ++ b by simp,
      List.take_left' (by simp), List.take_left' (by simp),
      lexCmp_append_left]
  simp [lexCmp, hxy]

/-! ### Facts about `CompareRowNumbers`, `Next`, `Skip`, `Preceding` -/

theorem CompareRowNumbers_full {a b : RowNumber} (ha : a.length = 8) (hb : b.length = 8) :
    CompareRowNumbers 7 a b = lexCmp a b := by
  unfold CompareRowNumbers
  rw [List.take_of_length_le (by omega), List.take_of_length_le (by omega)]

/-- A strict comparison at a lower level implies a strict full comparison. -/
theorem CompareRowNumbers_full_of_level {d : Nat} {a b : RowNumber} (hd : d ≤ 7)
    (h : CompareRowNumbers d a b = -1) : CompareRowNumbers 7 a b = -1 := by
  unfold CompareRowNumbers at h ⊢
  have ha : a.take (d + 1) = (a.take 8).take (d + 1) := by
    rw [List.take_take]; congr 1; omega
  have hb : b.take (d + 1) = (b.take 8).take (d + 1) := by
    rw [List.take_take]; congr 1; omega
  rw [ha, hb] at h
  exact lexCmp_of_take_lt h

/-- A strict full comparison bounds the comparison at every level. -/
theorem CompareRowNumbers_level_le_of_full {d : Nat} {a b : RowNumber} (hd : d ≤ 7)
    (h : CompareRowNumbers 7 a b = -1) : CompareRowNumbers d a b ≤ 0 := by
  unfold CompareRowNumbers at h ⊢
  have ha : a.take (d + 1) = (a.take 8).take (d + 1) := by
    rw [List.take_take]; congr 1; omega
  have hb : b.take (d + 1) = (b.take 8).take (d + 1) := by
    rw [List.take_take]; congr 1; omega
  rw [ha, hb]
  exact lexCmp_take_le (d + 1) h

theorem CompareRowNumbers_trans_lt {d : Nat} {a b c : RowNumber}
    (hab : a.length = b.length) (hbc : b.length = c.length)
    (h1 : CompareRowNumbers d a b = -1) (h2 : CompareRowNumbers d b c = -1) :
    CompareRowNumbers d a c = -1 :=
  lexCmp_trans_lt (by simp [hab]) (by simp [hbc]) h1 h2

theorem CompareRowNumbers_eq_zero_iff {d : Nat} {a b : RowNumber}
    (hab : a.length = b.length) :
    CompareRowNumbers d a b = 0 ↔ a.take (d + 1) = b.take (d + 1) :=
  lexCmp_eq_zero_iff (by simp [hab])

theorem EqualRowNumber_iff {d : Nat} {a b : RowNumber} :
    EqualRowNumber d a b = true ↔ a.take (d + 1) = b.take (d + 1) := by
  simp [EqualRowNumber]

theorem CompareRowNumbers_self (d : Nat) (a : RowNumber) : CompareRowNumbers d a a = 0 :=
  lexCmp_self _

theorem nextAux_length (rep defn maxDef : Nat) :
    ∀ (t : List Int) (i : Nat), (nextAux rep defn maxDef i t).length = t.length := by
  intro t
  induction t with
  | nil => intro i; rfl
  | cons v rest ih => intro i; simp [nextAux, ih]

theorem RowNumber.next_length (t : RowNumber) (rep defn maxDef : Nat) :
    (t.next rep defn maxDef).length = t.length :=
  nextAux_length rep defn maxDef t 0

theorem nextAux_lt (rep defn maxDef : Nat) :
    ∀ (t : List Int) (i : Nat), i ≤ rep → rep < i + t.length → rep ≤ defn → defn ≤ maxDef →
    lexCmp t (nextAux rep defn maxDef i t) = -1 := by
  intro t
  induction t with
  | nil => intro i h1 h2 h3 h4; simp only [List.length_nil] at h2; omega
  | cons v rest ih =>
    intro i h1 h2 h3 h4
    rcases Nat.lt_or_ge i rep with hir | hir
    · have c1 : ¬ (defn < i ∧ i ≤ maxDef) := by omega
      have c2 : ¬ (rep < i ∧ i ≤ defn) := by omega
      have c3 : ¬ (i = rep) := by omega
      simp only [nextAux, c1, c2, c3, if_false, lexCmp, lt_irrefl, if_false]
      exact ih (i + 1) (by omega) (by simpa [Nat.add_comm, Nat.add_left_comm] using h2)
        h3 h4
    · have hieq : i = rep := by omega
      subst hieq
      have c1 : ¬ (defn < i ∧ i ≤ maxDef) := by omega
      have c2 : ¬ (i < i ∧ i ≤ defn) := by omega
      simp only [nextAux, c1, c2, if_false, if_true, if_pos rfl]
      simp [lexCmp]

/-- `RowNumber.Next` strictly increases the row number under full comparison,
for a value with parquet-consistent levels. -/
theorem RowNumber.next_lt {t : RowNumber} {rep defn maxDef : Nat} (hlen : t.length = 8)
    (h1 : rep ≤ defn) (h2 : defn ≤ maxDef) (h3 : maxDef ≤ 7) :
    CompareRowNumbers 7 t (t.next rep defn maxDef) = -1 := by
  rw [CompareRowNumbers_full hlen (by rw [RowNumber.next_length, hlen])]
  exact nextAux_lt rep defn maxDef t 0 (by omega) (by omega) h1 h2

/-- Position 0 after `Next`: it is incremented exactly when the repetition
level is 0 and is untouched otherwise. -/
theorem RowNumber.next_cons (rep defn maxDef : Nat) (v : Int) (rest : List Int) :
    RowNumber.next (v :: rest) rep defn maxDef =
      (if 0 = rep then v + 1 else v) :: nextAux rep defn maxDef 1 rest := by
  simp [RowNumber.next, nextAux]

theorem RowNumber.Skip_length (t : RowNumber) (n : Int) : (t.Skip n).length = t.length := by
  cases t <;> simp [RowNumber.Skip]

theorem RowNumber.Skip_cons (x : Int) (rest : List Int) (n : Int) :
    RowNumber.Skip (x :: rest) n = (x + n) :: List.replicate rest.length (-1) := by
  simp [RowNumber.Skip, List.map_const']

theorem precR_length : ∀ (l : List Int), (precR l).length = l.length := by
  intro l
  induction l with
  | nil => rfl
  | cons x rest ih =>
    by_cases h1 : x = -1
    · simp [precR, h1, ih]
    · by_cases h2 : x = 0
      · simp [precR, h1, h2, ih]
      · simp [precR, h1, h2]

theorem RowNumber.Preceding_length (t : RowNumber) : t.Preceding.length = t.length := by
  simp [RowNumber.Preceding, precR_length]

theorem precR_replicate_neg_one (n : Nat) (l : List Int) :
    precR (List.replicate n (-1) ++ l) = List.replicate n (-1) ++ precR l := by
  induction n with
  | zero => rfl
  | succ n ih => simp [List.replicate_succ, precR, ih]

/-- `Preceding` on a row number whose positions are all defined and whose last
position is positive just decrements the last position. -/
theorem RowNumber.Preceding_append (pre : List Int) (x : Int) (h1 : x ≠ -1) (h2 : x ≠ 0) :
    RowNumber.Preceding (pre ++ [x]) = pre ++ [x - 1] := by
  unfold RowNumber.Preceding
  rw [List.reverse_append]
  simp only [List.reverse_cons, List.reverse_nil, List.nil_append, List.singleton_append]
  rw [show precR (x :: pre.reverse) = (x - 1) :: pre.reverse by simp [precR, h1, h2]]
  simp

/-- `Preceding` on a row number defined only at position 0 (with a positive
position 0) decrements position 0. -/
theorem RowNumber.Preceding_skip_shape (x : Int) (n : Nat) (h1 : x ≠ -1) (h2 : x ≠ 0) :
    RowNumber.Preceding (x :: List.replicate n (-1)) = (x - 1) :: List.replicate n (-1) := by
  unfold RowNumber.Preceding
  rw [show (x :: List.replicate n (-1)).reverse = List.replicate n (-1) ++ [x] by
        simp [List.reverse_replicate],
      precR_replicate_neg_one]
  rw [show precR [x] = [x - 1] by simp [precR, h1, h2]]
  simp [List.reverse_replicate]

/-! ### Claim C5: `Preceding` -/

/-- C5, counterexample.  The claim states that for every valid RowNumber `r`
no RowNumber lies strictly between `Preceding(r)` and `r` under full
comparison.  This fails already for `r = {1,-1,-1,-1,-1,-1,-1,-1}`:
`Preceding(r) = {0,-1,...}` and `{0,0,-1,...}` lies strictly between the
two. -/
theorem c5_counterexample :
    RowNumber.Valid [1, -1, -1, -1, -1, -1, -1, -1] = true ∧
    CompareRowNumbers 7 (RowNumber.Preceding [1, -1, -1, -1, -1, -1, -1, -1])
      [0, 0, -1, -1, -1, -1, -1, -1] = -1 ∧
    CompareRowNumbers 7 [0, 0, -1, -1, -1, -1, -1, -1]
      [1, -1, -1, -1, -1, -1, -1, -1] = -1 := by
  constructor
  · rfl
  constructor
  · rfl
  · rfl

/-- C5 (amended): for a RowNumber `r` all of whose eight positions are
defined (nonnegative) and whose last position is at least 1, `Preceding(r)`
is strictly less than `r` under `Compare(7, ., .)` and no length-8 RowNumber
lies strictly between `Preceding(r)` and `r` under full comparison.  (For
other valid `r` — with an undefined position, or with last position 0, or
all defined positions 0 — the property fails, see the counterexample.) -/
theorem c5_preceding_amended (a0 a1 a2 a3 a4 a5 a6 a7 : Int)
    (hpos : 0 ≤ a0 ∧ 0 ≤ a1 ∧ 0 ≤ a2 ∧ 0 ≤ a3 ∧ 0 ≤ a4 ∧ 0 ≤ a5 ∧ 0 ≤ a6)
    (hlast : 1 ≤ a7) :
    CompareRowNumbers 7 (RowNumber.Preceding [a0, a1, a2, a3, a4, a5, a6, a7])
        [a0, a1, a2, a3, a4, a5, a6, a7] = -1 ∧
    ∀ b0 b1 b2 b3 b4 b5 b6 b7 : Int,
      ¬ (CompareRowNumbers 7 (RowNumber.Preceding [a0, a1, a2, a3, a4, a5, a6, a7])
            [b0, b1, b2, b3, b4, b5, b6, b7] = -1 ∧
         CompareRowNumbers 7 [b0, b1, b2, b3, b4, b5, b6, b7]
            [a0, a1, a2, a3, a4, a5, a6, a7] = -1) := by
  have hsplit : ([a0, a1, a2, a3, a4, a5, a6, a7] : List Int) =
      [a0, a1, a2, a3, a4, a5, a6] ++ [a7] := by simp
  have hprec : RowNumber.Preceding [a0, a1, a2, a3, a4, a5, a6, a7] =
      [a0, a1, a2, a3, a4, a5, a6] ++ [a7 - 1] := by
    rw [hsplit]
    exact RowNumber.Preceding_append _ _ (by omega) (by omega)
  constructor
  · rw [hprec, hsplit,
      CompareRowNumbers_full (by simp) (by simp)]
    rw [lexCmp_append_left]
    simp [lexCmp]
  · intro b0 b1 b2 b3 b4 b5 b6 b7 hc
    obtain ⟨hc1, hc2⟩ := hc
    rw [hprec, CompareRowNumbers_full (by simp) (by simp)] at hc1
    rw [hsplit, CompareRowNumbers_full (by simp) (by simp)] at hc2
    have h2 : lexCmp [b0, b1, b2, b3, b4, b5, b6, b7]
        ([a0, a1, a2, a3, a4, a5, a6] ++ [a7 - 1 + 1]) = -1 := by
      rw [show a7 - 1 + 1 = a7 by omega]
      exact hc2
    exact lexCmp_squeeze [a0, a1, a2, a3, a4, a5, a6] (a7 - 1)
      [b0, b1, b2, b3, b4, b5, b6, b7] (by simp) hc1 h2

/-! ### Helper lemmas for the invariant proof -/

theorem lexCmp_head_lt {a b : Int} (as bs : List Int) (h : a < b) :
    lexCmp (a :: as) (b :: bs) = -1 := by
  simp [lexCmp, h]

theorem lexCmp_le_headD {a b : List Int} (ha : a ≠ []) (hb : b ≠ [])
    (h : lexCmp a b ≤ 0) : a.headD (-1) ≤ b.headD (-1) := by
  cases a with
  | nil => exact absurd rfl ha
  | cons x xs =>
    cases b with
    | nil => exact absurd rfl hb
    | cons y ys =>
      simp only [List.headD_cons]
      by_cases h1 : x < y
      · omega
      · by_cases h2 : y < x
        · simp [lexCmp, h1, h2] at h
        · omega

theorem CompareRowNumbers_headD_le {l c : RowNumber} (hl : l.length = 8)
    (hc : c.length = 8) (h : CompareRowNumbers 7 l c ≤ 0) :
    l.headD (-1) ≤ c.headD (-1) := by
  rw [CompareRowNumbers_full hl hc] at h
  exact lexCmp_le_headD (by intro hn; subst hn; simp at hl)
    (by intro hn; subst hn; simp at hc) h

theorem CompareRowNumbers_lt_of_headD {l c : RowNumber} (hl : l.length = 8)
    (hc : c.length = 8) (h : l.headD (-1) < c.headD (-1)) :
    CompareRowNumbers 7 l c = -1 := by
  rw [CompareRowNumbers_full hl hc]
  cases l with
  | nil => simp at hl
  | cons x xs =>
    cases c with
    | nil => simp at hc
    | cons y ys =>
      simp only [List.headD_cons] at h
      exact lexCmp_head_lt _ _ h

theorem RowNumber.next_headD {t : RowNumber} (ht : t ≠ []) (rep defn maxDef : Nat) :
    (t.next rep defn maxDef).headD (-1) =
      if rep = 0 then t.headD (-1) + 1 else t.headD (-1) := by
  cases t with
  | nil => exact absurd rfl ht
  | cons v rest =>
    rw [RowNumber.next_cons]
    by_cases h : rep = 0
    · simp [h]
    · have h' : ¬ (0 = rep) := fun hc => h hc.symm
      simp [h, h']

theorem RowNumber.Skip_headD {t : RowNumber} (ht : t ≠ []) (n : Int) :
    (t.Skip n).headD (-1) = t.headD (-1) + n := by
  cases t with
  | nil => exact absurd rfl ht
  | cons v rest => simp [RowNumber.Skip]

theorem chainFrom_mono {x y : Int} (h : y ≤ x) :
    ∀ {l : List RGEntry}, chainFrom x l → chainFrom y l := by
  intro l hc
  cases l with
  | nil => trivial
  | cons e rest =>
    obtain ⟨h1, h2⟩ := hc
    exact ⟨by omega, h2⟩

theorem chainFrom_tail {x : Int} {e : RGEntry} {rest : List RGEntry}
    (h : chainFrom x (e :: rest)) (hwf : (e.rg.numRows : Int) ≥ 0) :
    chainFrom x rest := by
  obtain ⟨h1, h2⟩ := h
  exact chainFrom_mono (by omega) h2

theorem wfPage_numRows_pos {maxDef : Nat} {p : PageM} (h : wfPage maxDef p) :
    1 ≤ p.numRows := by
  obtain ⟨_, hne, hhead, hcount⟩ := h
  cases hv : p.values with
  | nil => exact absurd hv hne
  | cons v vs =>
    have h0 : v.repetitionLevel = 0 := hhead v (by simp [hv])
    rw [hcount, rep0count, hv, List.countP_cons]
    simp [h0]

theorem rep0count_cons (v : PQValue) (vs : List PQValue) :
    rep0count (v :: vs) = rep0count vs + (if v.repetitionLevel = 0 then 1 else 0) := by
  simp [rep0count, List.countP_cons]

theorem wf_setRowGroup {cfg : SyncConfig} {s : SyncState} {last : Option RowNumber}
    {e : RGEntry} {rest : List RGEntry} (hwf : WFSync cfg s last)
    (hrg : s.currRG = none) (hrgs : s.rgs = e :: rest) :
    WFSync cfg (setRowGroup { s with rgs := rest } e) last := by
  have hwfe : wfEntry cfg.maxDefinitionLevel e := hwf.rgs_wf e (by rw [hrgs]; simp)
  obtain ⟨hepages, hecount, hemax, heshape, hemin⟩ := hwfe
  have hpg : s.currPage = none := by
    have h := hwf.rg_inv
    simp only [rgInv, hrg] at h
    exact h.1
  have hchain : chainFrom (s.curr.headD (-1)) s.rgs := by
    have h := hwf.rg_inv
    simp only [rgInv, hrg] at h
    exact h.2
  rw [hrgs] at hchain
  obtain ⟨hch1, hch2⟩ := hchain
  have hstate : setRowGroup { s with rgs := rest } e =
      { rgs := rest, curr := e.min,
        currRG := some { pages := e.rg.pages, rgMin := e.min, rgMax := e.max },
        currPage := none } := by
    simp [setRowGroup, closeCurrRowGroup, setPageNil, hpg]
  rw [hstate]
  constructor
  · exact hwf.maxDef_le
  · rw [heshape]; simp
  · exact hemin
  · intro f hf; exact hwf.rgs_wf f (by rw [hrgs]; simp [hf])
  · refine ⟨hepages, ?_, ?_⟩
    · simp only []
      rw [show e.max.headD (-1) - 1 = e.min.headD (-1) + (e.rg.numRows : Int) by omega]
      exact hch2
    · simp only [pageContrib, pagesRows]
      simp only [pagesRows] at hecount
      omega
  · trivial
  · cases last with
    | none => trivial
    | some l =>
      obtain ⟨hl1, hl2, _⟩ := hwf.last_inv
      exact ⟨hl1, by show l.headD (-1) ≤ e.min.headD (-1); omega, Or.inr trivial⟩

theorem wf_chunkSkip {cfg : SyncConfig} {s : SyncState} {last : Option RowNumber}
    {e : RGEntry} {rest : List RGEntry} (hwf : WFSync cfg s last)
    (hrg : s.currRG = none) (hrgs : s.rgs = e :: rest) :
    WFSync cfg { s with rgs := rest } last := by
  have hwfe : wfEntry cfg.maxDefinitionLevel e := hwf.rgs_wf e (by rw [hrgs]; simp)
  have hpg : s.currPage = none := by
    have h := hwf.rg_inv
    simp only [rgInv, hrg] at h
    exact h.1
  have hchain : chainFrom (s.curr.headD (-1)) s.rgs := by
    have h := hwf.rg_inv
    simp only [rgInv, hrg] at h
    exact h.2
  rw [hrgs] at hchain
  constructor
  · exact hwf.maxDef_le
  · exact hwf.curr_len
  · exact hwf.curr_head
  · intro f hf; exact hwf.rgs_wf f (by rw [hrgs]; simp [hf])
  · simp only [rgInv, hrg]
    exact ⟨hpg, chainFrom_tail hchain (by positivity)⟩
  · simp only [pageInv, hpg]
  · cases last with
    | none => trivial
    | some l =>
      obtain ⟨hl1, hl2, hl3⟩ := hwf.last_inv
      refine ⟨hl1, hl2, ?_⟩
      simp only [freshPage, hpg]
      exact Or.inr trivial

theorem wf_closeRG {cfg : SyncConfig} {s : SyncState} {last : Option RowNumber}
    {rg : CurrRGM} (hwf : WFSync cfg s last) (hrg : s.currRG = some rg)
    (hpages : rg.pages = []) (hpg : s.currPage = none) :
    WFSync cfg (closeCurrRowGroup s) last := by
  have hinv := hwf.rg_inv
  simp only [rgInv, hrg] at hinv
  obtain ⟨_, hchain, hacct⟩ := hinv
  rw [hpages] at hacct
  simp only [pagesRows, List.map_nil, List.sum_nil, pageContrib, hpg] at hacct
  have hstate : closeCurrRowGroup s =
      { rgs := s.rgs, curr := s.curr, currRG := none, currPage := none } := by
    simp [closeCurrRowGroup, setPageNil, hpg]
  rw [hstate]
  constructor
  · exact hwf.maxDef_le
  · exact hwf.curr_len
  · exact hwf.curr_head
  · exact hwf.rgs_wf
  · refine ⟨rfl, ?_⟩
    show chainFrom (s.curr.headD (-1)) s.rgs
    rw [show s.curr.headD (-1) = rg.rgMax.headD (-1) - 1 by omega]
    exact hchain
  · trivial
  · cases last with
    | none => trivial
    | some l =>
      obtain ⟨hl1, hl2, _⟩ := hwf.last_inv
      exact ⟨hl1, hl2, Or.inr trivial⟩

theorem wf_pageSkip {cfg : SyncConfig} {s : SyncState} {last : Option RowNumber}
    {rg : CurrRGM} {pg : PageM} {rest : List PageM}
    (hwf : WFSync cfg s last) (hrg : s.currRG = some rg)
    (hpages : rg.pages = pg :: rest) (hpg : s.currPage = none) :
    WFSync cfg { s with currRG := some { rg with pages := rest },
                        curr := s.curr.Skip (pg.numRows : Int) } last := by
  have hinv := hwf.rg_inv
  simp only [rgInv, hrg] at hinv
  obtain ⟨hpwf, hchain, hacct⟩ := hinv
  rw [hpages] at hacct
  simp only [pagesRows, List.map_cons, List.sum_cons, pageContrib, hpg] at hacct
  have hlen := hwf.curr_len
  have hne : s.curr ≠ [] := by intro h; rw [h] at hlen; simp at hlen
  have hhead := RowNumber.Skip_headD hne (pg.numRows : Int)
  have hcurr0 := hwf.curr_head
  have hstate : ({ s with currRG := some { rg with pages := rest }, curr := s.curr.Skip (pg.numRows : Int) } : SyncState) =
      { rgs := s.rgs, curr := s.curr.Skip (pg.numRows : Int),
        currRG := some { pages := rest, rgMin := rg.rgMin, rgMax := rg.rgMax },
        currPage := none } := by
    rw [← hpg]
  rw [hstate]
  constructor
  · exact hwf.maxDef_le
  · show (s.curr.Skip (pg.numRows : Int)).length = 8
    rw [RowNumber.Skip_length]; exact hlen
  · show -1 ≤ (s.curr.Skip (pg.numRows : Int)).headD (-1)
    rw [hhead]; omega
  · exact hwf.rgs_wf
  · refine ⟨?_, hchain, ?_⟩
    · intro p hp; exact hpwf p (by rw [hpages]; simp [hp])
    · show (s.curr.Skip (pg.numRows : Int)).headD (-1) + pagesRows rest + 0 =
        rg.rgMax.headD (-1) - 1
      simp only [pagesRows] at hacct ⊢
      rw [hhead]
      omega
  · trivial
  · cases last with
    | none => trivial
    | some l =>
      obtain ⟨hl1, hl2, _⟩ := hwf.last_inv
      refine ⟨hl1, ?_, Or.inr trivial⟩
      show l.headD (-1) ≤ (s.curr.Skip (pg.numRows : Int)).headD (-1)
      rw [hhead]
      omega

theorem wf_setPageNew {cfg : SyncConfig} {s : SyncState} {last : Option RowNumber}
    {rg : CurrRGM} {pg : PageM} {rest : List PageM}
    (hwf : WFSync cfg s last) (hrg : s.currRG = some rg)
    (hpages : rg.pages = pg :: rest) (hpg : s.currPage = none) :
    WFSync cfg (setPageNew { s with currRG := some { rg with pages := rest } } pg) last := by
  have hinv := hwf.rg_inv
  simp only [rgInv, hrg] at hinv
  obtain ⟨hpwf, hchain, hacct⟩ := hinv
  rw [hpages] at hacct
  simp only [pagesRows, List.map_cons, List.sum_cons, pageContrib, hpg] at hacct
  have hpgwf : wfPage cfg.maxDefinitionLevel pg := hpwf pg (by rw [hpages]; simp)
  have hpgrows : 1 ≤ pg.numRows := wfPage_numRows_pos hpgwf
  have hlen := hwf.curr_len
  have hne : s.curr ≠ [] := by intro h; rw [h] at hlen; simp at hlen
  obtain ⟨c0, crest, hc⟩ : ∃ c0 crest, s.curr = c0 :: crest := by
    cases hcv : s.curr with
    | nil => exact absurd hcv hne
    | cons a b => exact ⟨a, b, rfl⟩
  have hcrest : crest.length = 7 := by
    rw [hc] at hlen; simp at hlen; omega
  have hskip : s.curr.Skip ((pg.numRows : Int) + 1) =
      (c0 + ((pg.numRows : Int) + 1)) :: List.replicate 7 (-1) := by
    rw [hc, RowNumber.Skip_cons, hcrest]
  have hc0 : -1 ≤ c0 := by
    have h := hwf.curr_head; rw [hc] at h; simpa using h
  have hc0eq : s.curr.headD (-1) = c0 := by rw [hc]; rfl
  have hstate : setPageNew { s with currRG := some { rg with pages := rest } } pg =
      { rgs := s.rgs, curr := s.curr,
        currRG := some { pages := rest, rgMin := rg.rgMin, rgMax := rg.rgMax },
        currPage := some { page := pg, remaining := pg.values, pageN := 0,
                           pMin := s.curr,
                           pMax := s.curr.Skip ((pg.numRows : Int) + 1) } } := by
    simp [setPageNew]
  rw [hstate]
  constructor
  · exact hwf.maxDef_le
  · exact hlen
  · exact hwf.curr_head
  · exact hwf.rgs_wf
  · refine ⟨?_, hchain, ?_⟩
    · intro p hp; exact hpwf p (by rw [hpages]; simp [hp])
    · show s.curr.headD (-1) + pagesRows rest + (rep0count pg.values : Int) =
        rg.rgMax.headD (-1) - 1
      simp only [pagesRows] at hacct ⊢
      rw [← hpgwf.2.2.2]
      omega
  · refine ⟨hpgwf.1, hpgwf, ?_, ?_, ?_⟩
    · show s.curr.Skip ((pg.numRows : Int) + 1) =
        (s.curr.Skip ((pg.numRows : Int) + 1)).headD (-1) :: List.replicate 7 (-1)
      rw [hskip]; rfl
    · show 1 ≤ (s.curr.Skip ((pg.numRows : Int) + 1)).headD (-1)
      rw [hskip]
      show 1 ≤ c0 + ((pg.numRows : Int) + 1)
      omega
    · show s.curr.headD (-1) + (rep0count pg.values : Int) =
        (s.curr.Skip ((pg.numRows : Int) + 1)).headD (-1) - 1
      rw [hskip, hc0eq, ← hpgwf.2.2.2]
      show c0 + (pg.numRows : Int) = c0 + ((pg.numRows : Int) + 1) - 1
      omega
  · cases last with
    | none => trivial
    | some l =>
      obtain ⟨hl1, hl2, _⟩ := hwf.last_inv
      exact ⟨hl1, hl2, Or.inr rfl⟩

theorem wf_setPageNil {cfg : SyncConfig} {s : SyncState} {last : Option RowNumber}
    {rg : CurrRGM} {cp : CurrPageM} (hwf : WFSync cfg s last)
    (hrg : s.currRG = some rg) (hcp : s.currPage = some cp)
    (hrem : cp.remaining = []) :
    WFSync cfg (setPageNil s) last := by
  have hinvp := hwf.page_inv
  simp only [pageInv, hcp] at hinvp
  obtain ⟨_, hpgwf, hshape, hpm1, hpacct⟩ := hinvp
  rw [hrem] at hpacct
  simp only [rep0count, List.countP_nil, Nat.cast_zero, add_zero] at hpacct
  have hinvr := hwf.rg_inv
  simp only [rgInv, hrg] at hinvr
  obtain ⟨hpwf, hchain, hacct⟩ := hinvr
  simp only [pageContrib, hcp, hrem, rep0count, List.countP_nil, Nat.cast_zero] at hacct
  have hprec : cp.pMax.Preceding = (cp.pMax.headD (-1) - 1) :: List.replicate 7 (-1) := by
    conv_lhs => rw [hshape]
    exact RowNumber.Preceding_skip_shape _ _ (by omega) (by omega)
  have hstate : setPageNil s =
      { rgs := s.rgs, curr := cp.pMax.Preceding, currRG := s.currRG, currPage := none } := by
    simp [setPageNil, hcp]
  rw [hstate]
  have hnewhead : cp.pMax.Preceding.headD (-1) = s.curr.headD (-1) := by
    rw [hprec, List.headD_cons]
    omega
  constructor
  · exact hwf.maxDef_le
  · show cp.pMax.Preceding.length = 8
    rw [hprec]; rfl
  · show -1 ≤ cp.pMax.Preceding.headD (-1)
    rw [hnewhead]; exact hwf.curr_head
  · exact hwf.rgs_wf
  · simp only [rgInv, hrg]
    refine ⟨hpwf, hchain, ?_⟩
    simp only [pageContrib]
    rw [hnewhead]
    omega
  · trivial
  · cases last with
    | none => trivial
    | some l =>
      obtain ⟨hl1, hl2, _⟩ := hwf.last_inv
      refine ⟨hl1, ?_, Or.inr trivial⟩
      show l.headD (-1) ≤ cp.pMax.Preceding.headD (-1)
      rw [hnewhead]; exact hl2

/-- Consuming a value strictly advances past the last emitted row number. -/
theorem consume_gt_last {cfg : SyncConfig} {s : SyncState} {l : RowNumber}
    {cp : CurrPageM} {v : PQValue} {vs : List PQValue}
    (hwf : WFSync cfg s (some l)) (hcp : s.currPage = some cp)
    (hrem : cp.remaining = v :: vs) :
    CompareRowNumbers 7 l
      (s.curr.next v.repetitionLevel v.definitionLevel cfg.maxDefinitionLevel) = -1 := by
  have hinvp := hwf.page_inv
  simp only [pageInv, hcp] at hinvp
  obtain ⟨hvals, hpgwf, _, _, _⟩ := hinvp
  have hv : wfValue cfg.maxDefinitionLevel v := hvals v (by rw [hrem]; simp)
  have hlen := hwf.curr_len
  have hne : s.curr ≠ [] := by intro h; rw [h] at hlen; simp at hlen
  have hnextlen : (s.curr.next v.repetitionLevel v.definitionLevel cfg.maxDefinitionLevel).length = 8 := by
    rw [RowNumber.next_length]; exact hlen
  have hlt : CompareRowNumbers 7 s.curr
      (s.curr.next v.repetitionLevel v.definitionLevel cfg.maxDefinitionLevel) = -1 :=
    RowNumber.next_lt hlen hv.1 hv.2 hwf.maxDef_le
  obtain ⟨hl1, hl2, hl3⟩ := hwf.last_inv
  rcases hl3 with hcmp | hfresh
  · rcases lexCmp_cases (l.take (7 + 1)) (s.curr.take (7 + 1)) with h | h | h
    · exact CompareRowNumbers_trans_lt (by omega) (by omega) h hlt
    · have heq : l = s.curr := by
        have h0 : CompareRowNumbers 7 l s.curr = 0 := h
        have := (@CompareRowNumbers_eq_zero_iff 7 l s.curr (show l.length = s.curr.length by omega)).mp h0
        rw [List.take_of_length_le (by omega), List.take_of_length_le (by omega)] at this
        exact this
      rw [heq]
      exact hlt
    · have h1 : CompareRowNumbers 7 l s.curr = 1 := h
      omega
  · have hrep0 : v.repetitionLevel = 0 := by
      simp only [freshPage, hcp] at hfresh
      have := hpgwf.2.2.1
      apply this
      rw [← hfresh, hrem]
      rfl
    apply CompareRowNumbers_lt_of_headD hl1 hnextlen
    rw [RowNumber.next_headD hne, hrep0, if_pos rfl]
    omega

/-- Consuming a value preserves the iterator invariant, with the consumed
position as the new last emission (covering both the emitted and the
value-filtered case, since the Go code advances `curr` before filtering). -/
theorem wf_consume {cfg : SyncConfig} {s : SyncState} {last : Option RowNumber}
    {rg : CurrRGM} {cp : CurrPageM} {v : PQValue} {vs : List PQValue}
    (hwf : WFSync cfg s last) (hrg : s.currRG = some rg) (hcp : s.currPage = some cp)
    (hrem : cp.remaining = v :: vs) :
    WFSync cfg (consumeValue cfg s cp v vs)
      (some ((consumeValue cfg s cp v vs).curr)) := by
  have hinvp := hwf.page_inv
  simp only [pageInv, hcp] at hinvp
  obtain ⟨hvals, hpgwf, hshape, hpm1, hpacct⟩ := hinvp
  have hv : wfValue cfg.maxDefinitionLevel v := hvals v (by rw [hrem]; simp)
  have hlen := hwf.curr_len
  have hne : s.curr ≠ [] := by intro h; rw [h] at hlen; simp at hlen
  have hnexthead := RowNumber.next_headD hne v.repetitionLevel v.definitionLevel
    cfg.maxDefinitionLevel
  have hcount : (rep0count (v :: vs) : Int) =
      (rep0count vs : Int) + (if v.repetitionLevel = 0 then 1 else 0) := by
    rw [rep0count_cons]
    by_cases h : v.repetitionLevel = 0 <;> simp [h]
  have hinvr := hwf.rg_inv
  simp only [rgInv, hrg] at hinvr
  obtain ⟨hpwf, hchain, hacct⟩ := hinvr
  simp only [pageContrib, hcp, hrem] at hacct
  rw [hrem] at hpacct
  have hstate : consumeValue cfg s cp v vs =
      { rgs := s.rgs,
        curr := s.curr.next v.repetitionLevel v.definitionLevel cfg.maxDefinitionLevel,
        currRG := s.currRG,
        currPage := some { page := cp.page, remaining := vs, pageN := cp.pageN + 1,
                           pMin := cp.pMin, pMax := cp.pMax } } := by
    simp [consumeValue]
  rw [hstate]
  have hnl : (s.curr.next v.repetitionLevel v.definitionLevel cfg.maxDefinitionLevel).length = 8 := by
    rw [RowNumber.next_length]; exact hlen
  constructor
  · exact hwf.maxDef_le
  · exact hnl
  · show -1 ≤ (s.curr.next v.repetitionLevel v.definitionLevel cfg.maxDefinitionLevel).headD (-1)
    rw [hnexthead]
    have := hwf.curr_head
    by_cases h : v.repetitionLevel = 0
    · rw [if_pos h]; omega
    · rw [if_neg h]; omega
  · exact hwf.rgs_wf
  · simp only [rgInv, hrg]
    refine ⟨hpwf, hchain, ?_⟩
    simp only [pageContrib]
    rw [hnexthead]
    rw [hcount] at hacct
    by_cases h : v.repetitionLevel = 0
    · rw [if_pos h] at hacct ⊢; omega
    · rw [if_neg h] at hacct ⊢; omega
  · refine ⟨fun w hw => hvals w (by rw [hrem]; simp [hw]), hpgwf, hshape, hpm1, ?_⟩
    show (s.curr.next v.repetitionLevel v.definitionLevel cfg.maxDefinitionLevel).headD (-1) +
      (rep0count vs : Int) = cp.pMax.headD (-1) - 1
    rw [hnexthead]
    rw [hcount] at hpacct
    by_cases h : v.repetitionLevel = 0
    · rw [if_pos h] at hpacct ⊢; omega
    · rw [if_neg h] at hpacct ⊢; omega
  · exact ⟨hnl, le_refl _, Or.inl (by rw [CompareRowNumbers_self])⟩

/-- Consuming a filtered-out value also preserves the invariant with the old
last emission. -/
theorem wf_consume_keep_last {cfg : SyncConfig} {s : SyncState} {last : Option RowNumber}
    {rg : CurrRGM} {cp : CurrPageM} {v : PQValue} {vs : List PQValue}
    (hwf : WFSync cfg s last) (hrg : s.currRG = some rg) (hcp : s.currPage = some cp)
    (hrem : cp.remaining = v :: vs) :
    WFSync cfg (consumeValue cfg s cp v vs) last := by
  have h2 := wf_consume hwf hrg hcp hrem
  constructor
  · exact h2.maxDef_le
  · exact h2.curr_len
  · exact h2.curr_head
  · exact h2.rgs_wf
  · exact h2.rg_inv
  · exact h2.page_inv
  · cases last with
    | none => trivial
    | some l =>
      obtain ⟨hl1, _, _⟩ := hwf.last_inv
      have hgt : CompareRowNumbers 7 l (consumeValue cfg s cp v vs).curr = -1 :=
        consume_gt_last hwf hcp hrem
      have hle : CompareRowNumbers 7 l (consumeValue cfg s cp v vs).curr ≤ 0 := by
        rw [hgt]; decide
      exact ⟨hl1, CompareRowNumbers_headD_le hl1 h2.curr_len hle, Or.inl hle⟩

/-- The step theorem for `next()`: one call preserves the invariant, any
emission strictly exceeds the last one under full comparison, and a `none`
return leaves the iterator fully drained. -/
theorem nextFuel_step (cfg : SyncConfig) :
    ∀ (fuel : Nat) {s s' : SyncState} {em : Option (RowNumber × PQValue)}
      {last : Option RowNumber},
    WFSync cfg s last → nextFuel cfg fuel s = some (em, s') →
    WFSync cfg s' (match em with | some rv => some rv.1 | none => last) ∧
    (∀ rn v l, em = some (rn, v) → last = some l → CompareRowNumbers 7 l rn = -1) ∧
    (em = none → s'.rgs = [] ∧ s'.currRG = none ∧ s'.currPage = none) := by
  intro fuel
  induction fuel with
  | zero => intro s s' em last _ h; simp [nextFuel] at h
  | succ fuel ih =>
    intro s s' em last hwf h
    rw [show nextFuel cfg (fuel + 1) s =
      (match s.currRG with
      | none =>
        match s.rgs with
        | [] => some (none, s)
        | e :: rest =>
          if cfg.filter.KeepColumnChunk e.rg then
            nextFuel cfg fuel (setRowGroup { s with rgs := rest } e)
          else
            nextFuel cfg fuel { s with rgs := rest }
      | some rg =>
        match s.currPage with
        | none =>
          match rg.pages with
          | [] => nextFuel cfg fuel (closeCurrRowGroup s)
          | pg :: rest =>
            let s2 := { s with currRG := some { rg with pages := rest } }
            if cfg.filter.KeepPage pg then
              nextFuel cfg fuel (setPageNew s2 pg)
            else
              nextFuel cfg fuel { s2 with curr := s2.curr.Skip (pg.numRows : Int) }
        | some cp =>
          match cp.remaining with
          | [] => nextFuel cfg fuel (setPageNil s)
          | v :: vs =>
            let s2 := { s with
              currPage := some { cp with remaining := vs, pageN := cp.pageN + 1 }
              curr := s.curr.next v.repetitionLevel v.definitionLevel cfg.maxDefinitionLevel }
            if cfg.filter.KeepValue v then some (some (s2.curr, v), s2)
            else nextFuel cfg fuel s2) from rfl] at h
    split at h
    · -- currRG = none
      rename_i hrg
      split at h
      · -- rgs = []
        rename_i hrgs
        injection h with h
        injection h with h1 h2
        subst h1; subst h2
        have hpg : s.currPage = none := by
          have hh := hwf.rg_inv
          simp only [rgInv, hrg] at hh
          exact hh.1
        exact ⟨hwf, by intro rn v l hc; exact absurd hc (by simp),
          fun _ => ⟨hrgs, hrg, hpg⟩⟩
      · -- rgs = e :: rest
        rename_i e rest hrgs
        split at h
        · exact ih (wf_setRowGroup hwf hrg hrgs) h
        · exact ih (wf_chunkSkip hwf hrg hrgs) h
    · -- currRG = some rg
      rename_i rg hrg
      split at h
      · -- currPage = none
        rename_i hpg
        split at h
        · -- pages = []
          rename_i hpages
          exact ih (wf_closeRG hwf hrg hpages hpg) h
        · -- pages = pg :: rest
          rename_i pg rest hpages
          split at h
          · exact ih (wf_setPageNew hwf hrg hpages hpg) h
          · exact ih (wf_pageSkip hwf hrg hpages hpg) h
      · -- currPage = some cp
        rename_i cp hcp
        split at h
        · -- remaining = []
          rename_i hrem
          exact ih (wf_setPageNil hwf hrg hcp hrem) h
        · -- remaining = v :: vs
          rename_i v vs hrem
          split at h
          · -- value kept: emission
            injection h with h
            injection h with h1 h2
            subst h1; subst h2
            refine ⟨wf_consume hwf hrg hcp hrem, ?_, by intro hc; exact absurd hc (by simp)⟩
            intro rn w l hc hl
            injection hc with hc1
            subst hl
            have hc2 : rn = s.curr.next v.repetitionLevel v.definitionLevel
                cfg.maxDefinitionLevel := by
              have := congrArg Prod.fst hc1
              simpa using this.symm
            rw [hc2]
            exact consume_gt_last hwf hcp hrem
          · -- value filtered
            exact ih (wf_consume_keep_last hwf hrg hcp hrem) h

theorem syncBounds_wfEntry {maxDef : Nat} :
    ∀ (x : Int) (rgs : List RowGroupM), -1 ≤ x → wfInput maxDef rgs →
    ∀ e ∈ syncBounds (x :: List.replicate 7 (-1)) rgs, wfEntry maxDef e := by
  intro x rgs
  induction rgs generalizing x with
  | nil => intro _ _ e he; simp [syncBounds] at he
  | cons rg rest ih =>
    intro hx hwf e he
    rcases List.mem_cons.mp he with rfl | he'
    · refine ⟨(hwf rg (by simp)).1, (hwf rg (by simp)).2, ?_, ?_, ?_⟩
      · show (RowNumber.Skip (x :: List.replicate 7 (-1)) ((rg.numRows : Int) + 1)).headD (-1) =
          (x :: List.replicate 7 (-1)).headD (-1) + (rg.numRows : Int) + 1
        rw [RowNumber.Skip_cons]
        simp only [List.headD_cons]
        omega
      · rfl
      · simpa using hx
    · have hskip : RowNumber.Skip (x :: List.replicate 7 (-1)) (rg.numRows : Int) =
          (x + (rg.numRows : Int)) :: List.replicate 7 (-1) := by
        rw [RowNumber.Skip_cons]; simp
      rw [hskip] at he'
      exact ih (x + (rg.numRows : Int)) (by omega)
        (fun g hg => hwf g (by simp [hg])) e he'

theorem syncBounds_chainFrom :
    ∀ (rgs : List RowGroupM) (x : Int) (tail : List Int),
    chainFrom x (syncBounds (x :: tail) rgs) := by
  intro rgs
  induction rgs with
  | nil => intro x tail; trivial
  | cons rg rest ih =>
    intro x tail
    refine ⟨le_refl _, ?_⟩
    show chainFrom (x + (rg.numRows : Int)) (syncBounds (RowNumber.Skip _ _) rest)
    rw [RowNumber.Skip]
    exact ih (x + (rg.numRows : Int)) _

/-- The constructor establishes the iterator invariant (with no emission yet). -/
theorem wf_NewSyncIterator (cfg : SyncConfig) (rgs : List RowGroupM)
    (hmd : cfg.maxDefinitionLevel ≤ 7) (hin : wfInput cfg.maxDefinitionLevel rgs) :
    WFSync cfg (NewSyncIterator rgs) none := by
  constructor
  · exact hmd
  · rfl
  · exact le_refl (-1 : Int)
  · show ∀ e ∈ syncBounds EmptyRowNumber rgs, wfEntry cfg.maxDefinitionLevel e
    have : EmptyRowNumber = (-1 : Int) :: List.replicate 7 (-1) := rfl
    rw [this]
    exact syncBounds_wfEntry (-1) rgs (le_refl _) hin
  · refine ⟨rfl, ?_⟩
    show chainFrom (-1) (syncBounds EmptyRowNumber rgs)
    exact syncBounds_chainFrom rgs (-1) _
  · trivial
  · trivial

/-- Emissions of a run are all above the previous emission, have length 8,
and are strictly increasing under full comparison. -/
theorem syncRun_mono (cfg : SyncConfig) :
    ∀ (fuel : Nat) (s : SyncState) (last : Option RowNumber), WFSync cfg s last →
    (∀ l, last = some l → ∀ rv ∈ (syncRun cfg fuel s).1, CompareRowNumbers 7 l rv.1 = -1) ∧
    (∀ rv ∈ (syncRun cfg fuel s).1, rv.1.length = 8) ∧
    List.Chain' (fun a b => CompareRowNumbers 7 a.1 b.1 = -1) (syncRun cfg fuel s).1 := by
  intro fuel
  induction fuel with
  | zero =>
    intro s last _
    refine ⟨?_, ?_, ?_⟩ <;> simp [syncRun]
  | succ fuel ih =>
    intro s last hwf
    rw [show syncRun cfg (fuel + 1) s =
      (match nextFuel cfg (fuel + 1) s with
      | none => ([], s, false)
      | some (none, s') => ([], s', true)
      | some (some rv, s') =>
        let r := syncRun cfg fuel s'
        (rv :: r.1, r.2)) from rfl]
    split
    · refine ⟨?_, ?_, ?_⟩ <;> simp
    · refine ⟨?_, ?_, ?_⟩ <;> simp
    · rename_i rv s' hstep
      obtain ⟨hwf', hmono, _⟩ := nextFuel_step cfg (fuel + 1) hwf hstep
      have hwf'' : WFSync cfg s' (some rv.1) := hwf'
      obtain ⟨ih1, ih2, ih3⟩ := ih s' (some rv.1) hwf''
      have hlen : rv.1.length = 8 := hwf''.last_inv.1
      refine ⟨?_, ?_, ?_⟩
      · intro l hl w hw
        simp only [List.mem_cons] at hw
        rcases hw with rfl | hw'
        · exact hmono w.1 w.2 l rfl hl
        · have h1 : CompareRowNumbers 7 l rv.1 = -1 :=
            hmono rv.1 rv.2 l rfl hl
          have h2 : CompareRowNumbers 7 rv.1 w.1 = -1 := ih1 rv.1 rfl w hw'
          have hllen : l.length = 8 := by
            cases last with
            | none => simp at hl
            | some l0 =>
              injection hl with hl0
              subst hl0
              exact hwf.last_inv.1
          exact CompareRowNumbers_trans_lt (by rw [hllen, hlen]) (by rw [hlen, ih2 w hw'])
            h1 h2
      · intro w hw
        simp only [List.mem_cons] at hw
        rcases hw with rfl | hw'
        · exact hlen
        · exact ih2 w hw'
      · rw [List.chain'_cons']
        refine ⟨?_, ih3⟩
        intro y hy
        exact ih1 rv.1 rfl y (List.mem_of_mem_head? hy)

/-! ### Claim C10: permanence of exhaustion -/

theorem nextFuel_on_drained (cfg : SyncConfig) (f : Nat) (s : SyncState)
    (h1 : s.rgs = []) (h2 : s.currRG = none) :
    nextFuel cfg (f + 1) s = some (none, s) := by
  obtain ⟨rgs0, curr0, currRG0, currPage0⟩ := s
  simp only at h1 h2
  subst h1; subst h2
  rfl

theorem seekTo_on_drained (cfg : SyncConfig) (fuel : Nat) (s : SyncState)
    (tgt : RowNumber) (d : Nat) (h1 : s.rgs = []) (h2 : s.currRG = none) :
    SeekToFuel cfg fuel s tgt d = some (none, s) := by
  obtain ⟨rgs0, curr0, currRG0, currPage0⟩ := s
  simp only at h1 h2
  subst h1; subst h2
  rfl

/-- C10, counterexample.  Exhaustion signalled by `SeekTo` is not permanent:
over two row groups of one row each, with a page predicate rejecting the
first row group's page, `SeekTo({0,...}, 0)` returns no result and no error
(the current chunk ran out of pages), yet a subsequent `Next()` opens the
second row group and returns a result. -/
theorem c10_counterexample :
    (SeekToFuel c10cfg 10 (NewSyncIterator [c10rgA, c10rgB])
        [0, -1, -1, -1, -1, -1, -1, -1] 0).map (fun r => r.1.map Prod.fst) = some none ∧
    ((SeekToFuel c10cfg 10 (NewSyncIterator [c10rgA, c10rgB])
        [0, -1, -1, -1, -1, -1, -1, -1] 0).bind
      (fun r => (nextFuel c10cfg 10 r.2).map (fun r2 => r2.1.map Prod.fst))) =
      some (some [1, -1, -1, -1, -1, -1, -1, -1]) := by
  constructor
  · rfl
  · rfl

/-- C10 (amended): exhaustion signalled by `Next` is permanent.  If `Next()`
returns no result and no error from a state satisfying the iterator
invariant (any state reachable from `NewSyncIterator`), the iterator is
drained, and every subsequent `Next()` or `SeekTo` call returns no result
and no error, leaving the state unchanged.  (Exhaustion signalled by
`SeekTo` is not permanent; see the counterexample.) -/
theorem c10_exhaustion_amended (cfg : SyncConfig) (fuel f2 f3 : Nat)
    (s s' : SyncState) (last : Option RowNumber) (tgt : RowNumber) (d : Nat)
    (hwf : WFSync cfg s last) (h : nextFuel cfg fuel s = some (none, s')) :
    nextFuel cfg (f2 + 1) s' = some (none, s') ∧
    SeekToFuel cfg f3 s' tgt d = some (none, s') := by
  obtain ⟨_, _, h3⟩ := nextFuel_step cfg fuel hwf h
  obtain ⟨h1, h2, _⟩ := h3 rfl
  exact ⟨nextFuel_on_drained cfg f2 s' h1 h2, seekTo_on_drained cfg f3 s' tgt d h1 h2⟩

/-- Witness for C10 (amended): an iterator over no row groups is exhausted
on the first `Next()`, and stays exhausted for `Next` and `SeekTo`. -/
theorem c10_exhaustion_amended_witness :
    (WFSync c10cfg (NewSyncIterator []) none ∧
      nextFuel c10cfg 1 (NewSyncIterator []) = some (none, NewSyncIterator [])) ∧
    (nextFuel c10cfg (2 + 1) (NewSyncIterator []) = some (none, NewSyncIterator []) ∧
      SeekToFuel c10cfg 5 (NewSyncIterator []) [0, -1, -1, -1, -1, -1, -1, -1] 0 =
        some (none, NewSyncIterator [])) :=
  ⟨⟨wf_NewSyncIterator c10cfg [] (by decide) (by intro rg hrg; simp at hrg), rfl⟩,
    c10_exhaustion_amended c10cfg 1 2 5 (NewSyncIterator []) (NewSyncIterator []) none
      [0, -1, -1, -1, -1, -1, -1, -1] 0
      (wf_NewSyncIterator c10cfg [] (by decide) (by intro rg hrg; simp at hrg)) rfl⟩

theorem childPeek_remaining (c : Child) : (childPeek c).remaining = c.remaining := by
  obtain ⟨p, s⟩ := c
  cases p with
  | none => cases s <;> rfl
  | some r => rfl

theorem childPeek_peeked (c : Child) : peeked (childPeek c) := by
  obtain ⟨p, s⟩ := c
  cases p with
  | none =>
    cases s with
    | nil => intro _; rfl
    | cons a l => intro h; simp [childPeek, streamNext] at h
  | some r => intro h; simp [childPeek] at h

theorem peeked_head {c : Child} (h : peeked c) : c.1 = c.remaining.head? := by
  obtain ⟨p, s⟩ := c
  cases p with
  | none =>
    have hs : s = [] := h rfl
    subst hs
    rfl
  | some r => rfl

theorem wfRes_tail {r : Res} {l : ResStream} (h : wfRes (r :: l)) : wfRes l :=
  ⟨(List.chain'_cons'.mp h.1).2, fun w hw => h.2 w (by simp [hw])⟩

theorem wfRes_dropWhile (p : Res → Bool) {l : ResStream} (h : wfRes l) :
    wfRes (l.dropWhile p) := by
  induction l with
  | nil => exact h
  | cons r rest ih =>
    by_cases hp : p r
    · rw [List.dropWhile_cons_of_pos hp]
      exact ih (wfRes_tail h)
    · rw [List.dropWhile_cons_of_neg hp]
      exact h

/-- In a well-formed stream, the head is strictly below every later element
under full comparison. -/
theorem wfRes_head_lt {r : Res} {l : ResStream} (h : wfRes (r :: l)) :
    ∀ w ∈ l, CompareRowNumbers 7 r.rn w.rn = -1 := by
  induction l generalizing r with
  | nil => intro w hw; simp at hw
  | cons w1 rest ih =>
    intro w hw
    have h1 : CompareRowNumbers 7 r.rn w1.rn = -1 := (List.chain'_cons.mp h.1).1
    rcases List.mem_cons.mp hw with rfl | hw'
    · exact h1
    · have htail : wfRes (w1 :: rest) := wfRes_tail h
      have h2 := ih htail w hw'
      exact CompareRowNumbers_trans_lt
        (by rw [h.2 r (by simp), h.2 w1 (by simp)])
        (by rw [h.2 w1 (by simp), h.2 w (by simp [hw'])]) h1 h2

/-- In a well-formed stream, the head is at or below every element at every
level. -/
theorem wfRes_head_le {d : Nat} (hd : d ≤ 7) {r : Res} {l : ResStream}
    (h : wfRes (r :: l)) : ∀ w ∈ r :: l, CompareRowNumbers d r.rn w.rn ≤ 0 := by
  intro w hw
  rcases List.mem_cons.mp hw with rfl | hw'
  · rw [CompareRowNumbers_self]
  · exact CompareRowNumbers_level_le_of_full hd (wfRes_head_lt h w hw')

/-- `collectChild` takes exactly the maximal matching prefix of the child's
remaining results and leaves the rest, with a faithful peek. -/
theorem collectChild_spec (d : Nat) (g : RowNumber) :
    ∀ (s : ResStream) (p : Option Res), peeked (p, s) →
    (collectChild d g p s).1 =
      (Child.remaining (p, s)).takeWhile (fun r => EqualRowNumber d r.rn g) ∧
    Child.remaining (collectChild d g p s).2 =
      (Child.remaining (p, s)).dropWhile (fun r => EqualRowNumber d r.rn g) ∧
    peeked (collectChild d g p s).2 := by
  intro s
  induction s with
  | nil =>
    intro p hp
    cases p with
    | none => exact ⟨rfl, rfl, fun _ => rfl⟩
    | some r =>
      by_cases h : EqualRowNumber d r.rn g
      · simp [collectChild, h, Child.remaining, List.takeWhile, List.dropWhile]
        intro hc; rfl
      · simp only [collectChild, h, if_false, Bool.false_eq_true]
        refine ⟨?_, ?_, fun hc => by simp at hc⟩
        · simp [Child.remaining, List.takeWhile, h]
        · simp [Child.remaining, List.dropWhile, h]
  | cons r2 rest ih =>
    intro p hp
    cases p with
    | none => exact absurd (hp rfl) (by simp)
    | some r =>
      by_cases h : EqualRowNumber d r.rn g
      · have hrec := ih (some r2) (fun hc => by simp at hc)
        simp only [collectChild, h, if_true]
        refine ⟨?_, ?_, hrec.2.2⟩
        · show r :: (collectChild d g (some r2) rest).1 = _
          rw [hrec.1]
          simp [Child.remaining, List.takeWhile, h]
        · show Child.remaining (collectChild d g (some r2) rest).2 = _
          rw [hrec.2.1]
          simp [Child.remaining, List.dropWhile, h]
      · simp only [collectChild, h, if_false, Bool.false_eq_true]
        refine ⟨?_, ?_, fun hc => by simp at hc⟩
        · simp [Child.remaining, List.takeWhile, h]
        · simp [Child.remaining, List.dropWhile, h]

/-- `SeekTo` on a stream drops exactly the results below the target at the
given level. -/
theorem streamSeek_spec (tgt : RowNumber) (d : Nat) :
    ∀ (s : ResStream),
    Child.remaining (streamSeek tgt d s) =
      s.dropWhile (fun r => decide (CompareRowNumbers d r.rn tgt = -1)) ∧
    peeked (streamSeek tgt d s) := by
  intro s
  induction s with
  | nil => exact ⟨rfl, fun _ => rfl⟩
  | cons r rest ih =>
    by_cases h : CompareRowNumbers d r.rn tgt = -1
    · simp only [streamSeek, h, if_true, if_pos h]
      refine ⟨?_, ih.2⟩
      rw [ih.1]
      simp [List.dropWhile, h]
    · simp only [streamSeek, if_neg h]
      refine ⟨?_, fun hc => by simp at hc⟩
      simp [Child.remaining, List.dropWhile, h]

theorem lexCmp_trans_le {a b c : List Int} (hab : a.length = b.length)
    (hbc : b.length = c.length) (h1 : lexCmp a b ≤ 0) (h2 : lexCmp b c ≤ 0) :
    lexCmp a c ≤ 0 := by
  rcases lexCmp_cases a b with hx | hx | hx
  · rcases lexCmp_cases b c with hy | hy | hy
    · rw [lexCmp_trans_lt hab hbc hx hy]; decide
    · rw [(lexCmp_eq_zero_iff hbc).mp hy] at hx
      rw [hx]; decide
    · omega
  · rw [(lexCmp_eq_zero_iff hab).mp hx]
    exact h2
  · omega

theorem CompareRowNumbers_trans_le {d : Nat} {a b c : RowNumber}
    (hab : a.length = b.length) (hbc : b.length = c.length)
    (h1 : CompareRowNumbers d a b ≤ 0) (h2 : CompareRowNumbers d b c ≤ 0) :
    CompareRowNumbers d a c ≤ 0 :=
  lexCmp_trans_le (by simp [hab]) (by simp [hbc]) h1 h2

theorem CompareRowNumbers_trans_lt_le {d : Nat} {a b c : RowNumber}
    (hab : a.length = b.length) (hbc : b.length = c.length)
    (h1 : CompareRowNumbers d a b = -1) (h2 : CompareRowNumbers d b c ≤ 0) :
    CompareRowNumbers d a c = -1 := by
  rcases lexCmp_cases (b.take (d + 1)) (c.take (d + 1)) with hy | hy | hy
  · exact CompareRowNumbers_trans_lt hab hbc h1 hy
  · have : b.take (d + 1) = c.take (d + 1) :=
      (lexCmp_eq_zero_iff (by simp [hbc])).mp hy
    unfold CompareRowNumbers at h1 ⊢
    rw [← this]
    exact h1
  · exact absurd hy (by unfold CompareRowNumbers at h2; omega)

theorem CompareRowNumbers_swap (d : Nat) (a b : RowNumber) :
    CompareRowNumbers d a b = -(CompareRowNumbers d b a) :=
  lexCmp_swap _ _

/-- `EqualRowNumber` coincides with comparison returning 0 (for same-length
row numbers). -/
theorem EqualRowNumber_iff_compare {d : Nat} {a b : RowNumber}
    (hab : a.length = b.length) :
    EqualRowNumber d a b = true ↔ CompareRowNumbers d a b = 0 := by
  rw [EqualRowNumber_iff, CompareRowNumbers_eq_zero_iff hab]

/-- The minimum-accumulator of `UnionIterator.Next`: the final value is at
or below the initial one and every peek (at the union level), and is either
the initial value or one of the peeks' row numbers. -/
theorem unionLowest_spec {d : Nat} :
    ∀ (cs : List Child) (init : RowNumber),
    (∀ c ∈ cs, ∀ r, c.1 = some r → r.rn.length = 8) → init.length = 8 →
    (unionLowest d cs init).length = 8 ∧
    CompareRowNumbers d (unionLowest d cs init) init ≤ 0 ∧
    (∀ c ∈ cs, ∀ r, c.1 = some r →
      CompareRowNumbers d (unionLowest d cs init) r.rn ≤ 0) ∧
    (unionLowest d cs init = init ∨
      ∃ c ∈ cs, ∃ r, c.1 = some r ∧ r.rn = unionLowest d cs init) := by
  intro cs
  induction cs with
  | nil =>
    intro init _ hinit
    refine ⟨hinit, ?_, by simp, Or.inl rfl⟩
    show CompareRowNumbers d init init ≤ 0
    rw [CompareRowNumbers_self]
  | cons c rest ih =>
    intro init hlen hinit
    match hc : c.1 with
    | none =>
      have hr := ih init (fun w hw r h => hlen w (by simp [hw]) r h) hinit
      simp only [unionLowest, hc]
      refine ⟨hr.1, hr.2.1, ?_, ?_⟩
      · intro w hw r h
        rcases List.mem_cons.mp hw with rfl | hw'
        · rw [h] at hc; simp at hc
        · exact hr.2.2.1 w hw' r h
      · rcases hr.2.2.2 with h | ⟨w, hw, r, h1, h2⟩
        · exact Or.inl h
        · exact Or.inr ⟨w, by simp [hw], r, h1, h2⟩
    | some r0 =>
      have hr0 : r0.rn.length = 8 := hlen c (by simp) r0 hc
      by_cases hcmp : CompareRowNumbers d r0.rn init = -1
      · have hr := ih r0.rn (fun w hw r h => hlen w (by simp [hw]) r h) hr0
        simp only [unionLowest, hc, if_pos hcmp]
        refine ⟨hr.1, ?_, ?_, ?_⟩
        · exact CompareRowNumbers_trans_le (by rw [hr.1, hr0]) (by rw [hr0, hinit])
            hr.2.1 (by omega)
        · intro w hw r h
          rcases List.mem_cons.mp hw with rfl | hw'
          · have hrr : r = r0 := by
              rw [hc] at h
              exact (Option.some.inj h).symm
            rw [hrr]
            exact hr.2.1
          · exact hr.2.2.1 w hw' r h
        · rcases hr.2.2.2 with h | ⟨w, hw, r, h1, h2⟩
          · exact Or.inr ⟨c, by simp, r0, hc, h.symm⟩
          · exact Or.inr ⟨w, by simp [hw], r, h1, h2⟩
      · have hr := ih init (fun w hw r h => hlen w (by simp [hw]) r h) hinit
        simp only [unionLowest, hc, if_neg hcmp]
        refine ⟨hr.1, hr.2.1, ?_, ?_⟩
        · intro w hw r h
          rcases List.mem_cons.mp hw with rfl | hw'
          · have hrr : r = r0 := by
              rw [hc] at h
              exact (Option.some.inj h).symm
            rw [hrr]
            have hge : CompareRowNumbers d init r0.rn ≤ 0 := by
              have hcases := lexCmp_cases (r0.rn.take (d + 1)) (init.take (d + 1))
              rw [CompareRowNumbers_swap]
              unfold CompareRowNumbers at hcmp ⊢
              omega
            exact CompareRowNumbers_trans_le (by rw [hr.1, hinit]) (by rw [hinit, hr0])
              hr.2.1 hge
          · exact hr.2.2.1 w hw' r h
        · rcases hr.2.2.2 with h | ⟨w, hw, r, h1, h2⟩
          · exact Or.inl h
          · exact Or.inr ⟨w, by simp [hw], r, h1, h2⟩

theorem forall₂_mem_left {α β : Type} {R : α → β → Prop} :
    ∀ {l1 : List α} {l2 : List β}, List.Forall₂ R l1 l2 →
    ∀ a ∈ l1, ∃ b ∈ l2, R a b := by
  intro l1 l2 h
  induction h with
  | nil => intro a ha; simp at ha
  | cons hr _ ih =>
    intro a ha
    rcases List.mem_cons.mp ha with rfl | ha'
    · exact ⟨_, by simp, hr⟩
    · obtain ⟨b, hb, hab⟩ := ih a ha'
      exact ⟨b, by simp [hb], hab⟩

theorem forall₂_mem_right {α β : Type} {R : α → β → Prop} :
    ∀ {l1 : List α} {l2 : List β}, List.Forall₂ R l1 l2 →
    ∀ b ∈ l2, ∃ a ∈ l1, R a b := by
  intro l1 l2 h
  induction h with
  | nil => intro b hb; simp at hb
  | cons hr _ ih =>
    intro b hb
    rcases List.mem_cons.mp hb with rfl | hb'
    · exact ⟨_, by simp, hr⟩
    · obtain ⟨a, ha, hab⟩ := ih b hb'
      exact ⟨a, by simp [ha], hab⟩

theorem forall₂_map_eq {α β γ : Type} {R : α → β → Prop} {f : α → γ} {g : β → γ}
    (hfg : ∀ a b, R a b → f a = g b) :
    ∀ {l1 : List α} {l2 : List β}, List.Forall₂ R l1 l2 → l1.map f = l2.map g := by
  intro l1 l2 h
  induction h with
  | nil => rfl
  | cons hr _ ih => simp only [List.map_cons, hfg _ _ hr, ih]

/-- `collect` over all children: the collected results are the matching
prefixes, in child order, and each child keeps exactly the rest. -/
theorem collectAll_spec (d : Nat) (g : RowNumber) :
    ∀ (cs : List Child), (∀ c ∈ cs, peeked c) →
    (collectAll d g cs).1 =
      (cs.map (fun c => (Child.remaining c).takeWhile
        (fun r => EqualRowNumber d r.rn g))).flatten ∧
    List.Forall₂ (fun c c' => Child.remaining c' =
        (Child.remaining c).dropWhile (fun r => EqualRowNumber d r.rn g) ∧ peeked c')
      cs (collectAll d g cs).2 := by
  intro cs
  induction cs with
  | nil => intro _; exact ⟨rfl, List.Forall₂.nil⟩
  | cons c rest ih =>
    intro hp
    have h1 := collectChild_spec d g c.2 c.1 (hp c (by simp))
    have h2 := ih (fun w hw => hp w (by simp [hw]))
    constructor
    · show (collectChild d g c.1 c.2).1 ++ (collectAll d g rest).1 = _
      rw [h2.1]
      simp only [List.map_cons, List.flatten_cons]
      congr 1
      exact h1.1
    · exact List.Forall₂.cons ⟨h1.2.1, h1.2.2⟩ h2.2

/-- In a well-formed stream whose elements are all at or above `lo` at level
`d`, the prefix equal to `lo` is the whole matching set, and everything after
it is strictly greater. -/
theorem min_class_split {d : Nat} (hd7 : d ≤ 7) {lo : RowNumber} (hlo : lo.length = 8) :
    ∀ (l : ResStream), wfRes l → (∀ r ∈ l, CompareRowNumbers d lo r.rn ≤ 0) →
    l.takeWhile (fun r => EqualRowNumber d r.rn lo) =
      l.filter (fun r => EqualRowNumber d r.rn lo) ∧
    (∀ r ∈ l.dropWhile (fun r => EqualRowNumber d r.rn lo),
      CompareRowNumbers d lo r.rn = -1) := by
  intro l
  induction l with
  | nil => intro _ _; exact ⟨rfl, by simp⟩
  | cons r tl ih =>
    intro hwf hmin
    by_cases he : EqualRowNumber d r.rn lo
    · have hr := ih (wfRes_tail hwf) (fun w hw => hmin w (by simp [hw]))
      simp only [List.takeWhile_cons, List.dropWhile_cons, List.filter_cons, he, if_true]
      exact ⟨by rw [hr.1], hr.2⟩
    · have hrlen : r.rn.length = 8 := hwf.2 r (by simp)
      have hlt : CompareRowNumbers d lo r.rn = -1 := by
        have h1 : CompareRowNumbers d lo r.rn ≤ 0 := hmin r (by simp)
        have h2 : ¬ CompareRowNumbers d lo r.rn = 0 := by
          intro h0
          apply he
          rw [EqualRowNumber_iff_compare (by rw [hrlen, hlo]),
            CompareRowNumbers_swap, h0]
          rfl
        have := lexCmp_cases (lo.take (d + 1)) (r.rn.take (d + 1))
        unfold CompareRowNumbers at h1 h2 ⊢
        omega
      have hall : ∀ w ∈ tl, CompareRowNumbers d lo w.rn = -1 := by
        intro w hw
        have hle : CompareRowNumbers d r.rn w.rn ≤ 0 :=
          CompareRowNumbers_level_le_of_full hd7 (wfRes_head_lt hwf w hw)
        exact CompareRowNumbers_trans_lt_le (by rw [hlo, hrlen])
          (by rw [hrlen, hwf.2 w (by simp [hw])]) hlt hle
      simp only [List.takeWhile_cons, List.dropWhile_cons, List.filter_cons, he,
        Bool.false_eq_true, if_false]
      constructor
      · symm
        rw [List.filter_eq_nil_iff]
        intro w hw hwe
        have : CompareRowNumbers d lo w.rn = 0 := by
          rw [EqualRowNumber_iff_compare (by rw [hwf.2 w (by simp [hw]), hlo]),
            CompareRowNumbers_swap] at hwe
          omega
        rw [hall w hw] at this
        exact absurd this (by decide)
      · intro w hw
        rcases List.mem_cons.mp hw with rfl | hw'
        · exact hlt
        · exact hall w hw'

theorem forall₂_childPeek (cs : List Child) :
    List.Forall₂ (fun c c' => Child.remaining c' = Child.remaining c ∧ peeked c')
      cs (cs.map childPeek) := by
  induction cs with
  | nil => exact List.Forall₂.nil
  | cons c rest ih =>
    exact List.Forall₂.cons ⟨childPeek_remaining c, childPeek_peeked c⟩ ih

theorem forall₂_strengthen_left {α β : Type} {R : α → β → Prop} {P : α → Prop} :
    ∀ {l1 : List α} {l2 : List β}, List.Forall₂ R l1 l2 → (∀ a ∈ l1, P a) →
    List.Forall₂ (fun a b => R a b ∧ P a) l1 l2 := by
  intro l1 l2 h
  induction h with
  | nil => intro _; exact List.Forall₂.nil
  | cons hr _ ih =>
    intro hp
    exact List.Forall₂.cons ⟨hr, hp _ (by simp)⟩ (ih (fun a ha => hp a (by simp [ha])))

theorem forall₂_compose {α β γ : Type} {R1 : α → β → Prop} {R2 : β → γ → Prop}
    {R3 : α → γ → Prop} (h : ∀ a b c, R1 a b → R2 b c → R3 a c) :
    ∀ {l1 : List α} {l2 : List β} {l3 : List γ},
    List.Forall₂ R1 l1 l2 → List.Forall₂ R2 l2 l3 → List.Forall₂ R3 l1 l3 := by
  intro l1 l2 l3 h12
  induction h12 generalizing l3 with
  | nil =>
    intro h23
    cases h23
    exact List.Forall₂.nil
  | cons hr _ ih =>
    intro h23
    cases h23 with
    | cons hr2 h23' => exact List.Forall₂.cons (h _ _ _ hr hr2) (ih h23')

/-! ### The join seek loop -/

/-- Truncating the target to the join level does not change comparisons at
that level. -/
theorem take_truncate {d : Nat} (hd7 : d ≤ 7) {tgt : RowNumber}
    (hlen : tgt.length = 8) :
    (TruncateRowNumber d tgt).take (d + 1) = tgt.take (d + 1) := by
  unfold TruncateRowNumber
  apply List.take_left'
  rw [List.length_take, hlen]
  omega

theorem CompareRowNumbers_truncate {d : Nat} (hd7 : d ≤ 7) {tgt : RowNumber}
    (hlen : tgt.length = 8) (x : RowNumber) :
    CompareRowNumbers d x (TruncateRowNumber d tgt) = CompareRowNumbers d x tgt := by
  unfold CompareRowNumbers
  rw [take_truncate hd7 hlen]

theorem streamSeek_truncate {d : Nat} (hd7 : d ≤ 7) {tgt : RowNumber}
    (hlen : tgt.length = 8) :
    ∀ s : ResStream, streamSeek (TruncateRowNumber d tgt) d s = streamSeek tgt d s := by
  intro s
  induction s with
  | nil => rfl
  | cons r rest ih =>
    show (if CompareRowNumbers d r.rn (TruncateRowNumber d tgt) = -1 then _ else _) = _
    rw [CompareRowNumbers_truncate hd7 hlen]
    show _ = (if CompareRowNumbers d r.rn tgt = -1 then _ else _)
    split
    · exact ih
    · rfl

/-- The join seek and the left-join seek coincide on full-length targets:
truncation only discards positions that level-`d` comparison ignores. -/
theorem joinSeekChild_eq_lj {d : Nat} (hd7 : d ≤ 7) {tgt : RowNumber}
    (hlen : tgt.length = 8) (c : Child) :
    joinSeekChild d tgt c = ljSeekChild d tgt c := by
  obtain ⟨p, s⟩ := c
  cases p with
  | none =>
    show streamSeek (TruncateRowNumber d tgt) d s = streamSeek tgt d s
    exact streamSeek_truncate hd7 hlen s
  | some p =>
    show (if CompareRowNumbers d p.rn (TruncateRowNumber d tgt) = -1 then
        streamSeek (TruncateRowNumber d tgt) d s else (some p, s)) = _
    rw [CompareRowNumbers_truncate hd7 hlen, streamSeek_truncate hd7 hlen]
    rfl

theorem seekTail_congr {d : Nat} {s1 s2 : RowNumber → Child → Child} {p0 : Res}
    (h : ∀ c, s1 p0.rn c = s2 p0.rn c) (c0 : Child) :
    ∀ tail : List Child, seekTail d s1 c0 p0 tail = seekTail d s2 c0 p0 tail := by
  intro tail
  induction tail with
  | nil => rfl
  | cons c rest ih =>
    show (match (s1 p0.rn c).1 with
      | none => SeekOut.exhausted ((s1 p0.rn c) :: rest)
      | some p =>
        if CompareRowNumbers d p.rn p0.rn = 1 then
          SeekOut.swapped (s1 p0.rn c) (c0 :: rest)
        else
          match seekTail d s1 c0 p0 rest with
          | .exhausted tail' => .exhausted ((s1 p0.rn c) :: tail')
          | .swapped c0' tail' => .swapped c0' ((s1 p0.rn c) :: tail')
          | .ready tail' => .ready ((s1 p0.rn c) :: tail')) = _
    rw [h c, ih]
    rfl

/-- `LeftJoinIterator.seek` advances a child exactly past the results
strictly below the target at the given level, leaving a faithful peek. -/
theorem ljSeekChild_remaining (d : Nat) (tgt : RowNumber) (c : Child) :
    Child.remaining (ljSeekChild d tgt c) = (Child.remaining c).dropWhile
      (fun r => decide (CompareRowNumbers d r.rn tgt = -1)) ∧
    peeked (ljSeekChild d tgt c) := by
  obtain ⟨p, s⟩ := c
  cases p with
  | none =>
    have h := streamSeek_spec tgt d s
    exact ⟨h.1, h.2⟩
  | some p =>
    by_cases hp : CompareRowNumbers d p.rn tgt = -1
    · have hlj : ljSeekChild d tgt (some p, s) = streamSeek tgt d s := by
        show (if CompareRowNumbers d p.rn tgt = -1 then streamSeek tgt d s
          else (some p, s)) = _
        rw [if_pos hp]
      rw [hlj]
      have h := streamSeek_spec tgt d s
      refine ⟨?_, h.2⟩
      rw [h.1]
      show _ = ((p :: s).dropWhile _ : ResStream)
      rw [List.dropWhile_cons]
      rw [if_pos (by simpa using hp)]
    · have hlj : ljSeekChild d tgt (some p, s) = (some p, s) := by
        show (if CompareRowNumbers d p.rn tgt = -1 then streamSeek tgt d s
          else (some p, s)) = _
        rw [if_neg hp]
      rw [hlj]
      refine ⟨?_, fun hc => by simp at hc⟩
      show (p :: s : ResStream) = (p :: s).dropWhile _
      rw [List.dropWhile_cons]
      rw [if_neg (by simpa using hp)]

/-- A successful seek never lands strictly below the target. -/
theorem ljSeekChild_peek_ge {d : Nat} {tgt : RowNumber} {c : Child} {p : Res}
    (h : (ljSeekChild d tgt c).1 = some p) :
    ¬ CompareRowNumbers d p.rn tgt = -1 := by
  have hseek : ∀ s : ResStream, ∀ q : Res, (streamSeek tgt d s).1 = some q →
      ¬ CompareRowNumbers d q.rn tgt = -1 := by
    intro s
    induction s with
    | nil => intro q hq; simp [streamSeek] at hq
    | cons r rest ih =>
      intro q hq
      by_cases hr : CompareRowNumbers d r.rn tgt = -1
      · rw [show streamSeek tgt d (r :: rest) = streamSeek tgt d rest from by
          simp [streamSeek, hr]] at hq
        exact ih q hq
      · rw [show streamSeek tgt d (r :: rest) = (some r, rest) from by
          simp [streamSeek, hr]] at hq
        cases hq
        exact hr
  obtain ⟨pk, s⟩ := c
  cases pk with
  | none => exact hseek s p h
  | some pk =>
    by_cases hp : CompareRowNumbers d pk.rn tgt = -1
    · rw [show ljSeekChild d tgt (some pk, s) = streamSeek tgt d s from by
        simp [ljSeekChild, hp]] at h
      exact hseek s p h
    · rw [show ljSeekChild d tgt (some pk, s) = (some pk, s) from by
        simp [ljSeekChild, hp]] at h
      cases h
      exact hp

/-- The refill pass of the composite iterators preserves every child's
remaining results; a failed pass exhibits an exhausted child, a successful
one leaves every child with a faithful, occupied peek. -/
theorem peekPhase_spec :
    ∀ cs : List Child,
    List.Forall₂ (fun c c' => Child.remaining c' = Child.remaining c) cs (peekPhase cs).2 ∧
    ((peekPhase cs).1 = false → ∃ c' ∈ (peekPhase cs).2, Child.remaining c' = []) ∧
    ((peekPhase cs).1 = true → ∀ c' ∈ (peekPhase cs).2, peeked c' ∧ c'.1.isSome) := by
  intro cs
  induction cs with
  | nil => exact ⟨List.Forall₂.nil, by simp [peekPhase], by simp [peekPhase]⟩
  | cons c rest ih =>
    have hrem := childPeek_remaining c
    have hpk := childPeek_peeked c
    cases hc : (childPeek c).1 with
    | none =>
      have hrun : peekPhase (c :: rest) = (false, childPeek c :: rest) := by
        show (match (childPeek c).1 with
          | none => (false, childPeek c :: rest)
          | some _ => ((peekPhase rest).1, childPeek c :: (peekPhase rest).2)) = _
        rw [hc]
      rw [hrun]
      refine ⟨List.Forall₂.cons hrem ?_, ?_, ?_⟩
      · exact List.forall₂_same.mpr (fun x _ => rfl)
      · intro _
        refine ⟨childPeek c, by simp, ?_⟩
        show Child.remaining (childPeek c) = []
        have h2 := hpk hc
        rw [show childPeek c = ((childPeek c).1, (childPeek c).2) from rfl, hc, h2]
        rfl
      · intro hcon
        simp at hcon
    | some p =>
      have hrun : peekPhase (c :: rest) =
          ((peekPhase rest).1, childPeek c :: (peekPhase rest).2) := by
        show (match (childPeek c).1 with
          | none => (false, childPeek c :: rest)
          | some _ => ((peekPhase rest).1, childPeek c :: (peekPhase rest).2)) = _
        rw [hc]
      rw [hrun]
      refine ⟨List.Forall₂.cons hrem ih.1, ?_, ?_⟩
      · intro hf
        obtain ⟨c', hc', he⟩ := ih.2.1 hf
        exact ⟨c', by simp [hc'], he⟩
      · intro ht c' hc'
        rcases List.mem_cons.mp hc' with rfl | hc'
        · exact ⟨hpk, by rw [hc]; rfl⟩
        · exact ih.2.2 ht c' hc'

/-! ### Transfer of complete groups across the join passes -/

/-- Two child lists with identical remaining streams have the same complete
groups. -/
theorem complete_of_forall₂_eq {d : Nat} {cs cs2 : List Child}
    (h : List.Forall₂ (fun c c' => Child.remaining c' = Child.remaining c) cs cs2)
    (g : RowNumber) : CompleteGroup d cs g ↔ CompleteGroup d cs2 g := by
  constructor
  · intro hcg c' hc'
    obtain ⟨c, hcm, he⟩ := forall₂_mem_right h c' hc'
    rw [he]
    exact hcg c hcm
  · intro hcg c hcm
    obtain ⟨c', hc', he⟩ := forall₂_mem_left h c hcm
    rw [← he]
    exact hcg c' hc'

theorem complete_perm {d : Nat} {cs cs2 : List Child} (h : cs.Perm cs2)
    (g : RowNumber) : CompleteGroup d cs g ↔ CompleteGroup d cs2 g := by
  constructor
  · intro hcg c hc
    exact hcg c (h.mem_iff.mpr hc)
  · intro hcg c hc
    exact hcg c (h.mem_iff.mp hc)

/-- In a well-formed peeked child, the peek bounds every remaining result
from below at every level. -/
theorem wf_peek_lb {d : Nat} (hd7 : d ≤ 7) {c : Child} {p : Res}
    (hwf : wfChild c) (hp : c.1 = some p) :
    ∀ r ∈ Child.remaining c, CompareRowNumbers d p.rn r.rn ≤ 0 := by
  have hrem : Child.remaining c = p :: c.2 := by
    show c.1.toList ++ c.2 = _
    rw [hp]
    rfl
  have hwf' : wfRes (p :: c.2) := by
    rw [← hrem]
    exact hwf
  intro r hr
  rw [hrem] at hr
  exact wfRes_head_le hd7 hwf' r hr

theorem mem_dropWhile_of_not {α : Type} {p : α → Bool} {l : List α} {a : α}
    (ha : a ∈ l) (hp : ¬ p a = true) : a ∈ l.dropWhile p := by
  have hsplit : l.takeWhile p ++ l.dropWhile p = l := List.takeWhile_append_dropWhile p l
  rw [← hsplit] at ha
  rcases List.mem_append.mp ha with h | h
  · exact absurd (List.mem_takeWhile_imp h) hp
  · exact h

/-- Equality of row numbers at a level is transitive and symmetric. -/
theorem EqualRowNumber_trans {d : Nat} {a b c : RowNumber}
    (h1 : EqualRowNumber d a b = true) (h2 : EqualRowNumber d b c = true) :
    EqualRowNumber d a c = true := by
  rw [EqualRowNumber_iff] at h1 h2 ⊢
  rw [h1, h2]

theorem EqualRowNumber_symm {d : Nat} {a b : RowNumber}
    (h : EqualRowNumber d a b = true) : EqualRowNumber d b a = true := by
  rw [EqualRowNumber_iff] at h ⊢
  rw [h]

/-- Two row numbers matching the same group at a level compare equal at that
level. -/
theorem CompareRowNumbers_zero_of_two_equal {d : Nat} {a b g : RowNumber}
    (ha : EqualRowNumber d a g = true) (hb : EqualRowNumber d b g = true) :
    CompareRowNumbers d a b = 0 := by
  rw [EqualRowNumber_iff] at ha hb
  unfold CompareRowNumbers
  rw [ha, hb, lexCmp_self]

/-- Seeking the tail children to the leader's row number neither creates nor
destroys complete groups: a dropped result lies strictly below the leader at
the join level, while the leader itself witnesses that its group's results
start at or above it. -/
theorem complete_shrink {d : Nat} (hd7 : d ≤ 7) {p0 : Res} {c0 : Child}
    (hc0 : c0.1 = some p0) (hwf0 : wfChild c0) :
    ∀ {tail tailP : List Child}, List.Forall₂ (procRel d p0.rn) tail tailP →
    (∀ c ∈ tail, wfChild c) →
    ∀ g, CompleteGroup d (c0 :: tail) g ↔ CompleteGroup d (c0 :: tailP) g := by
  intro tail tailP hfa hwfT g
  have hp0len : p0.rn.length = 8 := by
    have : p0 ∈ Child.remaining c0 := by
      show p0 ∈ c0.1.toList ++ c0.2
      rw [hc0]
      simp
    exact hwf0.2 p0 this
  constructor
  · intro hcg c' hc'
    rcases List.mem_cons.mp hc' with rfl | hc'
    · exact hcg _ (List.mem_cons_self _ _)
    obtain ⟨c, hcm, hrel⟩ := forall₂_mem_right hfa c' hc'
    obtain ⟨r, hr, hre⟩ := hcg c (by simp [hcm])
    rcases hrel with hdrop | rfl
    · refine ⟨r, ?_, hre⟩
      rw [hdrop]
      apply mem_dropWhile_of_not hr
      simp only [decide_eq_true_eq]
      intro hlt
      obtain ⟨r0, hr0, hr0e⟩ := hcg c0 (List.mem_cons_self _ _)
      have h1 : CompareRowNumbers d p0.rn r0.rn ≤ 0 := wf_peek_lb hd7 hwf0 hc0 r0 hr0
      have h2 : CompareRowNumbers d r.rn r0.rn = 0 :=
        CompareRowNumbers_zero_of_two_equal hre hr0e
      have hrlen : r.rn.length = 8 := (hwfT c hcm).2 r hr
      have hr0len : r0.rn.length = 8 := hwf0.2 r0 hr0
      have h3 : CompareRowNumbers d r.rn r0.rn = -1 :=
        CompareRowNumbers_trans_lt_le (by rw [hrlen, hp0len])
          (by rw [hp0len, hr0len]) hlt h1
      rw [h2] at h3
      exact absurd h3 (by decide)
    · exact ⟨r, hr, hre⟩
  · intro hcg c hc
    rcases List.mem_cons.mp hc with rfl | hc
    · exact hcg _ (List.mem_cons_self _ _)
    obtain ⟨c', hc', hrel⟩ := forall₂_mem_left hfa c hc
    obtain ⟨r, hr, hre⟩ := hcg c' (by simp [hc'])
    rcases hrel with hdrop | rfl
    · refine ⟨r, ?_, hre⟩
      rw [hdrop] at hr
      exact (List.dropWhile_suffix _).sublist.mem hr
    · exact ⟨r, hr, hre⟩

/-- The seek loop of the join iterators (run with the left-join per-child
seek): exhaustion exhibits a tail child living entirely below the leader;
a swap produces a permutation of partially-processed children; readiness
leaves every tail child peeking at a result equal to the leader at the join
level. -/
theorem seekTail_lj_spec {d : Nat} (c0 : Child) (p0 : Res) :
    ∀ tail : List Child,
    (match seekTail d (ljSeekChild d) c0 p0 tail with
     | .exhausted tail2 => ∃ c ∈ tail, ∀ r ∈ Child.remaining c,
         CompareRowNumbers d r.rn p0.rn = -1
     | .swapped c02 tail2 => ∃ tailP, List.Forall₂ (procRel d p0.rn) tail tailP ∧
         (c02 :: tail2).Perm (c0 :: tailP)
     | .ready tail2 => List.Forall₂ (fun c c' =>
         Child.remaining c' = (Child.remaining c).dropWhile
             (fun r => decide (CompareRowNumbers d r.rn p0.rn = -1)) ∧
         peeked c' ∧ ∃ p, c'.1 = some p ∧ CompareRowNumbers d p.rn p0.rn = 0)
         tail tail2) := by
  intro tail
  induction tail with
  | nil => exact List.Forall₂.nil
  | cons c rest ih =>
    have hrem := (ljSeekChild_remaining d p0.rn c).1
    have hpk := (ljSeekChild_remaining d p0.rn c).2
    have hunf : seekTail d (ljSeekChild d) c0 p0 (c :: rest) =
        (match (ljSeekChild d p0.rn c).1 with
         | none => SeekOut.exhausted ((ljSeekChild d p0.rn c) :: rest)
         | some p =>
           if CompareRowNumbers d p.rn p0.rn = 1 then
             SeekOut.swapped (ljSeekChild d p0.rn c) (c0 :: rest)
           else
             match seekTail d (ljSeekChild d) c0 p0 rest with
             | .exhausted tail' => .exhausted ((ljSeekChild d p0.rn c) :: tail')
             | .swapped c0' tail' => .swapped c0' ((ljSeekChild d p0.rn c) :: tail')
             | .ready tail' => .ready ((ljSeekChild d p0.rn c) :: tail')) := rfl
    rw [hunf]
    cases hc : (ljSeekChild d p0.rn c).1 with
    | none =>
      refine ⟨c, by simp, ?_⟩
      intro r hr
      have hempty : Child.remaining (ljSeekChild d p0.rn c) = [] := by
        show (ljSeekChild d p0.rn c).1.toList ++ (ljSeekChild d p0.rn c).2 = []
        rw [hc, hpk hc]
        rfl
      rw [hrem] at hempty
      have := List.dropWhile_eq_nil_iff.mp hempty r hr
      simpa using this
    | some p =>
      dsimp only
      by_cases hsw : CompareRowNumbers d p.rn p0.rn = 1
      · rw [if_pos hsw]
        refine ⟨ljSeekChild d p0.rn c :: rest, ?_, ?_⟩
        · exact List.Forall₂.cons (Or.inl hrem)
            (List.forall₂_same.mpr (fun x _ => Or.inr rfl))
        · exact List.Perm.swap c0 (ljSeekChild d p0.rn c) rest
      · rw [if_neg hsw]
        have hge := ljSeekChild_peek_ge hc
        have hp0 : CompareRowNumbers d p.rn p0.rn = 0 := by
          have := lexCmp_cases (p.rn.take (d + 1)) (p0.rn.take (d + 1))
          unfold CompareRowNumbers at hge hsw ⊢
          omega
        cases hst : seekTail d (ljSeekChild d) c0 p0 rest with
        | exhausted tail' =>
          have := ih
          rw [hst] at this
          obtain ⟨cw, hcw, hall⟩ := this
          exact ⟨cw, by simp [hcw], hall⟩
        | swapped c0' tail' =>
          have := ih
          rw [hst] at this
          obtain ⟨tailP, hfa, hperm⟩ := this
          refine ⟨ljSeekChild d p0.rn c :: tailP, ?_, ?_⟩
          · exact List.Forall₂.cons (Or.inl hrem) hfa
          · exact ((List.Perm.swap (ljSeekChild d p0.rn c) c0' tail').trans
              (hperm.cons (ljSeekChild d p0.rn c))).trans
              (List.Perm.swap c0 (ljSeekChild d p0.rn c) tailP)
        | ready tail' =>
          have := ih
          rw [hst] at this
          exact List.Forall₂.cons ⟨hrem, hpk, p, hc, hp0⟩ this

/-- The children produced by a swapping pass of the seek loop stay well
formed. -/
theorem wf_swap_result {d : Nat} {c0' c02 : Child} {p0 : Res}
    {tail' tailP tail2 : List Child}
    (hwf0' : wfChild c0') (hwfT' : ∀ c ∈ tail', wfChild c)
    (hfaP : List.Forall₂ (procRel d p0.rn) tail' tailP)
    (hperm : (c02 :: tail2).Perm (c0' :: tailP)) :
    ∀ c ∈ c02 :: tail2, wfChild c := by
  have hwfP : ∀ c ∈ tailP, wfChild c := by
    intro c hc
    obtain ⟨ct, hct, hrel⟩ := forall₂_mem_right hfaP c hc
    rcases hrel with hdrop | heq
    · show wfRes (Child.remaining c)
      rw [hdrop]
      exact wfRes_dropWhile _ (hwfT' ct hct)
    · rw [heq]
      exact hwfT' ct hct
  intro c hc
  have hm : c ∈ c0' :: tailP := hperm.mem_iff.mp hc
  rcases List.mem_cons.mp hm with heq | hcc
  · rw [heq]
    exact hwf0'
  · exact hwfP c hcc

/-- The work of one `JoinIterator.Next` call after its peek pass: the peeked
children carry the same remaining results as the original ones and the
leader's peek is `p0`. -/
theorem joinNext_after_peek {d : Nat} (hd7 : d ≤ 7) (pred : Option (Res → Bool))
    (fuel : Nat)
    (cs : List Child) (hwf : ∀ c ∈ cs, wfChild c)
    (c0' : Child) (tail' : List Child) (p0 : Res)
    (hfa : List.Forall₂ (fun c c' => Child.remaining c' = Child.remaining c)
      cs (c0' :: tail'))
    (hp0 : c0'.1 = some p0)
    (hrun : joinNext pred d (fuel + 1) cs =
      match seekTail d (joinSeekChild d) c0' p0 tail' with
      | .exhausted tail2 => some (none, c0' :: tail2, fuel)
      | .swapped c02 tail2 => joinNext pred d fuel (c02 :: tail2)
      | .ready tail2 =>
        match pred with
        | none => some (some (assemble p0.rn (collectAll d p0.rn (c0' :: tail2)).1),
            (collectAll d p0.rn (c0' :: tail2)).2, fuel)
        | some pr =>
          if pr (assemble p0.rn (collectAll d p0.rn (c0' :: tail2)).1) then
            some (some (assemble p0.rn (collectAll d p0.rn (c0' :: tail2)).1),
              (collectAll d p0.rn (c0' :: tail2)).2, fuel)
          else joinNext pred d fuel (collectAll d p0.rn (c0' :: tail2)).2)
    (spec_ih : ∀ cs2, cs2 ≠ [] → (∀ c ∈ cs2, wfChild c) →
      JoinNextSpec pred d fuel cs2) :
    JoinNextSpec pred d (fuel + 1) cs := by
  have hwf' : ∀ c' ∈ c0' :: tail', wfChild c' := by
    intro c' hc'
    obtain ⟨c, hcm, he⟩ := forall₂_mem_right hfa c' hc'
    show wfRes (Child.remaining c')
    rw [he]
    exact hwf c hcm
  have hwf0' : wfChild c0' := hwf' c0' (List.mem_cons_self _ _)
  have hwfT' : ∀ c ∈ tail', wfChild c := fun c hc => hwf' c (by simp [hc])
  have hp0mem : p0 ∈ Child.remaining c0' := by
    show p0 ∈ c0'.1.toList ++ c0'.2
    rw [hp0]
    simp
  have hp0len : p0.rn.length = 8 := hwf0'.2 p0 hp0mem
  have hiffPeek : ∀ g, CompleteGroup d cs g ↔ CompleteGroup d (c0' :: tail') g :=
    fun g => complete_of_forall₂_eq hfa g
  have hcongr := @seekTail_congr d (joinSeekChild d) (ljSeekChild d) p0
    (fun c => joinSeekChild_eq_lj hd7 hp0len c) c0' tail'
  rw [hcongr] at hrun
  have hspec := @seekTail_lj_spec d c0' p0 tail'
  cases hst : seekTail d (ljSeekChild d) c0' p0 tail' with
  | exhausted tail2 =>
    rw [hst] at hrun hspec
    constructor
    · intro res cs' f' h
      rw [hrun] at h
      simp at h
    · intro cs' f' h hnone g hcg
      obtain ⟨cw, hcw, hall⟩ := hspec
      have hcg' := (hiffPeek g).mp hcg
      obtain ⟨rw', hrw, hrwe⟩ := hcg' cw (by simp [hcw])
      obtain ⟨r0, hr0, hr0e⟩ := hcg' c0' (List.mem_cons_self _ _)
      have h1 := hall rw' hrw
      have h2 : CompareRowNumbers d p0.rn r0.rn ≤ 0 := wf_peek_lb hd7 hwf0' hp0 r0 hr0
      have h3 : CompareRowNumbers d rw'.rn r0.rn = 0 :=
        CompareRowNumbers_zero_of_two_equal hrwe hr0e
      have h4 : CompareRowNumbers d rw'.rn r0.rn = -1 :=
        CompareRowNumbers_trans_lt_le (by rw [(hwfT' cw hcw).2 rw' hrw, hp0len])
          (by rw [hp0len, hwf0'.2 r0 hr0]) h1 h2
      rw [h3] at h4
      exact absurd h4 (by decide)
  | swapped c02 tail2 =>
    rw [hst] at hrun hspec
    obtain ⟨tailP, hfaP, hperm⟩ := hspec
    have hwfP : ∀ c ∈ tailP, wfChild c := by
      intro c hc
      obtain ⟨ct, hct, hrel⟩ := forall₂_mem_right hfaP c hc
      rcases hrel with hdrop | heq
      · show wfRes (Child.remaining c)
        rw [hdrop]
        exact wfRes_dropWhile _ (hwfT' ct hct)
      · rw [heq]
        exact hwfT' ct hct
    have hwfNew : ∀ c ∈ c02 :: tail2, wfChild c := by
      intro c hc
      have hm : c ∈ c0' :: tailP := hperm.mem_iff.mp hc
      rcases List.mem_cons.mp hm with heq | hcc
      · rw [heq]
        exact hwf0'
      · exact hwfP c hcc
    have hiff : ∀ g, CompleteGroup d (c02 :: tail2) g ↔ CompleteGroup d cs g := by
      intro g
      rw [complete_perm hperm g,
        ← complete_shrink hd7 hp0 hwf0' hfaP hwfT' g]
      exact (hiffPeek g).symm
    have hsubNew : ∀ c ∈ c02 :: tail2, ∃ cc ∈ cs,
        ∀ r ∈ Child.remaining c, r ∈ Child.remaining cc := by
      intro c hc
      have hm : c ∈ c0' :: tailP := hperm.mem_iff.mp hc
      rcases List.mem_cons.mp hm with heq | hcc
      · obtain ⟨cc, hccm, he⟩ := forall₂_mem_right hfa c0' (List.mem_cons_self _ _)
        refine ⟨cc, hccm, ?_⟩
        intro r hr
        rw [heq] at hr
        rw [← he]
        exact hr
      · obtain ⟨ct, hct, hrel⟩ := forall₂_mem_right hfaP c hcc
        obtain ⟨cc, hccm, he⟩ := forall₂_mem_right hfa ct (by simp [hct])
        refine ⟨cc, hccm, ?_⟩
        intro r hr
        rw [← he]
        rcases hrel with hdrop | rfl
        · rw [hdrop] at hr
          exact (List.dropWhile_suffix _).sublist.mem hr
        · exact hr
    have hIH := spec_ih (c02 :: tail2) (by simp) hwfNew
    constructor
    · intro res cs' f' h
      rw [hrun] at h
      obtain ⟨hlen, hmem, hcomp, hacc, hback, hfwd, hwf2, hne2, hsubIH, hstrict⟩ :=
        hIH.1 res cs' f' h
      refine ⟨hlen, ?_, (hiff res.rn).mp hcomp, hacc, ?_, ?_, hwf2, hne2, ?_, hstrict⟩
      · obtain ⟨c, hc, r, hr, hre⟩ := hmem
        obtain ⟨cc, hccm, hsub⟩ := hsubNew c hc
        exact ⟨cc, hccm, r, hsub r hr, hre⟩
      · intro g hg
        exact (hiff g).mp (hback g hg)
      · intro hnone g hg
        exact hfwd hnone g ((hiff g).mpr hg)
      · intro c' hc'
        obtain ⟨cmid, hcmid, hsubm⟩ := hsubIH c' hc'
        obtain ⟨cc, hccm, hsub2⟩ := hsubNew cmid hcmid
        exact ⟨cc, hccm, fun r hr => hsub2 r (hsubm r hr)⟩
    · intro cs' f' h hnone g hcg
      rw [hrun] at h
      exact hIH.2 cs' f' h hnone g ((hiff g).mpr hcg)
  | ready tail2 =>
    rw [hst] at hrun hspec
    have hwfCur : ∀ c ∈ c0' :: tail2, wfChild c := by
      intro c hc
      rcases List.mem_cons.mp hc with heq | hc
      · rw [heq]
        exact hwf0'
      · obtain ⟨ct, hct, hrel, _, _⟩ := forall₂_mem_right hspec c hc
        show wfRes (Child.remaining c)
        rw [hrel]
        exact wfRes_dropWhile _ (hwfT' ct hct)
    have hpeekCur : ∀ c ∈ c0' :: tail2, peeked c := by
      intro c hc
      rcases List.mem_cons.mp hc with heq | hc
      · intro hcn
        rw [heq, hp0] at hcn
        cases hcn
      · obtain ⟨ct, hct, _, hpk, _⟩ := forall₂_mem_right hspec c hc
        exact hpk
    have hlb : ∀ c ∈ c0' :: tail2, ∀ r ∈ Child.remaining c,
        CompareRowNumbers d p0.rn r.rn ≤ 0 := by
      intro c hc r hr
      rcases List.mem_cons.mp hc with heq | hc2
      · rw [heq] at hr
        exact wf_peek_lb hd7 hwf0' hp0 r hr
      · obtain ⟨ct, hct, hrel, hpk, p, hpeq, hp0c⟩ := forall₂_mem_right hspec c hc2
        have hwfc : wfChild c := hwfCur c (by simp [hc2])
        have h1 : CompareRowNumbers d p.rn r.rn ≤ 0 := wf_peek_lb hd7 hwfc hpeq r hr
        have hpmem : p ∈ Child.remaining c := by
          show p ∈ c.1.toList ++ c.2
          rw [hpeq]
          simp
        have hplen : p.rn.length = 8 := hwfc.2 p hpmem
        have h0 : CompareRowNumbers d p0.rn p.rn = 0 := by
          rw [CompareRowNumbers_swap, hp0c]
          rfl
        exact CompareRowNumbers_trans_le (by rw [hp0len, hplen])
          (by rw [hplen, hwfc.2 r hr]) (by rw [h0]) h1
    have hcol := collectAll_spec d p0.rn (c0' :: tail2) hpeekCur
    have hstrictCol : ∀ cc ∈ (collectAll d p0.rn (c0' :: tail2)).2,
        ∀ r ∈ Child.remaining cc, CompareRowNumbers d p0.rn r.rn = -1 := by
      intro cc hcc r hr
      obtain ⟨c, hc, hrel, _⟩ := forall₂_mem_right hcol.2 cc hcc
      have hms := (min_class_split hd7 hp0len (Child.remaining c) (hwfCur c hc)
        (hlb c hc)).2
      rw [hrel] at hr
      exact hms r hr
    have hwfCol : ∀ cc ∈ (collectAll d p0.rn (c0' :: tail2)).2, wfChild cc := by
      intro cc hcc
      obtain ⟨c, hc, hrel, _⟩ := forall₂_mem_right hcol.2 cc hcc
      show wfRes (Child.remaining cc)
      rw [hrel]
      exact wfRes_dropWhile _ (hwfCur c hc)
    have hneCol : (collectAll d p0.rn (c0' :: tail2)).2 ≠ [] := by
      have hl := hcol.2.length_eq
      intro hnil
      rw [hnil] at hl
      simp at hl
    obtain ⟨ch, hchm, hch⟩ := forall₂_mem_right hfa c0' (List.mem_cons_self _ _)
    have hcompRes : CompleteGroup d cs p0.rn := by
      intro c hc
      obtain ⟨c', hc', he⟩ := forall₂_mem_left hfa c hc
      rcases List.mem_cons.mp hc' with heq | hc'
      · refine ⟨p0, ?_, ?_⟩
        · rw [← he, heq]
          exact hp0mem
        · rw [EqualRowNumber_iff]
      · obtain ⟨c'', hc'', hrel, _, p, hpeq, hpc⟩ := forall₂_mem_left hspec c' hc'
        have hpm : p ∈ Child.remaining c'' := by
          show p ∈ c''.1.toList ++ c''.2
          rw [hpeq]
          simp
        have hplen : p.rn.length = 8 := (hwfCur c'' (by simp [hc''])).2 p hpm
        refine ⟨p, ?_, ?_⟩
        · rw [hrel] at hpm
          have hpm2 : p ∈ Child.remaining c' := (List.dropWhile_suffix _).sublist.mem hpm
          rw [he] at hpm2
          exact hpm2
        · rw [EqualRowNumber_iff_compare (by rw [hplen, hp0len])]
          exact hpc
    have hE2f : ∀ g, CompleteGroup d cs g →
        EqualRowNumber d p0.rn g = true ∨
        CompleteGroup d (collectAll d p0.rn (c0' :: tail2)).2 g := by
      intro g hcg
      by_cases heqg : EqualRowNumber d p0.rn g = true
      · exact Or.inl heqg
      right
      intro cc hcc
      obtain ⟨c, hc, hrel2, _⟩ := forall₂_mem_right hcol.2 cc hcc
      obtain ⟨r0, hr0m, hr0e⟩ := hcg ch hchm
      have hr0m' : r0 ∈ Child.remaining c0' := by
        rw [hch]
        exact hr0m
      rcases List.mem_cons.mp hc with heqc | hc2
      · obtain ⟨r, hrm, hre⟩ := hcg ch hchm
        refine ⟨r, ?_, hre⟩
        rw [hrel2, heqc]
        apply mem_dropWhile_of_not
        · rw [hch]
          exact hrm
        · intro habs
          exact heqg (EqualRowNumber_trans (EqualRowNumber_symm habs) hre)
      · obtain ⟨ct, hct, hrel1, _, p, hpeq, hpc⟩ := forall₂_mem_right hspec c hc2
        obtain ⟨ccs, hccsm, hecs⟩ := forall₂_mem_right hfa ct (by simp [hct])
        obtain ⟨r, hrm, hre⟩ := hcg ccs hccsm
        have hrm1 : r ∈ Child.remaining ct := by
          rw [hecs]
          exact hrm
        have hnb : ¬ CompareRowNumbers d r.rn p0.rn = -1 := by
          intro hlt
          have h1 : CompareRowNumbers d p0.rn r0.rn ≤ 0 :=
            wf_peek_lb hd7 hwf0' hp0 r0 hr0m'
          have h2 : CompareRowNumbers d r.rn r0.rn = 0 :=
            CompareRowNumbers_zero_of_two_equal hre hr0e
          have h3 : CompareRowNumbers d r.rn r0.rn = -1 :=
            CompareRowNumbers_trans_lt_le
              (by rw [(hwf ccs hccsm).2 r hrm, hp0len])
              (by rw [hp0len, hwf0'.2 r0 hr0m']) hlt h1
          rw [h2] at h3
          exact absurd h3 (by decide)
        have hrm2 : r ∈ Child.remaining c := by
          rw [hrel1]
          exact mem_dropWhile_of_not hrm1 (by simpa using hnb)
        refine ⟨r, ?_, hre⟩
        rw [hrel2]
        apply mem_dropWhile_of_not hrm2
        intro habs
        exact heqg (EqualRowNumber_trans (EqualRowNumber_symm habs) hre)
    have hsubCol : ∀ cc ∈ (collectAll d p0.rn (c0' :: tail2)).2, ∃ c ∈ cs,
        ∀ r ∈ Child.remaining cc, r ∈ Child.remaining c := by
      intro cc hcc
      obtain ⟨c, hc, hrel2, _⟩ := forall₂_mem_right hcol.2 cc hcc
      rcases List.mem_cons.mp hc with heqc | hc2
      · refine ⟨ch, hchm, ?_⟩
        intro r hr
        rw [hrel2, heqc] at hr
        have hr2 : r ∈ Child.remaining c0' := (List.dropWhile_suffix _).sublist.mem hr
        rw [hch] at hr2
        exact hr2
      · obtain ⟨ct, hct, hrel1, _⟩ := forall₂_mem_right hspec c hc2
        obtain ⟨ccs, hccsm, hecs⟩ := forall₂_mem_right hfa ct (by simp [hct])
        refine ⟨ccs, hccsm, ?_⟩
        intro r hr
        rw [hrel2] at hr
        have h1 : r ∈ Child.remaining c := (List.dropWhile_suffix _).sublist.mem hr
        rw [hrel1] at h1
        have h2 : r ∈ Child.remaining ct := (List.dropWhile_suffix _).sublist.mem h1
        rw [hecs] at h2
        exact h2
    have hcompDown : ∀ g, CompleteGroup d (collectAll d p0.rn (c0' :: tail2)).2 g →
        CompleteGroup d cs g := by
      intro g hcg c hc
      obtain ⟨c', hc', he⟩ := forall₂_mem_left hfa c hc
      rcases List.mem_cons.mp hc' with heqc | hc'2
      · obtain ⟨cc, hccm, hrel2, _⟩ := forall₂_mem_left hcol.2 c0' (List.mem_cons_self _ _)
        obtain ⟨r, hrm, hre⟩ := hcg cc hccm
        refine ⟨r, ?_, hre⟩
        rw [hrel2] at hrm
        have h1 : r ∈ Child.remaining c0' := (List.dropWhile_suffix _).sublist.mem hrm
        rw [← heqc, he] at h1
        exact h1
      · obtain ⟨c'', hc''2, hrel1, _⟩ := forall₂_mem_left hspec c' hc'2
        obtain ⟨cc, hccm, hrel2, _⟩ := forall₂_mem_left hcol.2 c'' (by simp [hc''2])
        obtain ⟨r, hrm, hre⟩ := hcg cc hccm
        refine ⟨r, ?_, hre⟩
        rw [hrel2] at hrm
        have h1 : r ∈ Child.remaining c'' := (List.dropWhile_suffix _).sublist.mem hrm
        rw [hrel1] at h1
        have h2 : r ∈ Child.remaining c' := (List.dropWhile_suffix _).sublist.mem h1
        rw [he] at h2
        exact h2
    have hE2b : ∀ g, EqualRowNumber d p0.rn g = true ∨
        CompleteGroup d (collectAll d p0.rn (c0' :: tail2)).2 g →
        CompleteGroup d cs g := by
      intro g hg
      rcases hg with heqg | hcg
      · intro c hc
        obtain ⟨r, hrm, hre⟩ := hcompRes c hc
        exact ⟨r, hrm, EqualRowNumber_trans hre heqg⟩
      · exact hcompDown g hcg
    have hmemRes : ∃ c ∈ cs, ∃ r ∈ Child.remaining c, r.rn = p0.rn := by
      refine ⟨ch, hchm, p0, ?_, rfl⟩
      rw [← hch]
      exact hp0mem
    cases pred with
    | none =>
      constructor
      · intro res cs' f' h
        rw [hrun] at h
        simp only [Option.some.injEq, Prod.mk.injEq] at h
        obtain ⟨hres, hcs', hf'⟩ := h
        rw [← hres, ← hcs']
        refine ⟨hp0len, hmemRes, hcompRes, ?_, hE2b,
          fun _ => hE2f, hwfCol, hneCol, hsubCol, hstrictCol⟩
        intro pr hab
        simp at hab
      · intro cs' f' h
        rw [hrun] at h
        simp at h
    | some pr =>
      dsimp only at hrun
      by_cases hacc : pr (assemble p0.rn (collectAll d p0.rn (c0' :: tail2)).1) = true
      · rw [if_pos hacc] at hrun
        constructor
        · intro res cs' f' h
          rw [hrun] at h
          simp only [Option.some.injEq, Prod.mk.injEq] at h
          obtain ⟨hres, hcs', hf'⟩ := h
          rw [← hres, ← hcs']
          refine ⟨hp0len, hmemRes, hcompRes, ?_, hE2b, fun hno => by simp at hno,
            hwfCol, hneCol, hsubCol, hstrictCol⟩
          intro pr' hpr'
          injection hpr' with hpr'
          rw [← hpr']
          exact hacc
        · intro cs' f' h
          rw [hrun] at h
          simp at h
      · rw [if_neg hacc] at hrun
        have hIH := spec_ih (collectAll d p0.rn (c0' :: tail2)).2 hneCol hwfCol
        constructor
        · intro res cs' f' h
          rw [hrun] at h
          obtain ⟨hlen, hmem, hcomp, haccI, hback, _, hwf2, hne2, hsubIH, hstrict⟩ :=
            hIH.1 res cs' f' h
          refine ⟨hlen, ?_, hcompDown res.rn hcomp, haccI, ?_,
            fun hno => by simp at hno, hwf2, hne2, ?_, hstrict⟩
          · obtain ⟨c, hc, r, hr, hre⟩ := hmem
            obtain ⟨cc, hccm, hsub⟩ := hsubCol c hc
            exact ⟨cc, hccm, r, hsub r hr, hre⟩
          · intro g hg
            exact hcompDown g (hback g hg)
          · intro c' hc'
            obtain ⟨cmid, hcmid, hsubm⟩ := hsubIH c' hc'
            obtain ⟨cc, hccm, hsub2⟩ := hsubCol cmid hcmid
            exact ⟨cc, hccm, fun r hr => hsub2 r (hsubm r hr)⟩
        · intro cs' f' h hno
          exact absurd hno (by simp)

/-- Full specification of one `JoinIterator.Next` call on well-formed,
nonempty children, by induction over the loop fuel. -/
theorem joinNext_spec {d : Nat} (hd7 : d ≤ 7) (pred : Option (Res → Bool)) :
    ∀ (fuel : Nat) (cs : List Child), cs ≠ [] → (∀ c ∈ cs, wfChild c) →
    JoinNextSpec pred d fuel cs := by
  intro fuel
  induction fuel with
  | zero =>
    intro cs _ _
    constructor
    · intro res cs' f' h
      simp [joinNext] at h
    · intro cs' f' h
      simp [joinNext] at h
  | succ fuel ih =>
    intro cs hne hwf
    cases cs with
    | nil => exact absurd rfl hne
    | cons c0 tail =>
      revert ih
      have hunf : joinNext pred d (fuel + 1) (c0 :: tail) =
          (match (if c0.1.isNone then peekPhase (c0 :: tail) else (true, c0 :: tail)) with
           | (false, children') => some (none, children', fuel)
           | (true, children') =>
             match children' with
             | [] => some (none, [], fuel)
             | c0' :: tail' =>
               match c0'.1 with
               | none => some (none, c0' :: tail', fuel)
               | some p0 =>
                 match seekTail d (joinSeekChild d) c0' p0 tail' with
                 | .exhausted tail2 => some (none, c0' :: tail2, fuel)
                 | .swapped c02 tail2 => joinNext pred d fuel (c02 :: tail2)
                 | .ready tail2 =>
                   match pred with
                   | none => some (some (assemble p0.rn
                         (collectAll d p0.rn (c0' :: tail2)).1),
                       (collectAll d p0.rn (c0' :: tail2)).2, fuel)
                   | some pr =>
                     if pr (assemble p0.rn (collectAll d p0.rn (c0' :: tail2)).1) then
                       some (some (assemble p0.rn
                           (collectAll d p0.rn (c0' :: tail2)).1),
                         (collectAll d p0.rn (c0' :: tail2)).2, fuel)
                     else joinNext pred d fuel
                       (collectAll d p0.rn (c0' :: tail2)).2) := rfl
      intro ih
      by_cases hc0 : c0.1.isNone
      · rw [if_pos hc0] at hunf
        have hpp := peekPhase_spec (c0 :: tail)
        cases hph : peekPhase (c0 :: tail) with
        | mk b children' =>
          rw [hph] at hunf hpp
          cases b with
          | false =>
            dsimp only at hunf
            constructor
            · intro res cs' f' h
              rw [hunf] at h
              simp at h
            · intro cs' f' h _ g hcg
              obtain ⟨ce, hce, hceE⟩ := hpp.2.1 rfl
              obtain ⟨c, hcm, hrel⟩ := forall₂_mem_right hpp.1 ce hce
              obtain ⟨r, hr, _⟩ := hcg c hcm
              rw [← hrel, hceE] at hr
              simp at hr
          | true =>
            cases children' with
            | nil => cases hpp.1
            | cons c0' tail' =>
              have hsome := (hpp.2.2 rfl c0' (List.mem_cons_self _ _)).2
              cases hpk : c0'.1 with
              | none => rw [hpk] at hsome; cases hsome
              | some p0 =>
                dsimp only at hunf
                rw [hpk] at hunf
                dsimp only at hunf
                exact joinNext_after_peek hd7 pred fuel (c0 :: tail) hwf
                  c0' tail' p0 hpp.1 hpk hunf ih
      · rw [if_neg hc0] at hunf
        dsimp only at hunf
        cases hpk : c0.1 with
        | none => rw [hpk] at hc0; simp at hc0
        | some p0 =>
          rw [hpk] at hunf
          dsimp only at hunf
          refine joinNext_after_peek hd7 pred fuel (c0 :: tail) hwf
            c0 tail p0 ?_ hpk hunf ih
          exact List.forall₂_same.mpr (fun c _ => rfl)

/-- What one `UnionIterator.Next` call (without a group predicate) does:
either it emits the result for the minimal remaining level-`d` group — whose
entries concatenate exactly the matching results of each child in order —
consuming precisely that group from every child, or every child is already
exhausted and it reports exhaustion.  The boundedness hypothesis encodes
that real row numbers stay below the `MaxRowNumber()` sentinel. -/
theorem unionNext_none_spec {d : Nat} (hd7 : d ≤ 7) (fuel : Nat) (cs : List Child)
    (hwf : ∀ c ∈ cs, wfChild c)
    (hbound : ∀ c ∈ cs, ∀ r ∈ Child.remaining c,
      CompareRowNumbers d r.rn MaxRowNumber = -1) :
    (∃ res cs',
      unionNext none d (fuel + 1) cs = some (some res, cs', fuel) ∧
      res.rn.length = 8 ∧
      (∃ c ∈ cs, ∃ r ∈ Child.remaining c, r.rn = res.rn) ∧
      (∀ c ∈ cs, ∀ r ∈ Child.remaining c, CompareRowNumbers d res.rn r.rn ≤ 0) ∧
      res.Entries = (cs.map (fun c => (((Child.remaining c).filter
          (fun r => EqualRowNumber d r.rn res.rn)).map Res.Entries).flatten)).flatten ∧
      res.OtherEntries = (cs.map (fun c => (((Child.remaining c).filter
          (fun r => EqualRowNumber d r.rn res.rn)).map Res.OtherEntries).flatten)).flatten ∧
      List.Forall₂ (fun c c' =>
          Child.remaining c' = (Child.remaining c).dropWhile
            (fun r => EqualRowNumber d r.rn res.rn) ∧
          wfChild c' ∧
          (∀ r ∈ Child.remaining c', CompareRowNumbers d res.rn r.rn = -1)) cs cs') ∨
    (∃ cs', unionNext none d (fuel + 1) cs = some (none, cs', fuel) ∧
      ∀ c ∈ cs, Child.remaining c = []) := by
  have hMaxLen : (MaxRowNumber).length = 8 := by simp [MaxRowNumber]
  have hf2 := forall₂_childPeek cs
  have hpk : ∀ c' ∈ cs.map childPeek, peeked c' := by
    intro c' hc'
    obtain ⟨c, _, hc⟩ := List.mem_map.mp hc'
    rw [← hc]
    exact childPeek_peeked c
  have hrem1 : ∀ c' ∈ cs.map childPeek, ∃ c ∈ cs, Child.remaining c' = Child.remaining c := by
    intro c' hc'
    obtain ⟨c, hcm, hc⟩ := List.mem_map.mp hc'
    exact ⟨c, hcm, by rw [← hc, childPeek_remaining]⟩
  have hwf1 : ∀ c' ∈ cs.map childPeek, wfChild c' := by
    intro c' hc'
    obtain ⟨c, hcm, he⟩ := hrem1 c' hc'
    unfold wfChild
    rw [he]
    exact hwf c hcm
  have hbound1 : ∀ c' ∈ cs.map childPeek, ∀ r ∈ Child.remaining c',
      CompareRowNumbers d r.rn MaxRowNumber = -1 := by
    intro c' hc' r hr
    obtain ⟨c, hcm, he⟩ := hrem1 c' hc'
    exact hbound c hcm r (he ▸ hr)
  have hpeekmem : ∀ c' ∈ cs.map childPeek, ∀ r, c'.1 = some r → r ∈ Child.remaining c' := by
    intro c' hc' r h
    unfold Child.remaining
    rw [h]
    simp
  have hpeeklen : ∀ c' ∈ cs.map childPeek, ∀ r, c'.1 = some r → r.rn.length = 8 := by
    intro c' hc' r h
    exact (hwf1 c' hc').2 r (hpeekmem c' hc' r h)
  have hspec := @unionLowest_spec d (cs.map childPeek) MaxRowNumber hpeeklen hMaxLen
  obtain ⟨hloLen, _, hloPeeks, hloMem⟩ := hspec
  -- minimality of the lowest over all remaining results
  have hloAll : ∀ c' ∈ cs.map childPeek, ∀ r ∈ Child.remaining c',
      CompareRowNumbers d (unionLowest d (cs.map childPeek) MaxRowNumber) r.rn ≤ 0 := by
    intro c' hc' r hr
    have hph := peeked_head (hpk c' hc')
    cases hrm : Child.remaining c' with
    | nil => rw [hrm] at hr; simp at hr
    | cons hd tl =>
      have hphd : c'.1 = some hd := by rw [hph, hrm]; rfl
      have h1 := hloPeeks c' hc' hd hphd
      have hwfrm : wfRes (hd :: tl) := by
        have := hwf1 c' hc'
        unfold wfChild at this
        rw [hrm] at this
        exact this
      have h2 : CompareRowNumbers d hd.rn r.rn ≤ 0 :=
        wfRes_head_le hd7 hwfrm r (hrm ▸ hr)
      exact CompareRowNumbers_trans_le
        (by rw [hloLen, (hwf1 c' hc').2 hd (by rw [hrm]; simp)])
        (by rw [(hwf1 c' hc').2 hd (by rw [hrm]; simp), (hwf1 c' hc').2 r (hrm ▸ hr)])
        h1 h2
  have hunfold : unionNext none d (fuel + 1) cs =
      (if (cs.map childPeek).any (fun c =>
          match c.1 with
          | some r => CompareRowNumbers d r.rn
              (unionLowest d (cs.map childPeek) MaxRowNumber) == 0
          | none => false) then
        some (some (assemble (unionLowest d (cs.map childPeek) MaxRowNumber)
          (collectAll d (unionLowest d (cs.map childPeek) MaxRowNumber)
            (cs.map childPeek)).1),
          (collectAll d (unionLowest d (cs.map childPeek) MaxRowNumber)
            (cs.map childPeek)).2, fuel)
      else
        some (none,
          (collectAll d (unionLowest d (cs.map childPeek) MaxRowNumber)
            (cs.map childPeek)).2, fuel)) := rfl
  by_cases hAny : (cs.map childPeek).any (fun c =>
      match c.1 with
      | some r => CompareRowNumbers d r.rn
          (unionLowest d (cs.map childPeek) MaxRowNumber) == 0
      | none => false) = true
  · -- a group is emitted
    left
    rw [hunfold, if_pos hAny]
    -- the lowest row number is one of the peeks (not the Max sentinel)
    have hMem : ∃ c ∈ cs, ∃ r ∈ Child.remaining c,
        r.rn = unionLowest d (cs.map childPeek) MaxRowNumber := by
      rcases hloMem with hmax | ⟨c', hc', r, hpr, hrn⟩
      · obtain ⟨c', hc', htied⟩ := List.any_eq_true.mp hAny
        match hp : c'.1 with
        | none => rw [hp] at htied; simp at htied
        | some r =>
          rw [hp] at htied
          have h0 : CompareRowNumbers d r.rn
              (unionLowest d (cs.map childPeek) MaxRowNumber) = 0 := by
            simpa using htied
          rw [hmax] at h0
          have := hbound1 c' hc' r (hpeekmem c' hc' r hp)
          omega
      · obtain ⟨c, hcm, he⟩ := hrem1 c' hc'
        exact ⟨c, hcm, r, he ▸ hpeekmem c' hc' r hpr, hrn⟩
    have hcol := collectAll_spec d (unionLowest d (cs.map childPeek) MaxRowNumber)
      (cs.map childPeek) hpk
    -- per-child class split facts
    have hsplit : ∀ c' ∈ cs.map childPeek,
        (Child.remaining c').takeWhile (fun r => EqualRowNumber d r.rn
            (unionLowest d (cs.map childPeek) MaxRowNumber)) =
          (Child.remaining c').filter (fun r => EqualRowNumber d r.rn
            (unionLowest d (cs.map childPeek) MaxRowNumber)) ∧
        ∀ r ∈ (Child.remaining c').dropWhile (fun r => EqualRowNumber d r.rn
            (unionLowest d (cs.map childPeek) MaxRowNumber)),
          CompareRowNumbers d (unionLowest d (cs.map childPeek) MaxRowNumber) r.rn = -1 := by
      intro c' hc'
      exact min_class_split hd7 hloLen (Child.remaining c') (hwf1 c' hc')
        (hloAll c' hc')
    have hmincs : ∀ c ∈ cs, ∀ r ∈ Child.remaining c,
        CompareRowNumbers d (unionLowest d (cs.map childPeek) MaxRowNumber) r.rn ≤ 0 := by
      intro c hcm r hr
      obtain ⟨c', hc', hp⟩ := forall₂_mem_left hf2 c hcm
      exact hloAll c' hc' r (by rw [hp.1]; exact hr)
    have hsplitcs : ∀ c ∈ cs,
        (Child.remaining c).takeWhile (fun r => EqualRowNumber d r.rn
            (unionLowest d (cs.map childPeek) MaxRowNumber)) =
          (Child.remaining c).filter (fun r => EqualRowNumber d r.rn
            (unionLowest d (cs.map childPeek) MaxRowNumber)) ∧
        ∀ r ∈ (Child.remaining c).dropWhile (fun r => EqualRowNumber d r.rn
            (unionLowest d (cs.map childPeek) MaxRowNumber)),
          CompareRowNumbers d (unionLowest d (cs.map childPeek) MaxRowNumber) r.rn = -1 := by
      intro c hcm
      exact min_class_split hd7 hloLen (Child.remaining c) (hwf c hcm) (hmincs c hcm)
    have hcol1 : (collectAll d (unionLowest d (cs.map childPeek) MaxRowNumber)
        (cs.map childPeek)).1 =
        (cs.map (fun c => (Child.remaining c).filter (fun r => EqualRowNumber d r.rn
          (unionLowest d (cs.map childPeek) MaxRowNumber)))).flatten := by
      rw [hcol.1, List.map_map]
      congr 1
      apply List.map_congr_left
      intro c hcm
      show (Child.remaining (childPeek c)).takeWhile _ = _
      rw [childPeek_remaining]
      exact (hsplitcs c hcm).1
    refine ⟨_, _, rfl, hloLen, hMem, hmincs, ?_, ?_, ?_⟩
    · show ((collectAll d (unionLowest d (cs.map childPeek) MaxRowNumber)
          (cs.map childPeek)).1.map Res.Entries).flatten = _
      rw [hcol1, List.map_flatten, List.flatten_flatten, List.map_map, List.map_map]
      rfl
    · show ((collectAll d (unionLowest d (cs.map childPeek) MaxRowNumber)
          (cs.map childPeek)).1.map Res.OtherEntries).flatten = _
      rw [hcol1, List.map_flatten, List.flatten_flatten, List.map_map, List.map_map]
      rfl
    · have hf2w := forall₂_strengthen_left hf2 (fun c hcm =>
        And.intro (hwf c hcm) (hmincs c hcm))
      refine forall₂_compose ?_ hf2w hcol.2
      rintro c c' c2 ⟨⟨hre, _⟩, hwfc, hminc⟩ ⟨hdrop, _⟩
      have hre2 : Child.remaining c2 = (Child.remaining c).dropWhile
          (fun r => EqualRowNumber d r.rn
            (unionLowest d (cs.map childPeek) MaxRowNumber)) := by
        rw [hdrop, hre]
      refine ⟨hre2, ?_, ?_⟩
      · unfold wfChild
        rw [hre2]
        exact wfRes_dropWhile _ hwfc
      · intro r hr
        rw [hre2] at hr
        exact (min_class_split hd7 hloLen (Child.remaining c) hwfc hminc).2 r hr
  · right
    rw [hunfold, if_neg hAny]
    refine ⟨_, rfl, ?_⟩
    intro c hcm
    by_contra hne
    cases hrm : Child.remaining c with
    | nil => exact hne hrm
    | cons hd tl =>
      have hc' : childPeek c ∈ cs.map childPeek := List.mem_map_of_mem childPeek hcm
      have hph := peeked_head (childPeek_peeked c)
      have hphd : (childPeek c).1 = some hd := by
        rw [hph, childPeek_remaining, hrm]
        rfl
      have hle := hloPeeks (childPeek c) hc' hd hphd
      rcases hloMem with hmax | ⟨c', hc'', r, hpr, hrn⟩
      · have hb := hbound c hcm hd (by rw [hrm]; simp)
        rw [hmax] at hle
        have : CompareRowNumbers d MaxRowNumber hd.rn = 1 := by
          rw [CompareRowNumbers_swap, hb]
          rfl
        omega
      · apply hAny
        apply List.any_eq_true.mpr
        refine ⟨c', hc'', ?_⟩
        rw [hpr]
        show (CompareRowNumbers d r.rn
          (unionLowest d (cs.map childPeek) MaxRowNumber) == 0) = true
        rw [hrn, CompareRowNumbers_self]
        rfl

/-- The full-run union specification, by induction over the emissions:
every remaining level-`d` group is emitted exactly once, in increasing
order, with the entries of each emission concatenating exactly the matching
results of every child in child order. -/
theorem unionRun_none_spec {d : Nat} (hd7 : d ≤ 7) :
    ∀ (emf itf : Nat) (cs : List Child),
    (∀ c ∈ cs, wfChild c) →
    (∀ c ∈ cs, ∀ r ∈ Child.remaining c, CompareRowNumbers d r.rn MaxRowNumber = -1) →
    (unionRun none d emf itf cs).2.2.2 = true →
    (∀ g, (∃ res ∈ (unionRun none d emf itf cs).1, EqualRowNumber d res.rn g = true) ↔
          (∃ c ∈ cs, ∃ r ∈ Child.remaining c, EqualRowNumber d r.rn g = true)) ∧
    (∀ res ∈ (unionRun none d emf itf cs).1,
      res.rn.length = 8 ∧
      (∃ c ∈ cs, ∃ r ∈ Child.remaining c, r.rn = res.rn) ∧
      res.Entries = (cs.map (fun c => (((Child.remaining c).filter
          (fun r => EqualRowNumber d r.rn res.rn)).map Res.Entries).flatten)).flatten ∧
      res.OtherEntries = (cs.map (fun c => (((Child.remaining c).filter
          (fun r => EqualRowNumber d r.rn res.rn)).map Res.OtherEntries).flatten)).flatten) ∧
    List.Pairwise (fun a b => CompareRowNumbers d a.rn b.rn = -1)
      (unionRun none d emf itf cs).1 := by
  intro emf
  induction emf with
  | zero =>
    intro itf cs _ _ hfl
    simp [unionRun] at hfl
  | succ emf ih =>
    intro itf cs hwf hbound hfl
    match itf with
    | 0 =>
      simp [unionRun, unionNext] at hfl
    | f + 1 =>
      rcases unionNext_none_spec hd7 f cs hwf hbound with
        ⟨res, cs', heq, hlen, hmem, hmin, hent, hoth, hfa⟩ | ⟨cs', heq, hempty⟩
      · have hrun : unionRun none d (emf + 1) (f + 1) cs =
            (res :: (unionRun none d emf f cs').1,
             (unionRun none d emf f cs').2.1,
             (unionRun none d emf f cs').2.2.1,
             (unionRun none d emf f cs').2.2.2) := by
          show (match unionNext none d (f + 1) cs with
            | none => ([], cs, f + 1, false)
            | some (none, cs', itf') => ([], cs', itf', true)
            | some (some r, cs', itf') =>
              let rest := unionRun none d emf itf' cs'
              (r :: rest.1, rest.2.1, rest.2.2.1, rest.2.2.2)) = _
          rw [heq]
        rw [hrun] at hfl ⊢
        simp only at hfl
        -- facts about the new state
        have hwf' : ∀ c' ∈ cs', wfChild c' := by
          intro c' hc'
          obtain ⟨c, _, _, h2, _⟩ := forall₂_mem_right hfa c' hc'
          exact h2
        have hsub : ∀ c' ∈ cs', ∃ c ∈ cs, ∀ r ∈ Child.remaining c', r ∈ Child.remaining c := by
          intro c' hc'
          obtain ⟨c, hcm, h1, _, _⟩ := forall₂_mem_right hfa c' hc'
          refine ⟨c, hcm, ?_⟩
          intro r hr
          rw [h1] at hr
          exact (List.dropWhile_suffix _).sublist.mem hr
        have hbound' : ∀ c' ∈ cs', ∀ r ∈ Child.remaining c',
            CompareRowNumbers d r.rn MaxRowNumber = -1 := by
          intro c' hc' r hr
          obtain ⟨c, hcm, hin⟩ := hsub c' hc'
          exact hbound c hcm r (hin r hr)
        obtain ⟨ih1, ih2, ih3⟩ := ih f cs' hwf' hbound' hfl
        -- any result of the rest run is strictly past this emission at level d
        have hstrict : ∀ res' ∈ (unionRun none d emf f cs').1,
            CompareRowNumbers d res.rn res'.rn = -1 := by
          intro res' hres'
          obtain ⟨hlen', ⟨c', hc', r', hr', hrfl⟩, _, _⟩ := ih2 res' hres'
          obtain ⟨c, hcm, h1, _, h3⟩ := forall₂_mem_right hfa c' hc'
          rw [← hrfl]
          exact h3 r' hr'
        -- lifting the entries equation from cs' to cs
        have hfilter_lift : ∀ res' ∈ (unionRun none d emf f cs').1,
            ∀ (f2 : Res → List (String × String)),
            cs'.map (fun c => (((Child.remaining c).filter
              (fun r => EqualRowNumber d r.rn res'.rn)).map f2).flatten) =
            cs.map (fun c => (((Child.remaining c).filter
              (fun r => EqualRowNumber d r.rn res'.rn)).map f2).flatten) := by
          intro res' hres' f2
          symm
          apply forall₂_map_eq ?_ hfa
          intro c c' ⟨h1, _, _⟩
          have hsp : (Child.remaining c).takeWhile
                (fun r => EqualRowNumber d r.rn res.rn) ++ Child.remaining c' =
              Child.remaining c := by
            rw [h1]
            exact List.takeWhile_append_dropWhile _ _
          rw [← hsp, List.filter_append]
          have hnil : (List.takeWhile (fun r => EqualRowNumber d r.rn res.rn)
              (Child.remaining c)).filter
                (fun r => EqualRowNumber d r.rn res'.rn) = [] := by
            rw [List.filter_eq_nil_iff]
            intro a ha hq
            have hp : EqualRowNumber d a.rn res.rn = true := by
              have := List.mem_takeWhile_imp ha
              simpa using this
            have hcmp := hstrict res' hres'
            have : EqualRowNumber d res.rn res'.rn = true :=
              EqualRowNumber_trans (EqualRowNumber_symm hp) hq
            rw [EqualRowNumber_iff] at this
            unfold CompareRowNumbers at hcmp
            rw [this, lexCmp_self] at hcmp
            exact absurd hcmp (by decide)
          rw [hnil, List.nil_append]
        refine ⟨?_, ?_, ?_⟩
        · intro g
          constructor
          · rintro ⟨w, hw, hwg⟩
            rcases List.mem_cons.mp hw with rfl | hw'
            · obtain ⟨c, hcm, r, hr, hrr⟩ := hmem
              refine ⟨c, hcm, r, hr, ?_⟩
              rw [EqualRowNumber_iff, hrr]
              rw [EqualRowNumber_iff] at hwg
              exact hwg
            · obtain ⟨c', hc', r, hr, hrg⟩ := (ih1 g).mp ⟨w, hw', hwg⟩
              obtain ⟨c, hcm, hin⟩ := hsub c' hc'
              exact ⟨c, hcm, r, hin r hr, hrg⟩
          · rintro ⟨c, hcm, r, hr, hrg⟩
            by_cases hcl : EqualRowNumber d r.rn res.rn = true
            · refine ⟨res, by simp, ?_⟩
              exact EqualRowNumber_trans (EqualRowNumber_symm hcl) hrg
            · obtain ⟨c', hc', h1, _, _⟩ := forall₂_mem_left hfa c hcm
              have hr' : r ∈ Child.remaining c' := by
                rw [h1]
                exact mem_dropWhile_of_not hr hcl
              obtain ⟨w, hw, hwg⟩ := (ih1 g).mpr ⟨c', hc', r, hr', hrg⟩
              exact ⟨w, by simp [hw], hwg⟩
        · intro w hw
          rcases List.mem_cons.mp hw with rfl | hw'
          · exact ⟨hlen, hmem, hent, hoth⟩
          · obtain ⟨h1, ⟨c', hc', r, hr, hrr⟩, h3, h4⟩ := ih2 w hw'
            obtain ⟨c, hcm, hin⟩ := hsub c' hc'
            refine ⟨h1, ⟨c, hcm, r, hin r hr, hrr⟩, ?_, ?_⟩
            · rw [h3, hfilter_lift w hw' Res.Entries]
            · rw [h4, hfilter_lift w hw' Res.OtherEntries]
        · rw [List.pairwise_cons]
          refine ⟨hstrict, ih3⟩
      · have hrun : unionRun none d (emf + 1) (f + 1) cs = ([], cs', f, true) := by
          show (match unionNext none d (f + 1) cs with
            | none => ([], cs, f + 1, false)
            | some (none, cs', itf') => ([], cs', itf', true)
            | some (some r, cs', itf') =>
              let rest := unionRun none d emf itf' cs'
              (r :: rest.1, rest.2.1, rest.2.2.1, rest.2.2.2)) = _
          rw [heq]
        rw [hrun]
        refine ⟨?_, by simp, by simp⟩
        intro g
        constructor
        · rintro ⟨w, hw, _⟩
          simp at hw
        · rintro ⟨c, hcm, r, hr, _⟩
          rw [hempty c hcm] at hr
          simp at hr

/-- One step of the join/left-join bisimulation after the peek pass: with
the same fuel and the same required children, the two iterators take the
same branch, and an emission differs only in its attached entries. -/
theorem leftNext_bisim_after_peek {d : Nat} (hd7 : d ≤ 7) (fuel : Nat)
    (opt : List Child)
    (ih : ∀ req2 opt2, (∀ c ∈ req2, wfChild c) →
      BisimRel (joinNext none d fuel req2) (leftNext none d fuel req2 opt2))
    (c0' : Child) (tail' : List Child) (p0 : Res)
    (hwfC : ∀ c ∈ c0' :: tail', wfChild c)
    (hp0 : c0'.1 = some p0)
    (jv : Option (Option Res × List Child × Nat))
    (lv : Option (Option Res × (List Child × List Child) × Nat))
    (hunfJ : jv = match seekTail d (joinSeekChild d) c0' p0 tail' with
      | .exhausted tail2 => some (none, c0' :: tail2, fuel)
      | .swapped c02 tail2 => joinNext none d fuel (c02 :: tail2)
      | .ready tail2 => some (some (assemble p0.rn
            (collectAll d p0.rn (c0' :: tail2)).1),
          (collectAll d p0.rn (c0' :: tail2)).2, fuel))
    (hunfL : lv = match seekTail d (ljSeekChild d) c0' p0 tail' with
      | .exhausted tail2 => some (none, (c0' :: tail2, opt), fuel)
      | .swapped c02 tail2 => leftNext none d fuel (c02 :: tail2) opt
      | .ready tail2 => some (some (assemble p0.rn
            ((collectAll d p0.rn (c0' :: tail2)).1 ++
             (collectAll d p0.rn (opt.map (ljSeekChild d p0.rn))).1)),
          ((collectAll d p0.rn (c0' :: tail2)).2,
           (collectAll d p0.rn (opt.map (ljSeekChild d p0.rn))).2), fuel)) :
    BisimRel jv lv := by
  have hwf0' : wfChild c0' := hwfC c0' (List.mem_cons_self _ _)
  have hwfT' : ∀ c ∈ tail', wfChild c := fun c hc => hwfC c (by simp [hc])
  have hp0mem : p0 ∈ Child.remaining c0' := by
    show p0 ∈ c0'.1.toList ++ c0'.2
    rw [hp0]
    simp
  have hp0len : p0.rn.length = 8 := hwf0'.2 p0 hp0mem
  have hcongr := @seekTail_congr d (joinSeekChild d) (ljSeekChild d) p0
    (fun c => joinSeekChild_eq_lj hd7 hp0len c) c0' tail'
  rw [hcongr] at hunfJ
  have hsp := @seekTail_lj_spec d c0' p0 tail'
  cases hst : seekTail d (ljSeekChild d) c0' p0 tail' with
  | exhausted tail2 =>
    rw [hst] at hunfJ hunfL
    rw [hunfJ, hunfL]
    exact ⟨rfl, rfl⟩
  | swapped c02 tail2 =>
    rw [hst] at hunfJ hunfL hsp
    obtain ⟨tailP, hfaP, hperm⟩ := hsp
    rw [hunfJ, hunfL]
    exact ih (c02 :: tail2) opt (wf_swap_result hwf0' hwfT' hfaP hperm)
  | ready tail2 =>
    rw [hst] at hunfJ hunfL
    rw [hunfJ, hunfL]
    exact ⟨rfl, rfl, rfl⟩

/-- `LeftJoinIterator.Next` and `JoinIterator.Next` (no group predicate) on
the same required children run in lockstep: same fuel consumption, same
required-side state, and emissions with the same row number — the optional
children only contribute entries. -/
theorem leftNext_join_bisim {d : Nat} (hd7 : d ≤ 7) :
    ∀ (fuel : Nat) (req opt : List Child), (∀ c ∈ req, wfChild c) →
    BisimRel (joinNext none d fuel req) (leftNext none d fuel req opt) := by
  intro fuel
  induction fuel with
  | zero =>
    intro req opt _
    exact trivial
  | succ fuel ih =>
    intro req opt hwf
    cases req with
    | nil => exact ⟨rfl, rfl⟩
    | cons c0 tail =>
      have hunfJ : joinNext none d (fuel + 1) (c0 :: tail) =
          (match (if c0.1.isNone then peekPhase (c0 :: tail) else (true, c0 :: tail)) with
           | (false, children') => some (none, children', fuel)
           | (true, children') =>
             match children' with
             | [] => some (none, [], fuel)
             | c0' :: tail' =>
               match c0'.1 with
               | none => some (none, c0' :: tail', fuel)
               | some p0 =>
                 match seekTail d (joinSeekChild d) c0' p0 tail' with
                 | .exhausted tail2 => some (none, c0' :: tail2, fuel)
                 | .swapped c02 tail2 => joinNext none d fuel (c02 :: tail2)
                 | .ready tail2 => some (some (assemble p0.rn
                       (collectAll d p0.rn (c0' :: tail2)).1),
                     (collectAll d p0.rn (c0' :: tail2)).2, fuel)) := rfl
      have hunfL : leftNext none d (fuel + 1) (c0 :: tail) opt =
          (match (if c0.1.isNone then peekPhase (c0 :: tail) else (true, c0 :: tail)) with
           | (false, children') => some (none, (children', opt), fuel)
           | (true, children') =>
             match children' with
             | [] => some (none, ([], opt), fuel)
             | c0' :: tail' =>
               match c0'.1 with
               | none => some (none, (c0' :: tail', opt), fuel)
               | some p0 =>
                 match seekTail d (ljSeekChild d) c0' p0 tail' with
                 | .exhausted tail2 => some (none, (c0' :: tail2, opt), fuel)
                 | .swapped c02 tail2 => leftNext none d fuel (c02 :: tail2) opt
                 | .ready tail2 => some (some (assemble p0.rn
                       ((collectAll d p0.rn (c0' :: tail2)).1 ++
                        (collectAll d p0.rn (opt.map (ljSeekChild d p0.rn))).1)),
                     ((collectAll d p0.rn (c0' :: tail2)).2,
                      (collectAll d p0.rn (opt.map (ljSeekChild d p0.rn))).2),
                     fuel)) := rfl
      by_cases hc0 : c0.1.isNone
      · rw [if_pos hc0] at hunfJ hunfL
        have hpp := peekPhase_spec (c0 :: tail)
        cases hph : peekPhase (c0 :: tail) with
        | mk b children' =>
          rw [hph] at hunfJ hunfL hpp
          cases b with
          | false =>
            dsimp only at hunfJ hunfL
            rw [hunfJ, hunfL]
            exact ⟨rfl, rfl⟩
          | true =>
            have hwfC : ∀ c ∈ children', wfChild c := by
              intro c hc
              obtain ⟨cc, hccm, he⟩ := forall₂_mem_right hpp.1 c hc
              show wfRes (Child.remaining c)
              rw [he]
              exact hwf cc hccm
            cases children' with
            | nil =>
              dsimp only at hunfJ hunfL
              rw [hunfJ, hunfL]
              exact ⟨rfl, rfl⟩
            | cons c0' tail' =>
              dsimp only at hunfJ hunfL
              cases hpk : c0'.1 with
              | none =>
                rw [hpk] at hunfJ hunfL
                dsimp only at hunfJ hunfL
                rw [hunfJ, hunfL]
                exact ⟨rfl, rfl⟩
              | some p0 =>
                rw [hpk] at hunfJ hunfL
                dsimp only at hunfJ hunfL
                exact leftNext_bisim_after_peek hd7 fuel opt ih c0' tail' p0
                  hwfC hpk _ _ hunfJ hunfL
      · rw [if_neg hc0] at hunfJ hunfL
        dsimp only at hunfJ hunfL
        cases hpk : c0.1 with
        | none =>
          rw [hpk] at hc0
          simp at hc0
        | some p0 =>
          rw [hpk] at hunfJ hunfL
          dsimp only at hunfJ hunfL
          exact leftNext_bisim_after_peek hd7 fuel opt ih c0 tail p0
            hwf hpk _ _ hunfJ hunfL

/-- Monotonicity facts for one `LeftJoinIterator.Next` call after the peek
pass, with an arbitrary group predicate: an emission carries the row number
of a pending required result and the remaining required results all lie
strictly past it at the join level. -/
theorem leftNext_after_peek_mono {d : Nat} (hd7 : d ≤ 7) (pred : Option (Res → Bool))
    (fuel : Nat) (req opt : List Child) (hwf : ∀ c ∈ req, wfChild c)
    (c0' : Child) (tail' : List Child) (p0 : Res)
    (hfa : List.Forall₂ (fun c c' => Child.remaining c' = Child.remaining c)
      req (c0' :: tail'))
    (hp0 : c0'.1 = some p0)
    (hrun : leftNext pred d (fuel + 1) req opt =
      match seekTail d (ljSeekChild d) c0' p0 tail' with
      | .exhausted tail2 => some (none, (c0' :: tail2, opt), fuel)
      | .swapped c02 tail2 => leftNext pred d fuel (c02 :: tail2) opt
      | .ready tail2 =>
        match pred with
        | none => some (some (assemble p0.rn ((collectAll d p0.rn (c0' :: tail2)).1 ++
              (collectAll d p0.rn (opt.map (ljSeekChild d p0.rn))).1)),
            ((collectAll d p0.rn (c0' :: tail2)).2,
             (collectAll d p0.rn (opt.map (ljSeekChild d p0.rn))).2), fuel)
        | some pr =>
          if pr (assemble p0.rn ((collectAll d p0.rn (c0' :: tail2)).1 ++
              (collectAll d p0.rn (opt.map (ljSeekChild d p0.rn))).1)) then
            some (some (assemble p0.rn ((collectAll d p0.rn (c0' :: tail2)).1 ++
                (collectAll d p0.rn (opt.map (ljSeekChild d p0.rn))).1)),
              ((collectAll d p0.rn (c0' :: tail2)).2,
               (collectAll d p0.rn (opt.map (ljSeekChild d p0.rn))).2), fuel)
          else leftNext pred d fuel (collectAll d p0.rn (c0' :: tail2)).2
            (collectAll d p0.rn (opt.map (ljSeekChild d p0.rn))).2)
    (spec_ih : ∀ req2 opt2, (∀ c ∈ req2, wfChild c) →
      ∀ res st' f', leftNext pred d fuel req2 opt2 = some (some res, st', f') →
        res.rn.length = 8 ∧ (∃ c ∈ req2, ∃ r ∈ Child.remaining c, r.rn = res.rn) ∧
        (∀ c' ∈ st'.1, wfChild c') ∧
        (∀ c' ∈ st'.1, ∃ c ∈ req2, ∀ r ∈ Child.remaining c', r ∈ Child.remaining c) ∧
        (∀ c' ∈ st'.1, ∀ r ∈ Child.remaining c',
          CompareRowNumbers d res.rn r.rn = -1)) :
    ∀ res st' f', leftNext pred d (fuel + 1) req opt = some (some res, st', f') →
      res.rn.length = 8 ∧ (∃ c ∈ req, ∃ r ∈ Child.remaining c, r.rn = res.rn) ∧
      (∀ c' ∈ st'.1, wfChild c') ∧
      (∀ c' ∈ st'.1, ∃ c ∈ req, ∀ r ∈ Child.remaining c', r ∈ Child.remaining c) ∧
      (∀ c' ∈ st'.1, ∀ r ∈ Child.remaining c',
        CompareRowNumbers d res.rn r.rn = -1) := by
  have hwf' : ∀ c' ∈ c0' :: tail', wfChild c' := by
    intro c' hc'
    obtain ⟨c, hcm, he⟩ := forall₂_mem_right hfa c' hc'
    show wfRes (Child.remaining c')
    rw [he]
    exact hwf c hcm
  have hwf0' : wfChild c0' := hwf' c0' (List.mem_cons_self _ _)
  have hwfT' : ∀ c ∈ tail', wfChild c := fun c hc => hwf' c (by simp [hc])
  have hp0mem : p0 ∈ Child.remaining c0' := by
    show p0 ∈ c0'.1.toList ++ c0'.2
    rw [hp0]
    simp
  have hp0len : p0.rn.length = 8 := hwf0'.2 p0 hp0mem
  have hsp := @seekTail_lj_spec d c0' p0 tail'
  cases hst : seekTail d (ljSeekChild d) c0' p0 tail' with
  | exhausted tail2 =>
    rw [hst] at hrun
    intro res st' f' h
    rw [hrun] at h
    simp at h
  | swapped c02 tail2 =>
    rw [hst] at hrun hsp
    obtain ⟨tailP, hfaP, hperm⟩ := hsp
    have hwfNew := wf_swap_result hwf0' hwfT' hfaP hperm
    have hsubNew : ∀ c ∈ c02 :: tail2, ∃ cc ∈ req,
        ∀ r ∈ Child.remaining c, r ∈ Child.remaining cc := by
      intro c hc
      have hm : c ∈ c0' :: tailP := hperm.mem_iff.mp hc
      rcases List.mem_cons.mp hm with heq | hcc
      · obtain ⟨cc, hccm, he⟩ := forall₂_mem_right hfa c0' (List.mem_cons_self _ _)
        refine ⟨cc, hccm, ?_⟩
        intro r hr
        rw [heq] at hr
        rw [← he]
        exact hr
      · obtain ⟨ct, hct, hrel⟩ := forall₂_mem_right hfaP c hcc
        obtain ⟨cc, hccm, he⟩ := forall₂_mem_right hfa ct (by simp [hct])
        refine ⟨cc, hccm, ?_⟩
        intro r hr
        rw [← he]
        rcases hrel with hdrop | heq
        · rw [hdrop] at hr
          exact (List.dropWhile_suffix _).sublist.mem hr
        · rw [heq] at hr
          exact hr
    intro res st' f' h
    rw [hrun] at h
    obtain ⟨hlen, hmem, hwf2, hsub2, hstrict2⟩ := spec_ih (c02 :: tail2) opt hwfNew res st' f' h
    refine ⟨hlen, ?_, hwf2, ?_, hstrict2⟩
    · obtain ⟨c, hc, r, hr, hre⟩ := hmem
      obtain ⟨cc, hccm, hs⟩ := hsubNew c hc
      exact ⟨cc, hccm, r, hs r hr, hre⟩
    · intro c' hc'
      obtain ⟨cmid, hcmid, hsubm⟩ := hsub2 c' hc'
      obtain ⟨cc, hccm, hs⟩ := hsubNew cmid hcmid
      exact ⟨cc, hccm, fun r hr => hs r (hsubm r hr)⟩
  | ready tail2 =>
    rw [hst] at hrun hsp
    have hwfCur : ∀ c ∈ c0' :: tail2, wfChild c := by
      intro c hc
      rcases List.mem_cons.mp hc with heq | hc
      · rw [heq]
        exact hwf0'
      · obtain ⟨ct, hct, hrel, _, _⟩ := forall₂_mem_right hsp c hc
        show wfRes (Child.remaining c)
        rw [hrel]
        exact wfRes_dropWhile _ (hwfT' ct hct)
    have hpeekCur : ∀ c ∈ c0' :: tail2, peeked c := by
      intro c hc
      rcases List.mem_cons.mp hc with heq | hc
      · intro hcn
        rw [heq, hp0] at hcn
        cases hcn
      · obtain ⟨ct, hct, _, hpk, _⟩ := forall₂_mem_right hsp c hc
        exact hpk
    have hlb : ∀ c ∈ c0' :: tail2, ∀ r ∈ Child.remaining c,
        CompareRowNumbers d p0.rn r.rn ≤ 0 := by
      intro c hc r hr
      rcases List.mem_cons.mp hc with heq | hc2
      · rw [heq] at hr
        exact wf_peek_lb hd7 hwf0' hp0 r hr
      · obtain ⟨ct, hct, hrel, hpk, p, hpeq, hp0c⟩ := forall₂_mem_right hsp c hc2
        have hwfc : wfChild c := hwfCur c (by simp [hc2])
        have h1 : CompareRowNumbers d p.rn r.rn ≤ 0 := wf_peek_lb hd7 hwfc hpeq r hr
        have hpmem : p ∈ Child.remaining c := by
          show p ∈ c.1.toList ++ c.2
          rw [hpeq]
          simp
        have hplen : p.rn.length = 8 := hwfc.2 p hpmem
        have h0 : CompareRowNumbers d p0.rn p.rn = 0 := by
          rw [CompareRowNumbers_swap, hp0c]
          rfl
        exact CompareRowNumbers_trans_le (by rw [hp0len, hplen])
          (by rw [hplen, hwfc.2 r hr]) (by rw [h0]) h1
    have hcol := collectAll_spec d p0.rn (c0' :: tail2) hpeekCur
    have hstrictCol : ∀ cc ∈ (collectAll d p0.rn (c0' :: tail2)).2,
        ∀ r ∈ Child.remaining cc, CompareRowNumbers d p0.rn r.rn = -1 := by
      intro cc hcc r hr
      obtain ⟨c, hc, hrel, _⟩ := forall₂_mem_right hcol.2 cc hcc
      have hms := (min_class_split hd7 hp0len (Child.remaining c) (hwfCur c hc)
        (hlb c hc)).2
      rw [hrel] at hr
      exact hms r hr
    have hwfCol : ∀ cc ∈ (collectAll d p0.rn (c0' :: tail2)).2, wfChild cc := by
      intro cc hcc
      obtain ⟨c, hc, hrel, _⟩ := forall₂_mem_right hcol.2 cc hcc
      show wfRes (Child.remaining cc)
      rw [hrel]
      exact wfRes_dropWhile _ (hwfCur c hc)
    obtain ⟨ch, hchm, hch⟩ := forall₂_mem_right hfa c0' (List.mem_cons_self _ _)
    have hsubCol : ∀ cc ∈ (collectAll d p0.rn (c0' :: tail2)).2, ∃ c ∈ req,
        ∀ r ∈ Child.remaining cc, r ∈ Child.remaining c := by
      intro cc hcc
      obtain ⟨c, hc, hrel2, _⟩ := forall₂_mem_right hcol.2 cc hcc
      rcases List.mem_cons.mp hc with heqc | hc2
      · refine ⟨ch, hchm, ?_⟩
        intro r hr
        rw [hrel2, heqc] at hr
        have hr2 : r ∈ Child.remaining c0' := (List.dropWhile_suffix _).sublist.mem hr
        rw [hch] at hr2
        exact hr2
      · obtain ⟨ct, hct, hrel1, _⟩ := forall₂_mem_right hsp c hc2
        obtain ⟨ccs, hccsm, hecs⟩ := forall₂_mem_right hfa ct (by simp [hct])
        refine ⟨ccs, hccsm, ?_⟩
        intro r hr
        rw [hrel2] at hr
        have h1 : r ∈ Child.remaining c := (List.dropWhile_suffix _).sublist.mem hr
        rw [hrel1] at h1
        have h2 : r ∈ Child.remaining ct := (List.dropWhile_suffix _).sublist.mem h1
        rw [hecs] at h2
        exact h2
    have hmemRes : ∃ c ∈ req, ∃ r ∈ Child.remaining c, r.rn = p0.rn := by
      refine ⟨ch, hchm, p0, ?_, rfl⟩
      rw [← hch]
      exact hp0mem
    intro res st' f' h
    rw [hrun] at h
    cases pred with
    | none =>
      simp only [Option.some.injEq, Prod.mk.injEq] at h
      obtain ⟨hres, hst', hf'⟩ := h
      rw [← hres, ← hst']
      exact ⟨hp0len, hmemRes, hwfCol, hsubCol, hstrictCol⟩
    | some pr =>
      dsimp only at h
      by_cases hacc : pr (assemble p0.rn ((collectAll d p0.rn (c0' :: tail2)).1 ++
          (collectAll d p0.rn (opt.map (ljSeekChild d p0.rn))).1)) = true
      · rw [if_pos hacc] at h
        simp only [Option.some.injEq, Prod.mk.injEq] at h
        obtain ⟨hres, hst', hf'⟩ := h
        rw [← hres, ← hst']
        exact ⟨hp0len, hmemRes, hwfCol, hsubCol, hstrictCol⟩
      · rw [if_neg hacc] at h
        obtain ⟨hlen, hmem, hwf2, hsub2, hstrict2⟩ :=
          spec_ih (collectAll d p0.rn (c0' :: tail2)).2
            (collectAll d p0.rn (opt.map (ljSeekChild d p0.rn))).2 hwfCol res st' f' h
        refine ⟨hlen, ?_, hwf2, ?_, hstrict2⟩
        · obtain ⟨c, hc, r, hr, hre⟩ := hmem
          obtain ⟨cc, hccm, hs⟩ := hsubCol c hc
          exact ⟨cc, hccm, r, hs r hr, hre⟩
        · intro c' hc'
          obtain ⟨cmid, hcmid, hsubm⟩ := hsub2 c' hc'
          obtain ⟨cc, hccm, hs⟩ := hsubCol cmid hcmid
          exact ⟨cc, hccm, fun r hr => hs r (hsubm r hr)⟩

/-- Monotonicity facts for one `LeftJoinIterator.Next` call on well-formed
required children, any predicate, by fuel induction. -/
theorem leftNext_mono_spec {d : Nat} (hd7 : d ≤ 7) (pred : Option (Res → Bool)) :
    ∀ (fuel : Nat) (req opt : List Child), (∀ c ∈ req, wfChild c) →
    ∀ res st' f', leftNext pred d fuel req opt = some (some res, st', f') →
      res.rn.length = 8 ∧ (∃ c ∈ req, ∃ r ∈ Child.remaining c, r.rn = res.rn) ∧
      (∀ c' ∈ st'.1, wfChild c') ∧
      (∀ c' ∈ st'.1, ∃ c ∈ req, ∀ r ∈ Child.remaining c', r ∈ Child.remaining c) ∧
      (∀ c' ∈ st'.1, ∀ r ∈ Child.remaining c',
        CompareRowNumbers d res.rn r.rn = -1) := by
  intro fuel
  induction fuel with
  | zero =>
    intro req opt _ res st' f' h
    simp [leftNext] at h
  | succ fuel ih =>
    intro req opt hwf
    cases req with
    | nil =>
      intro res st' f' h
      simp [leftNext] at h
    | cons c0 tail =>
      revert ih
      have hunf : leftNext pred d (fuel + 1) (c0 :: tail) opt =
          (match (if c0.1.isNone then peekPhase (c0 :: tail) else (true, c0 :: tail)) with
           | (false, required') => some (none, (required', opt), fuel)
           | (true, required') =>
             match required' with
             | [] => some (none, ([], opt), fuel)
             | c0' :: tail' =>
               match c0'.1 with
               | none => some (none, (c0' :: tail', opt), fuel)
               | some p0 =>
                 match seekTail d (ljSeekChild d) c0' p0 tail' with
                 | .exhausted tail2 => some (none, (c0' :: tail2, opt), fuel)
                 | .swapped c02 tail2 => leftNext pred d fuel (c02 :: tail2) opt
                 | .ready tail2 =>
                   match pred with
                   | none => some (some (assemble p0.rn
                         ((collectAll d p0.rn (c0' :: tail2)).1 ++
                          (collectAll d p0.rn (opt.map (ljSeekChild d p0.rn))).1)),
                       ((collectAll d p0.rn (c0' :: tail2)).2,
                        (collectAll d p0.rn (opt.map (ljSeekChild d p0.rn))).2), fuel)
                   | some pr =>
                     if pr (assemble p0.rn
                         ((collectAll d p0.rn (c0' :: tail2)).1 ++
                          (collectAll d p0.rn (opt.map (ljSeekChild d p0.rn))).1)) then
                       some (some (assemble p0.rn
                           ((collectAll d p0.rn (c0' :: tail2)).1 ++
                            (collectAll d p0.rn (opt.map (ljSeekChild d p0.rn))).1)),
                         ((collectAll d p0.rn (c0' :: tail2)).2,
                          (collectAll d p0.rn (opt.map (ljSeekChild d p0.rn))).2), fuel)
                     else leftNext pred d fuel (collectAll d p0.rn (c0' :: tail2)).2
                       (collectAll d p0.rn (opt.map (ljSeekChild d p0.rn))).2) := rfl
      intro ih
      by_cases hc0 : c0.1.isNone
      · rw [if_pos hc0] at hunf
        have hpp := peekPhase_spec (c0 :: tail)
        cases hph : peekPhase (c0 :: tail) with
        | mk b children' =>
          rw [hph] at hunf hpp
          cases b with
          | false =>
            dsimp only at hunf
            intro res st' f' h
            rw [hunf] at h
            simp at h
          | true =>
            cases children' with
            | nil =>
              dsimp only at hunf
              intro res st' f' h
              rw [hunf] at h
              simp at h
            | cons c0' tail' =>
              dsimp only at hunf
              cases hpk : c0'.1 with
              | none =>
                rw [hpk] at hunf
                dsimp only at hunf
                intro res st' f' h
                rw [hunf] at h
                simp at h
              | some p0 =>
                rw [hpk] at hunf
                dsimp only at hunf
                exact leftNext_after_peek_mono hd7 pred fuel (c0 :: tail) opt hwf
                  c0' tail' p0 hpp.1 hpk hunf ih
      · rw [if_neg hc0] at hunf
        dsimp only at hunf
        cases hpk : c0.1 with
        | none =>
          rw [hpk] at hc0
          simp at hc0
        | some p0 =>
          rw [hpk] at hunf
          dsimp only at hunf
          refine leftNext_after_peek_mono hd7 pred fuel (c0 :: tail) opt hwf
            c0 tail p0 ?_ hpk hunf ih
          exact List.forall₂_same.mpr (fun c _ => rfl)

/-- Any run of `LeftJoinIterator.Next`, with any group predicate, emits
results with length-8 row numbers drawn from the required children, in
strictly increasing order at the join level. -/
theorem leftRun_mono {d : Nat} (hd7 : d ≤ 7) (pred : Option (Res → Bool)) :
    ∀ (emf itf : Nat) (req opt : List Child), (∀ c ∈ req, wfChild c) →
    (∀ res ∈ (leftRun pred d emf itf req opt).1, res.rn.length = 8 ∧
      ∃ c ∈ req, ∃ r ∈ Child.remaining c, r.rn = res.rn) ∧
    List.Pairwise (fun a b => CompareRowNumbers d a.rn b.rn = -1)
      (leftRun pred d emf itf req opt).1 := by
  intro emf
  induction emf with
  | zero =>
    intro itf req opt _
    exact ⟨fun res hres => by simp [leftRun] at hres, by simp [leftRun]⟩
  | succ emf ih =>
    intro itf req opt hwf
    cases hstep : leftNext pred d itf req opt with
    | none =>
      rw [show leftRun pred d (emf + 1) itf req opt = ([], (req, opt), itf, false) from by
        show (match leftNext pred d itf req opt with
          | none => ([], (req, opt), itf, false)
          | some (none, st', itf') => ([], st', itf', true)
          | some (some r, st', itf') =>
            let rest := leftRun pred d emf itf' st'.1 st'.2
            (r :: rest.1, rest.2.1, rest.2.2.1, rest.2.2.2)) = _
        rw [hstep]]
      exact ⟨fun res hres => by simp at hres, by simp⟩
    | some out =>
      obtain ⟨em, st, f1⟩ := out
      cases em with
      | none =>
        rw [show leftRun pred d (emf + 1) itf req opt = ([], st, f1, true) from by
          show (match leftNext pred d itf req opt with
            | none => ([], (req, opt), itf, false)
            | some (none, st', itf') => ([], st', itf', true)
            | some (some r, st', itf') =>
              let rest := leftRun pred d emf itf' st'.1 st'.2
              (r :: rest.1, rest.2.1, rest.2.2.1, rest.2.2.2)) = _
          rw [hstep]]
        exact ⟨fun res hres => by simp at hres, by simp⟩
      | some r0 =>
        rw [show leftRun pred d (emf + 1) itf req opt =
            (r0 :: (leftRun pred d emf f1 st.1 st.2).1,
             (leftRun pred d emf f1 st.1 st.2).2.1,
             (leftRun pred d emf f1 st.1 st.2).2.2.1,
             (leftRun pred d emf f1 st.1 st.2).2.2.2) from by
          show (match leftNext pred d itf req opt with
            | none => ([], (req, opt), itf, false)
            | some (none, st', itf') => ([], st', itf', true)
            | some (some r, st', itf') =>
              let rest := leftRun pred d emf itf' st'.1 st'.2
              (r :: rest.1, rest.2.1, rest.2.2.1, rest.2.2.2)) = _
          rw [hstep]]
        obtain ⟨hlen, hmem, hwf1, hsub1, hstrict1⟩ :=
          leftNext_mono_spec hd7 pred itf req opt hwf r0 st f1 hstep
        obtain ⟨ih1, ih2⟩ := ih f1 st.1 st.2 hwf1
        constructor
        · intro res hres
          rcases List.mem_cons.mp hres with rfl | hres'
          · exact ⟨hlen, hmem⟩
          · obtain ⟨hl, c1, hc1, r, hr, hre⟩ := ih1 res hres'
            obtain ⟨c, hcm, hs⟩ := hsub1 c1 hc1
            exact ⟨hl, c, hcm, r, hs r hr, hre⟩
        · rw [List.pairwise_cons]
          refine ⟨?_, ih2⟩
          intro w hw
          obtain ⟨_, c1, hc1, r, hr, hre⟩ := ih1 w hw
          rw [← hre]
          exact hstrict1 c1 hc1 r hr

/-- Full runs of the left join and of the inner join over the same required
children produce the same row-number sequence and finish together. -/
theorem leftRun_join_map {d : Nat} (hd7 : d ≤ 7) :
    ∀ (emf itf : Nat) (req opt : List Child), (∀ c ∈ req, wfChild c) →
    (leftRun none d emf itf req opt).1.map Res.rn =
      (joinRun none d emf itf req).1.map Res.rn ∧
    (leftRun none d emf itf req opt).2.2.2 = (joinRun none d emf itf req).2.2.2 := by
  intro emf
  induction emf with
  | zero =>
    intro itf req opt _
    exact ⟨rfl, rfl⟩
  | succ emf ih =>
    intro itf req opt hwf
    have hbisim := leftNext_join_bisim hd7 itf req opt hwf
    have hrunJ : ∀ x, joinNext none d itf req = x →
        joinRun none d (emf + 1) itf req =
        (match x with
         | none => ([], req, itf, false)
         | some (none, cs', itf') => ([], cs', itf', true)
         | some (some r, cs', itf') =>
           let rest := joinRun none d emf itf' cs'
           (r :: rest.1, rest.2.1, rest.2.2.1, rest.2.2.2)) := by
      intro x hx
      rw [← hx]
      rfl
    have hrunL : ∀ x, leftNext none d itf req opt = x →
        leftRun none d (emf + 1) itf req opt =
        (match x with
         | none => ([], (req, opt), itf, false)
         | some (none, st', itf') => ([], st', itf', true)
         | some (some r, st', itf') =>
           let rest := leftRun none d emf itf' st'.1 st'.2
           (r :: rest.1, rest.2.1, rest.2.2.1, rest.2.2.2)) := by
      intro x hx
      rw [← hx]
      rfl
    cases hstepJ : joinNext none d itf req with
    | none =>
      cases hstepL : leftNext none d itf req opt with
      | none =>
        rw [hrunJ none hstepJ, hrunL none hstepL]
        exact ⟨rfl, rfl⟩
      | some x =>
        rw [hstepJ, hstepL] at hbisim
        obtain ⟨em, st, f⟩ := x
        exact absurd hbisim (by cases em <;> simp [BisimRel])
    | some xj =>
      obtain ⟨em, cs1, f1⟩ := xj
      cases hstepL : leftNext none d itf req opt with
      | none =>
        rw [hstepJ, hstepL] at hbisim
        exact absurd hbisim (by cases em <;> simp [BisimRel])
      | some xl =>
        obtain ⟨em2, st, f2⟩ := xl
        obtain ⟨st1, st2⟩ := st
        rw [hstepJ, hstepL] at hbisim
        cases em with
        | none =>
          cases em2 with
          | some rL => exact absurd hbisim (by simp [BisimRel])
          | none =>
            obtain ⟨hreq, hf⟩ := hbisim
            rw [hrunJ _ hstepJ, hrunL _ hstepL]
            exact ⟨rfl, rfl⟩
        | some rJ =>
          cases em2 with
          | none => exact absurd hbisim (by simp [BisimRel])
          | some rL =>
            obtain ⟨hrn, hreq, hf⟩ := hbisim
            have hne : req ≠ [] := by
              intro hnil
              rw [hnil] at hstepJ
              cases itf with
              | zero => simp [joinNext] at hstepJ
              | succ n => simp [joinNext] at hstepJ
            have hspec := (joinNext_spec hd7 none itf req hne hwf).1 rJ cs1 f1 hstepJ
            obtain ⟨_, _, _, _, _, _, hwf1, _, _, _⟩ := hspec
            rw [hrunJ _ hstepJ, hrunL _ hstepL]
            simp only at hreq
            obtain ⟨ihm, ihf⟩ := ih f1 cs1 st2 hwf1
            constructor
            · show rL.rn :: (leftRun none d emf f2 st1 st2).1.map Res.rn =
                rJ.rn :: (joinRun none d emf f1 cs1).1.map Res.rn
              rw [hrn, ← hreq, ← hf, ihm]
            · show (leftRun none d emf f2 st1 st2).2.2.2 =
                (joinRun none d emf f1 cs1).2.2.2
              rw [← hreq, ← hf, ihf]

/-- A complete run of `JoinIterator.Next` without a group predicate emits
exactly the complete groups, in strictly increasing level-`d` order, with
each emitted row number taken from some child. -/
theorem joinRun_none_spec {d : Nat} (hd7 : d ≤ 7) :
    ∀ (emf itf : Nat) (cs : List Child), cs ≠ [] → (∀ c ∈ cs, wfChild c) →
    (joinRun none d emf itf cs).2.2.2 = true →
    (∀ g, (∃ res ∈ (joinRun none d emf itf cs).1, EqualRowNumber d res.rn g = true) ↔
      CompleteGroup d cs g) ∧
    (∀ res ∈ (joinRun none d emf itf cs).1, res.rn.length = 8 ∧
      ∃ c ∈ cs, ∃ r ∈ Child.remaining c, r.rn = res.rn) ∧
    List.Pairwise (fun a b => CompareRowNumbers d a.rn b.rn = -1)
      (joinRun none d emf itf cs).1 := by
  intro emf
  induction emf with
  | zero =>
    intro itf cs _ _ hfl
    simp [joinRun] at hfl
  | succ emf ih =>
    intro itf cs hne hwf hfl
    have hspec := joinNext_spec hd7 none itf cs hne hwf
    cases hstep : joinNext none d itf cs with
    | none =>
      rw [show joinRun none d (emf + 1) itf cs = ([], cs, itf, false) from by
        show (match joinNext none d itf cs with
          | none => ([], cs, itf, false)
          | some (none, cs', itf') => ([], cs', itf', true)
          | some (some r, cs', itf') =>
            let rest := joinRun none d emf itf' cs'
            (r :: rest.1, rest.2.1, rest.2.2.1, rest.2.2.2)) = _
        rw [hstep]] at hfl
      simp at hfl
    | some out =>
      obtain ⟨em, cs1, f1⟩ := out
      cases em with
      | none =>
        have hrun : joinRun none d (emf + 1) itf cs = ([], cs1, f1, true) := by
          show (match joinNext none d itf cs with
            | none => ([], cs, itf, false)
            | some (none, cs', itf') => ([], cs', itf', true)
            | some (some r, cs', itf') =>
              let rest := joinRun none d emf itf' cs'
              (r :: rest.1, rest.2.1, rest.2.2.1, rest.2.2.2)) = _
          rw [hstep]
        rw [hrun]
        have hexh := hspec.2 cs1 f1 hstep rfl
        refine ⟨?_, by simp, by simp⟩
        intro g
        constructor
        · rintro ⟨w, hw, _⟩
          simp at hw
        · intro hcg
          exact absurd hcg (hexh g)
      | some res =>
        have hrun : joinRun none d (emf + 1) itf cs =
            (res :: (joinRun none d emf f1 cs1).1,
             (joinRun none d emf f1 cs1).2.1,
             (joinRun none d emf f1 cs1).2.2.1,
             (joinRun none d emf f1 cs1).2.2.2) := by
          show (match joinNext none d itf cs with
            | none => ([], cs, itf, false)
            | some (none, cs', itf') => ([], cs', itf', true)
            | some (some r, cs', itf') =>
              let rest := joinRun none d emf itf' cs'
              (r :: rest.1, rest.2.1, rest.2.2.1, rest.2.2.2)) = _
          rw [hstep]
        rw [hrun] at hfl ⊢
        simp only at hfl
        obtain ⟨hlen, hmem, hcomp, _, hback, hfwd, hwf1, hne1, hsub, hstrict⟩ :=
          hspec.1 res cs1 f1 hstep
        obtain ⟨ih1, ih2, ih3⟩ := ih f1 cs1 hne1 hwf1 hfl
        refine ⟨?_, ?_, ?_⟩
        · intro g
          constructor
          · rintro ⟨w, hw, hwg⟩
            rcases List.mem_cons.mp hw with rfl | hw'
            · exact hback g (Or.inl hwg)
            · exact hback g (Or.inr ((ih1 g).mp ⟨w, hw', hwg⟩))
          · intro hcg
            rcases hfwd rfl g hcg with heq | hcg1
            · exact ⟨res, by simp, heq⟩
            · obtain ⟨w, hw, hwg⟩ := (ih1 g).mpr hcg1
              exact ⟨w, by simp [hw], hwg⟩
        · intro w hw
          rcases List.mem_cons.mp hw with rfl | hw'
          · exact ⟨hlen, hmem⟩
          · obtain ⟨hl, c1, hc1, r, hr, hre⟩ := ih2 w hw'
            obtain ⟨cc, hccm, hs⟩ := hsub c1 hc1
            exact ⟨hl, cc, hccm, r, hs r hr, hre⟩
        · rw [List.pairwise_cons]
          refine ⟨?_, ih3⟩
          intro w hw
          obtain ⟨_, c1, hc1, r, hr, hre⟩ := ih2 w hw
          rw [← hre]
          exact hstrict c1 hc1 r hr

/-- Any run of `JoinIterator.Next`, with any group predicate, emits results
with length-8 row numbers drawn from the children, in strictly increasing
order at the join level. -/
theorem joinRun_mono {d : Nat} (hd7 : d ≤ 7) (pred : Option (Res → Bool)) :
    ∀ (emf itf : Nat) (cs : List Child), (∀ c ∈ cs, wfChild c) →
    (∀ res ∈ (joinRun pred d emf itf cs).1, res.rn.length = 8 ∧
      ∃ c ∈ cs, ∃ r ∈ Child.remaining c, r.rn = res.rn) ∧
    List.Pairwise (fun a b => CompareRowNumbers d a.rn b.rn = -1)
      (joinRun pred d emf itf cs).1 := by
  intro emf
  induction emf with
  | zero =>
    intro itf cs _
    exact ⟨fun res hres => by simp [joinRun] at hres, by simp [joinRun]⟩
  | succ emf ih =>
    intro itf cs hwf
    cases hstep : joinNext pred d itf cs with
    | none =>
      rw [show joinRun pred d (emf + 1) itf cs = ([], cs, itf, false) from by
        show (match joinNext pred d itf cs with
          | none => ([], cs, itf, false)
          | some (none, cs', itf') => ([], cs', itf', true)
          | some (some r, cs', itf') =>
            let rest := joinRun pred d emf itf' cs'
            (r :: rest.1, rest.2.1, rest.2.2.1, rest.2.2.2)) = _
        rw [hstep]]
      exact ⟨fun res hres => by simp at hres, by simp⟩
    | some out =>
      obtain ⟨em, cs1, f1⟩ := out
      cases em with
      | none =>
        rw [show joinRun pred d (emf + 1) itf cs = ([], cs1, f1, true) from by
          show (match joinNext pred d itf cs with
            | none => ([], cs, itf, false)
            | some (none, cs', itf') => ([], cs', itf', true)
            | some (some r, cs', itf') =>
              let rest := joinRun pred d emf itf' cs'
              (r :: rest.1, rest.2.1, rest.2.2.1, rest.2.2.2)) = _
          rw [hstep]]
        exact ⟨fun res hres => by simp at hres, by simp⟩
      | some r0 =>
        rw [show joinRun pred d (emf + 1) itf cs =
            (r0 :: (joinRun pred d emf f1 cs1).1,
             (joinRun pred d emf f1 cs1).2.1,
             (joinRun pred d emf f1 cs1).2.2.1,
             (joinRun pred d emf f1 cs1).2.2.2) from by
          show (match joinNext pred d itf cs with
            | none => ([], cs, itf, false)
            | some (none, cs', itf') => ([], cs', itf', true)
            | some (some r, cs', itf') =>
              let rest := joinRun pred d emf itf' cs'
              (r :: rest.1, rest.2.1, rest.2.2.1, rest.2.2.2)) = _
          rw [hstep]]
        have hne : cs ≠ [] := by
          intro hnil
          rw [hnil] at hstep
          cases itf with
          | zero => simp [joinNext] at hstep
          | succ n => simp [joinNext] at hstep
        obtain ⟨hlen, hmem, _, _, _, _, hwf1, _, hsub1, hstrict1⟩ :=
          (joinNext_spec hd7 pred itf cs hne hwf).1 r0 cs1 f1 hstep
        obtain ⟨ih1, ih2⟩ := ih f1 cs1 hwf1
        constructor
        · intro res hres
          rcases List.mem_cons.mp hres with rfl | hres'
          · exact ⟨hlen, hmem⟩
          · obtain ⟨hl, c1, hc1, r, hr, hre⟩ := ih1 res hres'
            obtain ⟨c, hcm, hs⟩ := hsub1 c1 hc1
            exact ⟨hl, c, hcm, r, hs r hr, hre⟩
        · rw [List.pairwise_cons]
          refine ⟨?_, ih2⟩
          intro w hw
          obtain ⟨_, c1, hc1, r, hr, hre⟩ := ih1 w hw
          rw [← hre]
          exact hstrict1 c1 hc1 r hr

/-- Every result kept by a predicated join run was accepted by the predicate
and stood for a group complete in the original children; the kept results
remain strictly increasing at the join level. -/
theorem joinRun_pred_spec {d : Nat} (hd7 : d ≤ 7) (pr : Res → Bool) :
    ∀ (emf itf : Nat) (cs : List Child), cs ≠ [] → (∀ c ∈ cs, wfChild c) →
    (∀ res ∈ (joinRun (some pr) d emf itf cs).1,
      pr res = true ∧ CompleteGroup d cs res.rn ∧ res.rn.length = 8 ∧
      ∃ c ∈ cs, ∃ r ∈ Child.remaining c, r.rn = res.rn) ∧
    List.Pairwise (fun a b => CompareRowNumbers d a.rn b.rn = -1)
      (joinRun (some pr) d emf itf cs).1 := by
  intro emf
  induction emf with
  | zero =>
    intro itf cs _ _
    constructor
    · intro res hres
      simp [joinRun] at hres
    · simp [joinRun]
  | succ emf ih =>
    intro itf cs hne hwf
    have hspec := joinNext_spec hd7 (some pr) itf cs hne hwf
    cases hstep : joinNext (some pr) d itf cs with
    | none =>
      rw [show joinRun (some pr) d (emf + 1) itf cs = ([], cs, itf, false) from by
        show (match joinNext (some pr) d itf cs with
          | none => ([], cs, itf, false)
          | some (none, cs', itf') => ([], cs', itf', true)
          | some (some r, cs', itf') =>
            let rest := joinRun (some pr) d emf itf' cs'
            (r :: rest.1, rest.2.1, rest.2.2.1, rest.2.2.2)) = _
        rw [hstep]]
      exact ⟨fun res hres => by simp at hres, by simp⟩
    | some out =>
      obtain ⟨em, cs1, f1⟩ := out
      cases em with
      | none =>
        rw [show joinRun (some pr) d (emf + 1) itf cs = ([], cs1, f1, true) from by
          show (match joinNext (some pr) d itf cs with
            | none => ([], cs, itf, false)
            | some (none, cs', itf') => ([], cs', itf', true)
            | some (some r, cs', itf') =>
              let rest := joinRun (some pr) d emf itf' cs'
              (r :: rest.1, rest.2.1, rest.2.2.1, rest.2.2.2)) = _
          rw [hstep]]
        exact ⟨fun res hres => by simp at hres, by simp⟩
      | some r0 =>
        rw [show joinRun (some pr) d (emf + 1) itf cs =
            (r0 :: (joinRun (some pr) d emf f1 cs1).1,
             (joinRun (some pr) d emf f1 cs1).2.1,
             (joinRun (some pr) d emf f1 cs1).2.2.1,
             (joinRun (some pr) d emf f1 cs1).2.2.2) from by
          show (match joinNext (some pr) d itf cs with
            | none => ([], cs, itf, false)
            | some (none, cs', itf') => ([], cs', itf', true)
            | some (some r, cs', itf') =>
              let rest := joinRun (some pr) d emf itf' cs'
              (r :: rest.1, rest.2.1, rest.2.2.1, rest.2.2.2)) = _
          rw [hstep]]
        obtain ⟨hlen, hmem, hcomp, hacc, hback, _, hwf1, hne1, hsub, hstrict⟩ :=
          hspec.1 r0 cs1 f1 hstep
        obtain ⟨ih1, ih2⟩ := ih f1 cs1 hne1 hwf1
        constructor
        · intro res hres
          rcases List.mem_cons.mp hres with rfl | hres'
          · exact ⟨hacc pr rfl, hcomp, hlen, hmem⟩
          · obtain ⟨ha, hc, hl, c1, hc1, r, hr, hre⟩ := ih1 res hres'
            obtain ⟨cc, hccm, hs⟩ := hsub c1 hc1
            exact ⟨ha, hback res.rn (Or.inr hc), hl, cc, hccm, r, hs r hr, hre⟩
        · rw [List.pairwise_cons]
          refine ⟨?_, ih2⟩
          intro w hw
          obtain ⟨_, _, _, c1, hc1, r, hr, hre⟩ := ih1 w hw
          rw [← hre]
          exact hstrict c1 hc1 r hr

/-- **C2.** `JoinIterator.Next` emits a result for a level-`d` group if and
only if every child iterator yields at least one result whose row number
equals that group at level `d`: over a complete unpredicated run the emitted
groups are exactly those matched by every child; and when a group predicate
is set, every result kept was accepted by the predicate and its group is
still matched by every child. -/
theorem c2_join_iff (d : Nat) (hd7 : d ≤ 7) (ss : List ResStream)
    (emf itf : Nat) (hne : ss ≠ [])
    (hwf : ∀ s ∈ ss, wfRes s)
    (hdone : (joinRun none d emf itf
        (ss.map (fun s => ((none : Option Res), s)))).2.2.2 = true) :
    (∀ g, (∃ res ∈ (joinRun none d emf itf
            (ss.map (fun s => ((none : Option Res), s)))).1,
          EqualRowNumber d res.rn g = true) ↔
        (∀ s ∈ ss, ∃ r ∈ s, EqualRowNumber d r.rn g = true)) ∧
    (∀ (pr : Res → Bool) (emf2 itf2 : Nat),
      ∀ res ∈ (joinRun (some pr) d emf2 itf2
          (ss.map (fun s => ((none : Option Res), s)))).1,
        pr res = true ∧ ∀ s ∈ ss, ∃ r ∈ s, EqualRowNumber d r.rn res.rn = true) := by
  have hne' : ss.map (fun s => ((none : Option Res), s)) ≠ [] := by
    intro h
    exact hne (List.map_eq_nil_iff.mp h)
  have hwf' : ∀ c ∈ ss.map (fun s => ((none : Option Res), s)), wfChild c := by
    intro c hc
    obtain ⟨s, hs, rfl⟩ := List.mem_map.mp hc
    exact hwf s hs
  have hcgiff : ∀ g, CompleteGroup d (ss.map (fun s => ((none : Option Res), s))) g ↔
      (∀ s ∈ ss, ∃ r ∈ s, EqualRowNumber d r.rn g = true) := by
    intro g
    constructor
    · intro hcg s hs
      exact hcg ((none : Option Res), s) (List.mem_map.mpr ⟨s, hs, rfl⟩)
    · intro hall c hc
      obtain ⟨s, hs, rfl⟩ := List.mem_map.mp hc
      exact hall s hs
  constructor
  · intro g
    rw [← hcgiff g]
    exact (joinRun_none_spec hd7 emf itf _ hne' hwf' hdone).1 g
  · intro pr emf2 itf2 res hres
    obtain ⟨ha, hc, _, _⟩ := (joinRun_pred_spec hd7 pr emf2 itf2 _ hne' hwf').1 res hres
    exact ⟨ha, (hcgiff res.rn).mp hc⟩

/-- Witness for C2 at two concrete child streams: the unpredicated join run
completes, and the predicated variant is covered at an accepting predicate. -/
theorem c2_join_iff_witness :
    ([c2s1, c2s2] : List ResStream) ≠ [] ∧
    (∀ s ∈ [c2s1, c2s2], wfRes s) ∧
    (joinRun none 0 3 6
        ([c2s1, c2s2].map (fun s => ((none : Option Res), s)))).2.2.2 = true ∧
    ((∀ g, (∃ res ∈ (joinRun none 0 3 6
            ([c2s1, c2s2].map (fun s => ((none : Option Res), s)))).1,
          EqualRowNumber 0 res.rn g = true) ↔
        (∀ s ∈ [c2s1, c2s2], ∃ r ∈ s, EqualRowNumber 0 r.rn g = true)) ∧
    (∀ (pr : Res → Bool) (emf2 itf2 : Nat),
      ∀ res ∈ (joinRun (some pr) 0 emf2 itf2
          ([c2s1, c2s2].map (fun s => ((none : Option Res), s)))).1,
        pr res = true ∧
        ∀ s ∈ [c2s1, c2s2], ∃ r ∈ s, EqualRowNumber 0 r.rn res.rn = true)) := by
  have hwf : ∀ s ∈ [c2s1, c2s2], wfRes s := by
    intro s hs
    rcases List.mem_cons.mp hs with rfl | hs
    · exact ⟨List.chain'_cons.mpr ⟨by decide, List.chain'_singleton _⟩, by decide⟩
    rcases List.mem_cons.mp hs with rfl | hs
    · exact ⟨List.chain'_singleton _, by decide⟩
    · simp at hs
  exact ⟨by simp, hwf, rfl,
    c2_join_iff 0 (by decide) [c2s1, c2s2] 3 6 (by simp) hwf rfl⟩

/-- **C4.** Left-join conservation: with no group predicate, a
`LeftJoinIterator` over required children `R` and optional children `O`
emits, over a full iteration, exactly as many results as a `JoinIterator`
over `R` alone at the same definition level — indeed the same row-number
sequence, and both runs finish together; the optional children only change
the entries attached to each result. -/
theorem c4_left_join_conservation (d : Nat) (hd7 : d ≤ 7)
    (rs os : List ResStream) (emf itf : Nat)
    (hwf : ∀ s ∈ rs, wfRes s) :
    (leftRun none d emf itf (rs.map (fun s => ((none : Option Res), s)))
        (os.map (fun s => ((none : Option Res), s)))).1.map Res.rn =
      (joinRun none d emf itf
        (rs.map (fun s => ((none : Option Res), s)))).1.map Res.rn ∧
    (leftRun none d emf itf (rs.map (fun s => ((none : Option Res), s)))
        (os.map (fun s => ((none : Option Res), s)))).1.length =
      (joinRun none d emf itf
        (rs.map (fun s => ((none : Option Res), s)))).1.length ∧
    (leftRun none d emf itf (rs.map (fun s => ((none : Option Res), s)))
        (os.map (fun s => ((none : Option Res), s)))).2.2.2 =
      (joinRun none d emf itf
        (rs.map (fun s => ((none : Option Res), s)))).2.2.2 := by
  have hwf' : ∀ c ∈ rs.map (fun s => ((none : Option Res), s)), wfChild c := by
    intro c hc
    obtain ⟨s, hs, rfl⟩ := List.mem_map.mp hc
    exact hwf s hs
  obtain ⟨hm, hf⟩ := leftRun_join_map hd7 emf itf _
    (os.map (fun s => ((none : Option Res), s))) hwf'
  refine ⟨hm, ?_, hf⟩
  have := congrArg List.length hm
  simpa using this

/-- Witness for C4 at one required and one optional child stream. -/
theorem c4_left_join_conservation_witness :
    (∀ s ∈ [c4r1], wfRes s) ∧
    ((leftRun none 0 3 6 ([c4r1].map (fun s => ((none : Option Res), s)))
        ([c4o1].map (fun s => ((none : Option Res), s)))).1.map Res.rn =
      (joinRun none 0 3 6
        ([c4r1].map (fun s => ((none : Option Res), s)))).1.map Res.rn ∧
    (leftRun none 0 3 6 ([c4r1].map (fun s => ((none : Option Res), s)))
        ([c4o1].map (fun s => ((none : Option Res), s)))).1.length =
      (joinRun none 0 3 6
        ([c4r1].map (fun s => ((none : Option Res), s)))).1.length ∧
    (leftRun none 0 3 6 ([c4r1].map (fun s => ((none : Option Res), s)))
        ([c4o1].map (fun s => ((none : Option Res), s)))).2.2.2 =
      (joinRun none 0 3 6
        ([c4r1].map (fun s => ((none : Option Res), s)))).2.2.2) := by
  have hwf : ∀ s ∈ [c4r1], wfRes s := by
    intro s hs
    rcases List.mem_cons.mp hs with rfl | hs
    · exact ⟨List.chain'_cons.mpr ⟨by decide, List.chain'_singleton _⟩, by decide⟩
    · simp at hs
  exact ⟨hwf, c4_left_join_conservation 0 (by decide) [c4r1] [c4o1] 3 6 hwf⟩

/-- Monotonicity facts for one `UnionIterator.Next` call with an arbitrary
group predicate: an emitted result carries the row number of some pending
child result, and every result still pending afterwards lies strictly past
it at the union level. -/
theorem unionNext_mono_spec {d : Nat} (hd7 : d ≤ 7) (pred : Option (Res → Bool)) :
    ∀ (fuel : Nat) (cs : List Child),
    (∀ c ∈ cs, wfChild c) →
    (∀ c ∈ cs, ∀ r ∈ Child.remaining c, CompareRowNumbers d r.rn MaxRowNumber = -1) →
    ∀ res cs' f', unionNext pred d fuel cs = some (some res, cs', f') →
      res.rn.length = 8 ∧
      (∃ c ∈ cs, ∃ r ∈ Child.remaining c, r.rn = res.rn) ∧
      (∀ c' ∈ cs', wfChild c') ∧
      (∀ c' ∈ cs', ∃ c ∈ cs, ∀ r ∈ Child.remaining c', r ∈ Child.remaining c) ∧
      (∀ c' ∈ cs', ∀ r ∈ Child.remaining c', CompareRowNumbers d res.rn r.rn = -1) ∧
      (∀ c' ∈ cs', ∀ r ∈ Child.remaining c',
        CompareRowNumbers d r.rn MaxRowNumber = -1) := by
  intro fuel
  induction fuel with
  | zero =>
    intro cs _ _ res cs' f' h
    simp [unionNext] at h
  | succ fuel ih =>
    intro cs hwf hbound
    have hMaxLen : (MaxRowNumber).length = 8 := by simp [MaxRowNumber]
    have hpk : ∀ c' ∈ cs.map childPeek, peeked c' := by
      intro c' hc'
      obtain ⟨c, _, hc⟩ := List.mem_map.mp hc'
      rw [← hc]
      exact childPeek_peeked c
    have hrem1 : ∀ c' ∈ cs.map childPeek, ∃ c ∈ cs,
        Child.remaining c' = Child.remaining c := by
      intro c' hc'
      obtain ⟨c, hcm, hc⟩ := List.mem_map.mp hc'
      exact ⟨c, hcm, by rw [← hc, childPeek_remaining]⟩
    have hwf1 : ∀ c' ∈ cs.map childPeek, wfChild c' := by
      intro c' hc'
      obtain ⟨c, hcm, he⟩ := hrem1 c' hc'
      unfold wfChild
      rw [he]
      exact hwf c hcm
    have hbound1 : ∀ c' ∈ cs.map childPeek, ∀ r ∈ Child.remaining c',
        CompareRowNumbers d r.rn MaxRowNumber = -1 := by
      intro c' hc' r hr
      obtain ⟨c, hcm, he⟩ := hrem1 c' hc'
      exact hbound c hcm r (he ▸ hr)
    have hpeekmem : ∀ c' ∈ cs.map childPeek, ∀ r, c'.1 = some r →
        r ∈ Child.remaining c' := by
      intro c' hc' r h
      unfold Child.remaining
      rw [h]
      simp
    have hpeeklen : ∀ c' ∈ cs.map childPeek, ∀ r, c'.1 = some r →
        r.rn.length = 8 := by
      intro c' hc' r h
      exact (hwf1 c' hc').2 r (hpeekmem c' hc' r h)
    have hspec := @unionLowest_spec d (cs.map childPeek) MaxRowNumber hpeeklen hMaxLen
    obtain ⟨hloLen, _, hloPeeks, hloMem⟩ := hspec
    have hloAll : ∀ c' ∈ cs.map childPeek, ∀ r ∈ Child.remaining c',
        CompareRowNumbers d (unionLowest d (cs.map childPeek) MaxRowNumber) r.rn ≤ 0 := by
      intro c' hc' r hr
      have hph := peeked_head (hpk c' hc')
      cases hrm : Child.remaining c' with
      | nil => rw [hrm] at hr; simp at hr
      | cons hd tl =>
        have hphd : c'.1 = some hd := by rw [hph, hrm]; rfl
        have h1 := hloPeeks c' hc' hd hphd
        have hwfrm : wfRes (hd :: tl) := by
          have := hwf1 c' hc'
          unfold wfChild at this
          rw [hrm] at this
          exact this
        have h2 : CompareRowNumbers d hd.rn r.rn ≤ 0 :=
          wfRes_head_le hd7 hwfrm r (hrm ▸ hr)
        exact CompareRowNumbers_trans_le
          (by rw [hloLen, (hwf1 c' hc').2 hd (by rw [hrm]; simp)])
          (by rw [(hwf1 c' hc').2 hd (by rw [hrm]; simp), (hwf1 c' hc').2 r (hrm ▸ hr)])
          h1 h2
    have hcol := collectAll_spec d (unionLowest d (cs.map childPeek) MaxRowNumber)
      (cs.map childPeek) hpk
    have hwfCol : ∀ cc ∈ (collectAll d (unionLowest d (cs.map childPeek) MaxRowNumber)
        (cs.map childPeek)).2, wfChild cc := by
      intro cc hcc
      obtain ⟨c', hc', hrel, _⟩ := forall₂_mem_right hcol.2 cc hcc
      show wfRes (Child.remaining cc)
      rw [hrel]
      exact wfRes_dropWhile _ (hwf1 c' hc')
    have hsubCol : ∀ cc ∈ (collectAll d (unionLowest d (cs.map childPeek) MaxRowNumber)
        (cs.map childPeek)).2, ∃ c ∈ cs,
        ∀ r ∈ Child.remaining cc, r ∈ Child.remaining c := by
      intro cc hcc
      obtain ⟨c', hc', hrel, _⟩ := forall₂_mem_right hcol.2 cc hcc
      obtain ⟨c, hcm, he⟩ := hrem1 c' hc'
      refine ⟨c, hcm, ?_⟩
      intro r hr
      rw [hrel] at hr
      have h1 : r ∈ Child.remaining c' := (List.dropWhile_suffix _).sublist.mem hr
      rw [he] at h1
      exact h1
    have hstrictCol : ∀ cc ∈ (collectAll d
        (unionLowest d (cs.map childPeek) MaxRowNumber) (cs.map childPeek)).2,
        ∀ r ∈ Child.remaining cc,
        CompareRowNumbers d (unionLowest d (cs.map childPeek) MaxRowNumber) r.rn = -1 := by
      intro cc hcc r hr
      obtain ⟨c', hc', hrel, _⟩ := forall₂_mem_right hcol.2 cc hcc
      have hms := (min_class_split hd7 hloLen (Child.remaining c') (hwf1 c' hc')
        (hloAll c' hc')).2
      rw [hrel] at hr
      exact hms r hr
    have hboundCol : ∀ cc ∈ (collectAll d
        (unionLowest d (cs.map childPeek) MaxRowNumber) (cs.map childPeek)).2,
        ∀ r ∈ Child.remaining cc, CompareRowNumbers d r.rn MaxRowNumber = -1 := by
      intro cc hcc r hr
      obtain ⟨c, hcm, hs⟩ := hsubCol cc hcc
      exact hbound c hcm r (hs r hr)
    have hMem : (cs.map childPeek).any (fun c =>
        match c.1 with
        | some r => CompareRowNumbers d r.rn
            (unionLowest d (cs.map childPeek) MaxRowNumber) == 0
        | none => false) = true →
        ∃ c ∈ cs, ∃ r ∈ Child.remaining c,
        r.rn = unionLowest d (cs.map childPeek) MaxRowNumber := by
      intro hAny
      rcases hloMem with hmax | ⟨c', hc', r, hpr, hrn⟩
      · obtain ⟨c', hc', htied⟩ := List.any_eq_true.mp hAny
        match hp : c'.1 with
        | none => rw [hp] at htied; simp at htied
        | some r =>
          rw [hp] at htied
          have h0 : CompareRowNumbers d r.rn
              (unionLowest d (cs.map childPeek) MaxRowNumber) = 0 := by
            simpa using htied
          rw [hmax] at h0
          have := hbound1 c' hc' r (hpeekmem c' hc' r hp)
          omega
      · obtain ⟨c, hcm, he⟩ := hrem1 c' hc'
        exact ⟨c, hcm, r, he ▸ hpeekmem c' hc' r hpr, hrn⟩
    have hunfold : unionNext pred d (fuel + 1) cs =
        (if (cs.map childPeek).any (fun c =>
            match c.1 with
            | some r => CompareRowNumbers d r.rn
                (unionLowest d (cs.map childPeek) MaxRowNumber) == 0
            | none => false) then
          match pred with
          | none => some (some (assemble (unionLowest d (cs.map childPeek) MaxRowNumber)
              (collectAll d (unionLowest d (cs.map childPeek) MaxRowNumber)
                (cs.map childPeek)).1),
              (collectAll d (unionLowest d (cs.map childPeek) MaxRowNumber)
                (cs.map childPeek)).2, fuel)
          | some pr =>
            if pr (assemble (unionLowest d (cs.map childPeek) MaxRowNumber)
                (collectAll d (unionLowest d (cs.map childPeek) MaxRowNumber)
                  (cs.map childPeek)).1) then
              some (some (assemble (unionLowest d (cs.map childPeek) MaxRowNumber)
                (collectAll d (unionLowest d (cs.map childPeek) MaxRowNumber)
                  (cs.map childPeek)).1),
                (collectAll d (unionLowest d (cs.map childPeek) MaxRowNumber)
                  (cs.map childPeek)).2, fuel)
            else unionNext pred d fuel
              (collectAll d (unionLowest d (cs.map childPeek) MaxRowNumber)
                (cs.map childPeek)).2
        else
          some (none,
            (collectAll d (unionLowest d (cs.map childPeek) MaxRowNumber)
              (cs.map childPeek)).2, fuel)) := rfl
    intro res cs' f' h
    by_cases hAny : (cs.map childPeek).any (fun c =>
        match c.1 with
        | some r => CompareRowNumbers d r.rn
            (unionLowest d (cs.map childPeek) MaxRowNumber) == 0
        | none => false) = true
    · rw [hunfold, if_pos hAny] at h
      cases pred with
      | none =>
        simp only [Option.some.injEq, Prod.mk.injEq] at h
        obtain ⟨hres, hcs', hf'⟩ := h
        rw [← hres, ← hcs']
        exact ⟨hloLen, hMem hAny, hwfCol, hsubCol, hstrictCol, hboundCol⟩
      | some pr =>
        dsimp only at h
        by_cases hacc : pr (assemble (unionLowest d (cs.map childPeek) MaxRowNumber)
            (collectAll d (unionLowest d (cs.map childPeek) MaxRowNumber)
              (cs.map childPeek)).1) = true
        · rw [if_pos hacc] at h
          simp only [Option.some.injEq, Prod.mk.injEq] at h
          obtain ⟨hres, hcs', hf'⟩ := h
          rw [← hres, ← hcs']
          exact ⟨hloLen, hMem hAny, hwfCol, hsubCol, hstrictCol, hboundCol⟩
        · rw [if_neg hacc] at h
          obtain ⟨hlen, hmem, hwf2, hsub2, hstrict2, hbound2⟩ :=
            ih _ hwfCol hboundCol res cs' f' h
          refine ⟨hlen, ?_, hwf2, ?_, hstrict2, hbound2⟩
          · obtain ⟨cmid, hcmid, r, hr, hre⟩ := hmem
            obtain ⟨c, hcm, hs⟩ := hsubCol cmid hcmid
            exact ⟨c, hcm, r, hs r hr, hre⟩
          · intro c' hc'
            obtain ⟨cmid, hcmid, hsubm⟩ := hsub2 c' hc'
            obtain ⟨c, hcm, hs⟩ := hsubCol cmid hcmid
            exact ⟨c, hcm, fun r hr => hs r (hsubm r hr)⟩
    · rw [hunfold, if_neg hAny] at h
      simp at h

/-- Any run of `UnionIterator.Next`, with any group predicate, emits
results with length-8 row numbers drawn from the children, in strictly
increasing order at the union level. -/
theorem unionRun_mono {d : Nat} (hd7 : d ≤ 7) (pred : Option (Res → Bool)) :
    ∀ (emf itf : Nat) (cs : List Child),
    (∀ c ∈ cs, wfChild c) →
    (∀ c ∈ cs, ∀ r ∈ Child.remaining c, CompareRowNumbers d r.rn MaxRowNumber = -1) →
    (∀ res ∈ (unionRun pred d emf itf cs).1, res.rn.length = 8 ∧
      ∃ c ∈ cs, ∃ r ∈ Child.remaining c, r.rn = res.rn) ∧
    List.Pairwise (fun a b => CompareRowNumbers d a.rn b.rn = -1)
      (unionRun pred d emf itf cs).1 := by
  intro emf
  induction emf with
  | zero =>
    intro itf cs _ _
    exact ⟨fun res hres => by simp [unionRun] at hres, by simp [unionRun]⟩
  | succ emf ih =>
    intro itf cs hwf hbound
    cases hstep : unionNext pred d itf cs with
    | none =>
      rw [show unionRun pred d (emf + 1) itf cs = ([], cs, itf, false) from by
        show (match unionNext pred d itf cs with
          | none => ([], cs, itf, false)
          | some (none, cs', itf') => ([], cs', itf', true)
          | some (some r, cs', itf') =>
            let rest := unionRun pred d emf itf' cs'
            (r :: rest.1, rest.2.1, rest.2.2.1, rest.2.2.2)) = _
        rw [hstep]]
      exact ⟨fun res hres => by simp at hres, by simp⟩
    | some out =>
      obtain ⟨em, cs1, f1⟩ := out
      cases em with
      | none =>
        rw [show unionRun pred d (emf + 1) itf cs = ([], cs1, f1, true) from by
          show (match unionNext pred d itf cs with
            | none => ([], cs, itf, false)
            | some (none, cs', itf') => ([], cs', itf', true)
            | some (some r, cs', itf') =>
              let rest := unionRun pred d emf itf' cs'
              (r :: rest.1, rest.2.1, rest.2.2.1, rest.2.2.2)) = _
          rw [hstep]]
        exact ⟨fun res hres => by simp at hres, by simp⟩
      | some r0 =>
        rw [show unionRun pred d (emf + 1) itf cs =
            (r0 :: (unionRun pred d emf f1 cs1).1,
             (unionRun pred d emf f1 cs1).2.1,
             (unionRun pred d emf f1 cs1).2.2.1,
             (unionRun pred d emf f1 cs1).2.2.2) from by
          show (match unionNext pred d itf cs with
            | none => ([], cs, itf, false)
            | some (none, cs', itf') => ([], cs', itf', true)
            | some (some r, cs', itf') =>
              let rest := unionRun pred d emf itf' cs'
              (r :: rest.1, rest.2.1, rest.2.2.1, rest.2.2.2)) = _
          rw [hstep]]
        obtain ⟨hlen, hmem, hwf1, hsub1, hstrict1, hbound1⟩ :=
          unionNext_mono_spec hd7 pred itf cs hwf hbound r0 cs1 f1 hstep
        obtain ⟨ih1, ih2⟩ := ih f1 cs1 hwf1 hbound1
        constructor
        · intro res hres
          rcases List.mem_cons.mp hres with rfl | hres'
          · exact ⟨hlen, hmem⟩
          · obtain ⟨hl, c1, hc1, r, hr, hre⟩ := ih1 res hres'
            obtain ⟨c, hcm, hs⟩ := hsub1 c1 hc1
            exact ⟨hl, c, hcm, r, hs r hr, hre⟩
        · rw [List.pairwise_cons]
          refine ⟨?_, ih2⟩
          intro w hw
          obtain ⟨_, c1, hc1, r, hr, hre⟩ := ih1 w hw
          rw [← hre]
          exact hstrict1 c1 hc1 r hr

/-- **C1.** For every iterator in the engine — `SyncIterator`,
`JoinIterator`, `LeftJoinIterator`, `UnionIterator`, with any predicate —
the row numbers of successive results over any sequence of `Next()` calls
are strictly increasing under full comparison `Compare(7, ., .)`. -/
theorem c1_monotonic (d : Nat) (hd7 : d ≤ 7) (cfg : SyncConfig)
    (rgs : List RowGroupM) (hmd : cfg.maxDefinitionLevel ≤ 7)
    (hin : wfInput cfg.maxDefinitionLevel rgs) (fuel : Nat)
    (pred : Option (Res → Bool)) (emf itf : Nat)
    (ss os : List ResStream) (hwf : ∀ s ∈ ss, wfRes s)
    (hbound : ∀ s ∈ ss, ∀ r ∈ s, CompareRowNumbers d r.rn MaxRowNumber = -1) :
    List.Chain' (fun a b => CompareRowNumbers 7 a.1 b.1 = -1)
      (syncRun cfg fuel (NewSyncIterator rgs)).1 ∧
    List.Chain' (fun a b => CompareRowNumbers 7 a.rn b.rn = -1)
      (joinRun pred d emf itf (ss.map (fun s => ((none : Option Res), s)))).1 ∧
    List.Chain' (fun a b => CompareRowNumbers 7 a.rn b.rn = -1)
      (leftRun pred d emf itf (ss.map (fun s => ((none : Option Res), s)))
        (os.map (fun s => ((none : Option Res), s)))).1 ∧
    List.Chain' (fun a b => CompareRowNumbers 7 a.rn b.rn = -1)
      (unionRun pred d emf itf (ss.map (fun s => ((none : Option Res), s)))).1 := by
  have hwf' : ∀ c ∈ ss.map (fun s => ((none : Option Res), s)), wfChild c := by
    intro c hc
    obtain ⟨s, hs, rfl⟩ := List.mem_map.mp hc
    exact hwf s hs
  have hbound' : ∀ c ∈ ss.map (fun s => ((none : Option Res), s)),
      ∀ r ∈ Child.remaining c, CompareRowNumbers d r.rn MaxRowNumber = -1 := by
    intro c hc
    obtain ⟨s, hs, rfl⟩ := List.mem_map.mp hc
    exact hbound s hs
  have hlift : ∀ a b : Res, CompareRowNumbers d a.rn b.rn = -1 →
      CompareRowNumbers 7 a.rn b.rn = -1 :=
    fun a b h => CompareRowNumbers_full_of_level hd7 h
  refine ⟨?_, ?_, ?_, ?_⟩
  · exact (syncRun_mono cfg fuel (NewSyncIterator rgs) none
      (wf_NewSyncIterator cfg rgs hmd hin)).2.2
  · exact List.Chain'.imp hlift
      (joinRun_mono hd7 pred emf itf _ hwf').2.chain'
  · exact List.Chain'.imp hlift
      (leftRun_mono hd7 pred emf itf _ _ hwf').2.chain'
  · exact List.Chain'.imp hlift
      (unionRun_mono hd7 pred emf itf _ hwf' hbound').2.chain'

/-- Witness for C1 at a concrete configuration: empty parquet input for the
sync iterator, one child stream for the composite iterators, no predicate. -/
theorem c1_monotonic_witness :
    c1cfg.maxDefinitionLevel ≤ 7 ∧
    wfInput c1cfg.maxDefinitionLevel [] ∧
    (∀ s ∈ [c1s1], wfRes s) ∧
    (∀ s ∈ [c1s1], ∀ r ∈ s, CompareRowNumbers 0 r.rn MaxRowNumber = -1) ∧
    (List.Chain' (fun a b => CompareRowNumbers 7 a.1 b.1 = -1)
      (syncRun c1cfg 3 (NewSyncIterator [])).1 ∧
    List.Chain' (fun a b => CompareRowNumbers 7 a.rn b.rn = -1)
      (joinRun none 0 3 6 ([c1s1].map (fun s => ((none : Option Res), s)))).1 ∧
    List.Chain' (fun a b => CompareRowNumbers 7 a.rn b.rn = -1)
      (leftRun none 0 3 6 ([c1s1].map (fun s => ((none : Option Res), s)))
        (([] : List ResStream).map (fun s => ((none : Option Res), s)))).1 ∧
    List.Chain' (fun a b => CompareRowNumbers 7 a.rn b.rn = -1)
      (unionRun none 0 3 6 ([c1s1].map (fun s => ((none : Option Res), s)))).1) := by
  have hwf : ∀ s ∈ [c1s1], wfRes s := by
    intro s hs
    rcases List.mem_cons.mp hs with rfl | hs
    · exact ⟨List.chain'_cons.mpr ⟨by decide, List.chain'_singleton _⟩, by decide⟩
    · simp at hs
  have hin : wfInput c1cfg.maxDefinitionLevel [] := by
    intro rg hrg
    simp at hrg
  exact ⟨by decide, hin, hwf, by decide,
    c1_monotonic 0 (by decide) c1cfg [] (by decide) hin 3 none 3 6 [c1s1] []
      hwf (by decide)⟩

/-- **C3.** Union completeness: for a `UnionIterator` over child iterators at
definition level `d` with no group predicate, over a complete iteration the
set of emitted row numbers equals (up to level-`d` equality) the union of the
children's row-number sets; each emitted result's entries (and other-entries)
are the concatenation, in child order, of the entries of all child results
tied with it at level `d`; and each level-`d` group is emitted exactly once,
in strictly increasing order at level `d`. -/
theorem c3_union_complete (d : Nat) (hd7 : d ≤ 7) (ss : List ResStream)
    (emf itf : Nat)
    (hwf : ∀ s ∈ ss, wfRes s)
    (hbound : ∀ s ∈ ss, ∀ r ∈ s, CompareRowNumbers d r.rn MaxRowNumber = -1)
    (hdone : (unionRun none d emf itf
        (ss.map (fun s => ((none : Option Res), s)))).2.2.2 = true) :
    (∀ g, (∃ res ∈ (unionRun none d emf itf
            (ss.map (fun s => ((none : Option Res), s)))).1,
          EqualRowNumber d res.rn g = true) ↔
        (∃ s ∈ ss, ∃ r ∈ s, EqualRowNumber d r.rn g = true)) ∧
    (∀ res ∈ (unionRun none d emf itf
        (ss.map (fun s => ((none : Option Res), s)))).1,
      res.Entries = (ss.map (fun s => ((s.filter
          (fun r => EqualRowNumber d r.rn res.rn)).map Res.Entries).flatten)).flatten ∧
      res.OtherEntries = (ss.map (fun s => ((s.filter
          (fun r => EqualRowNumber d r.rn res.rn)).map Res.OtherEntries).flatten)).flatten) ∧
    List.Pairwise (fun a b => CompareRowNumbers d a.rn b.rn = -1)
      (unionRun none d emf itf (ss.map (fun s => ((none : Option Res), s)))).1 := by
  have hwf' : ∀ c ∈ ss.map (fun s => ((none : Option Res), s)), wfChild c := by
    intro c hc
    obtain ⟨s, hs, rfl⟩ := List.mem_map.mp hc
    exact hwf s hs
  have hbound' : ∀ c ∈ ss.map (fun s => ((none : Option Res), s)),
      ∀ r ∈ Child.remaining c, CompareRowNumbers d r.rn MaxRowNumber = -1 := by
    intro c hc
    obtain ⟨s, hs, rfl⟩ := List.mem_map.mp hc
    exact hbound s hs
  obtain ⟨h1, h2, h3⟩ := unionRun_none_spec hd7 emf itf _ hwf' hbound' hdone
  refine ⟨?_, ?_, h3⟩
  · intro g
    rw [h1 g]
    constructor
    · rintro ⟨c, hc, r, hr, hrg⟩
      obtain ⟨s, hs, rfl⟩ := List.mem_map.mp hc
      exact ⟨s, hs, r, hr, hrg⟩
    · rintro ⟨s, hs, r, hr, hrg⟩
      exact ⟨((none : Option Res), s), List.mem_map.mpr ⟨s, hs, rfl⟩, r, hr, hrg⟩
  · intro res hres
    obtain ⟨_, _, hent, hoth⟩ := h2 res hres
    rw [hent, hoth, List.map_map, List.map_map]
    exact ⟨rfl, rfl⟩

/-- Witness for C3 at two concrete child streams over groups 0 and 2 at
definition level 0. -/
theorem c3_union_complete_witness :
    (∀ s ∈ [c3s1, c3s2], wfRes s) ∧
    (∀ s ∈ [c3s1, c3s2], ∀ r ∈ s, CompareRowNumbers 0 r.rn MaxRowNumber = -1) ∧
    (unionRun none 0 3 4
        ([c3s1, c3s2].map (fun s => ((none : Option Res), s)))).2.2.2 = true ∧
    ((∀ g, (∃ res ∈ (unionRun none 0 3 4
            ([c3s1, c3s2].map (fun s => ((none : Option Res), s)))).1,
          EqualRowNumber 0 res.rn g = true) ↔
        (∃ s ∈ [c3s1, c3s2], ∃ r ∈ s, EqualRowNumber 0 r.rn g = true)) ∧
    (∀ res ∈ (unionRun none 0 3 4
        ([c3s1, c3s2].map (fun s => ((none : Option Res), s)))).1,
      res.Entries = ([c3s1, c3s2].map (fun s => ((s.filter
          (fun r => EqualRowNumber 0 r.rn res.rn)).map Res.Entries).flatten)).flatten ∧
      res.OtherEntries = ([c3s1, c3s2].map (fun s => ((s.filter
          (fun r => EqualRowNumber 0 r.rn res.rn)).map Res.OtherEntries).flatten)).flatten) ∧
    List.Pairwise (fun a b => CompareRowNumbers 0 a.rn b.rn = -1)
      (unionRun none 0 3 4
        ([c3s1, c3s2].map (fun s => ((none : Option Res), s)))).1) := by
  have hwf : ∀ s ∈ [c3s1, c3s2], wfRes s := by
    intro s hs
    rcases List.mem_cons.mp hs with rfl | hs
    · exact ⟨List.chain'_cons.mpr ⟨by decide, List.chain'_singleton _⟩, by decide⟩
    rcases List.mem_cons.mp hs with rfl | hs
    · exact ⟨List.chain'_singleton _, by decide⟩
    · simp at hs
  exact ⟨hwf, by decide, rfl,
    c3_union_complete 0 (by decide) [c3s1, c3s2] 3 4 hwf (by decide) rfl⟩

/-! ### Claim C6: `KeyValueGroupPredicate.KeepGroup` -/

/-- **C6 counterexample.** The claim omits the length guard: against the
predicate built from keys `["a","a"]` and values `["b","b"]`, a group whose
`keys`/`values` columns hold the single pair `("a","b")` matches every
requested pair at index 0, yet `KeepGroup` returns false because the group's
`keys` column is shorter than the predicate's key list. -/
theorem c6_counterexample :
    KeepGroup (NewKeyValueGroupPredicate ["a","a"] ["b","b"]) c6group = false ∧
    ∀ kv ∈ (NewKeyValueGroupPredicate ["a","a"] ["b","b"]).keys.zip
        (NewKeyValueGroupPredicate ["a","a"] ["b","b"]).vals,
      ∃ p ∈ ((Columns c6group.Entries ["keys", "values"]).getD 0 []).zip
          ((Columns c6group.Entries ["keys", "values"]).getD 1 []),
        p.1 = kv.1 ∧ p.2 = kv.2 := by
  refine ⟨rfl, ?_⟩
  intro kv hkv
  have hkv' : kv = ("a", "b") := by
    rcases List.mem_cons.mp hkv with h | h
    · exact h
    rcases List.mem_cons.mp h with h | h
    · exact h
    · simp at h
  rw [hkv']
  exact ⟨("a", "b"), by decide, rfl, rfl⟩

/-- **C6 (amended).** For a predicate built from pair lists of equal length,
`KeepGroup` returns true iff the group's `keys` column is at least as long
as the requested key list, the `keys` and `values` columns have equal
length, and every requested pair occurs at some common index of the two
columns. -/
theorem c6_keepgroup_amended (ks vs : List String) (hlen : ks.length = vs.length)
    (group : Res) :
    KeepGroup (NewKeyValueGroupPredicate ks vs) group = true ↔
      (ks.length ≤ ((Columns group.Entries ["keys", "values"]).getD 0 []).length ∧
       ((Columns group.Entries ["keys", "values"]).getD 0 []).length =
         ((Columns group.Entries ["keys", "values"]).getD 1 []).length ∧
       ∀ kv ∈ ks.zip vs,
         ∃ p ∈ ((Columns group.Entries ["keys", "values"]).getD 0 []).zip
             ((Columns group.Entries ["keys", "values"]).getD 1 []),
           p.1 = kv.1 ∧ p.2 = kv.2) := by
  show (if ((Columns group.Entries ["keys", "values"]).getD 0 []).length < ks.length ∨
      ((Columns group.Entries ["keys", "values"]).getD 0 []).length ≠
        ((Columns group.Entries ["keys", "values"]).getD 1 []).length then false
    else (ks.zip vs).all (fun kv =>
      (((Columns group.Entries ["keys", "values"]).getD 0 []).zip
        ((Columns group.Entries ["keys", "values"]).getD 1 [])).any
          (fun p => p.1 == kv.1 && p.2 == kv.2))) = true ↔ _
  by_cases hg : ((Columns group.Entries ["keys", "values"]).getD 0 []).length < ks.length ∨
      ((Columns group.Entries ["keys", "values"]).getD 0 []).length ≠
        ((Columns group.Entries ["keys", "values"]).getD 1 []).length
  · rw [if_pos hg]
    simp only [Bool.false_eq_true, false_iff]
    rintro ⟨h1, h2, _⟩
    rcases hg with hg | hg
    · omega
    · exact hg h2
  · rw [if_neg hg]
    push_neg at hg
    simp only [List.all_eq_true, List.any_eq_true]
    constructor
    · intro hall
      refine ⟨by omega, hg.2, ?_⟩
      intro kv hkv
      obtain ⟨p, hp, he⟩ := hall kv hkv
      refine ⟨p, hp, ?_⟩
      have := he
      simp only [Bool.and_eq_true, beq_iff_eq] at this
      exact this
    · rintro ⟨_, _, hall⟩
      intro kv hkv
      obtain ⟨p, hp, h1, h2⟩ := hall kv hkv
      exact ⟨p, hp, by simp [h1, h2]⟩

/-- Witness for the amended C6 at a one-pair predicate and the one-pair
group. -/
theorem c6_keepgroup_amended_witness :
    (["a"] : List String).length = (["b"] : List String).length ∧
    (KeepGroup (NewKeyValueGroupPredicate ["a"] ["b"]) c6group = true ↔
      ((["a"] : List String).length ≤
        ((Columns c6group.Entries ["keys", "values"]).getD 0 []).length ∧
       ((Columns c6group.Entries ["keys", "values"]).getD 0 []).length =
         ((Columns c6group.Entries ["keys", "values"]).getD 1 []).length ∧
       ∀ kv ∈ (["a"] : List String).zip (["b"] : List String),
         ∃ p ∈ ((Columns c6group.Entries ["keys", "values"]).getD 0 []).zip
             ((Columns c6group.Entries ["keys", "values"]).getD 1 []),
           p.1 = kv.1 ∧ p.2 = kv.2)) :=
  ⟨rfl, c6_keepgroup_amended ["a"] ["b"] rfl c6group⟩

/-! ### Claim C8: replication-aware discard accounting -/

/-- **C8 counterexample.** With `R = 3` and response vectors
`[MLT, NO, NO], [NO, NO, NO], [NO, NO, NO]`, the first trace collects 2
successes and last error `MAX_LIVE_TRACES`; the accounting pinned by the
distributor test accepts it (no discarded spans), while the claim's
threshold `⌈R/2⌉ + 1 = 3` would discard it. -/
theorem c8_counterexample :
    (aggregateResponses c8keys 3
        [[.maxLiveTraces, .noError, .noError], [.noError, .noError, .noError],
         [.noError, .noError, .noError]]).1.getD 0 0 = 2 ∧
    (aggregateResponses c8keys 3
        [[.maxLiveTraces, .noError, .noError], [.noError, .noError, .noError],
         [.noError, .noError, .noError]]).2.getD 0 .noError =
      PushErrorReason.maxLiveTraces ∧
    c8row [[.maxLiveTraces, .noError, .noError], [.noError, .noError, .noError],
        [.noError, .noError, .noError]] 3 = (0, 0) ∧
    ¬ (2 ≥ (3 + 1) / 2 + 1) := by
  refine ⟨?_, ?_, ?_, by decide⟩ <;> decide

/-- **C8 (amended).** A trace is accepted iff `num_success ≥ ⌊R/2⌋ + 1`
(integer division), not `⌈R/2⌉ + 1`: per trace, the accounting adds the full
span count to the counter of the last error exactly when the success count
is below `⌊R/2⌋ + 1`; the accounting is additive across traces; and it
reproduces every row of the distributor replication test table. -/
theorem c8_replication_amended :
    (∀ (rf n : Nat) (e : PushErrorReason) (t : RebatchedTrace),
      countDiscardedSpans [n] [e] [t] rf =
        if n < rf / 2 + 1 then
          ((if e = .maxLiveTraces then t.spanCount else 0),
           (if e = .traceTooLarge then t.spanCount else 0))
        else (0, 0)) ∧
    (∀ (rf n : Nat) (e : PushErrorReason) (t : RebatchedTrace)
        (ns : List Nat) (le : List PushErrorReason) (ts : List RebatchedTrace),
      countDiscardedSpans (n :: ns) (e :: le) (t :: ts) rf =
        ((countDiscardedSpans [n] [e] [t] rf).1 +
          (countDiscardedSpans ns le ts rf).1,
         (countDiscardedSpans [n] [e] [t] rf).2 +
          (countDiscardedSpans ns le ts rf).2)) ∧
    (c8row [[.noError, .noError, .noError], [.noError, .noError, .noError]] 3 = (0, 0) ∧
     c8row [[.noError, .noError, .noError], [.noError, .noError, .noError],
       [.noError, .noError, .noError]] 3 = (0, 0) ∧
     c8row [[.maxLiveTraces, .noError, .noError], [.noError, .noError, .noError]] 3
       = (5, 0) ∧
     c8row [[.maxLiveTraces, .noError, .noError], [.noError, .noError, .noError],
       [.noError, .noError, .noError]] 3 = (0, 0) ∧
     c8row [[.noError, .traceTooLarge, .noError], [.noError, .noError, .noError]] 3
       = (0, 10) ∧
     c8row [[.noError, .traceTooLarge, .noError], [.noError, .noError, .noError],
       [.noError, .noError, .noError]] 3 = (0, 0) ∧
     c8row [[.maxLiveTraces, .noError, .noError],
       [.maxLiveTraces, .noError, .noError]] 3 = (5, 0) ∧
     c8row [[.noError, .traceTooLarge, .noError], [.noError, .traceTooLarge, .noError],
       [.noError, .noError, .noError]] 3 = (0, 10) ∧
     c8row [[.noError, .traceTooLarge, .noError], [.noError, .traceTooLarge, .noError],
       [.noError, .traceTooLarge, .noError]] 3 = (0, 10) ∧
     c8row [[.noError, .traceTooLarge, .noError], [.noError, .maxLiveTraces, .noError],
       [.noError, .traceTooLarge, .noError]] 3 = (0, 10) ∧
     c8row [[.noError, .traceTooLarge, .noError], [.noError, .noError, .traceTooLarge],
       [.noError, .maxLiveTraces, .traceTooLarge]] 3 = (10, 15) ∧
     c8row [[.noError, .traceTooLarge, .noError], [.noError, .noError, .noError],
       [.noError, .noError, .noError]] 5 = (0, 10) ∧
     c8row [[.noError, .traceTooLarge, .noError], [.noError, .noError, .noError],
       [.noError, .noError, .noError], [.noError, .noError, .noError]] 5 = (0, 0) ∧
     c8row [[.noError, .traceTooLarge, .noError]] 1 = (0, 10)) := by
  refine ⟨?_, ?_, by decide⟩
  · intro rf n e t
    cases e <;> by_cases h : n < rf / 2 + 1 <;>
      simp [countDiscardedSpans, h]
  · intro rf n e t ns le ts
    cases e <;> by_cases h : n < rf / 2 + 1 <;>
      simp only [countDiscardedSpans, h, if_true, if_false, Prod.ext_iff] <;> omega

/-! ### Claim C9: `NewLeftJoinIterator` error handling -/

/-- **C9.** `NewLeftJoinIterator` returns an error (and no iterator) exactly
when the required-iterator list is empty, for every definition level, list
of optional iterators and predicate; on a non-empty required list it
succeeds with the given configuration. -/
theorem c9_left_join_ctor (d : Nat) (required optional : List ResStream)
    (pred : Option (Res → Bool)) :
    (NewLeftJoinIterator d required optional pred =
        Except.error "left join iterator requires at least one required iterator" ↔
      required = []) ∧
    ((∃ it, NewLeftJoinIterator d required optional pred = Except.ok it ∧
        it.definitionLevel = d ∧ it.required = required ∧ it.optional = optional) ↔
      required ≠ []) := by
  cases required with
  | nil =>
    constructor
    · simp [NewLeftJoinIterator]
    · simp [NewLeftJoinIterator]
  | cons s rest =>
    constructor
    · simp [NewLeftJoinIterator]
    · simp only [ne_eq, reduceCtorEq, not_false_eq_true, iff_true]
      exact ⟨⟨d, s :: rest, optional, pred⟩,
        by simp [NewLeftJoinIterator], rfl, rfl, rfl⟩

/-! ### Claim C7: row-group bounds of `NewSyncIterator` -/

/-- C7, counterexample.  For a single row group of 1 row the precomputed
bounds are `min = {-1,...}` (the row number before the group's first row)
and `max = {1,...}`, so `max` at position 0 is `min + NumRows + 1`, not
`min + NumRows` as the claim states. -/
theorem c7_counterexample :
    ((NewSyncIterator [{ numRows := 1, pages := [] }]).rgs.head?).map
        (fun e => (e.min.headD (-1), e.max.headD (-1))) = some ((-1 : Int), (1 : Int)) ∧
    ((1 : Int) ≠ -1 + 1) := by
  constructor
  · rfl
  · decide

theorem syncBounds_chained (rgs : List RowGroupM) :
    ∀ (x : Int) (tail : List Int), boundsChained x (syncBounds (x :: tail) rgs) := by
  induction rgs with
  | nil => intro x tail; trivial
  | cons rg rest ih =>
    intro x tail
    refine ⟨rfl, ?_, ?_⟩
    · simp [RowNumber.Skip]
      omega
    · simpa [RowNumber.Skip] using ih (x + (rg.numRows : Int)) _

theorem boundsChained_max :
    ∀ (x : Int) (entries : List RGEntry), boundsChained x entries →
    ∀ e ∈ entries, e.max.headD (-1) = e.min.headD (-1) + (e.rg.numRows : Int) + 1 := by
  intro x entries
  induction entries generalizing x with
  | nil => intro _ e he; simp at he
  | cons f rest ih =>
    intro h e he
    obtain ⟨h1, h2, h3⟩ := h
    rcases List.mem_cons.mp he with rfl | he'
    · rw [h1, h2]
    · exact ih _ h3 e he'

/-- C7 (amended): the per-row-group bounds `[min, max)` computed by
`NewSyncIterator` satisfy, at position 0: `max = min + NumRows + 1` where
`min` is the row number immediately before the group's first row (`max` is
exclusive and equals the row number of the first row of the next group), and
consecutive groups chain seamlessly: the next group's `min` is `min + NumRows`. -/
theorem c7_bounds_amended (rgs : List RowGroupM) :
    boundsChained (-1) ((NewSyncIterator rgs).rgs) ∧
    ∀ e ∈ (NewSyncIterator rgs).rgs,
      e.max.headD (-1) = e.min.headD (-1) + (e.rg.numRows : Int) + 1 := by
  have h : boundsChained (-1) ((NewSyncIterator rgs).rgs) := by
    unfold NewSyncIterator
    exact syncBounds_chained rgs (-1) _
  exact ⟨h, boundsChained_max _ _ h⟩

/-- Witness for C5 (amended) at the concrete RowNumber `{3,0,0,0,0,0,0,2}`. -/
theorem c5_preceding_amended_witness :
    ((0 ≤ (3 : Int) ∧ 0 ≤ (0 : Int) ∧ 0 ≤ (0 : Int) ∧ 0 ≤ (0 : Int) ∧ 0 ≤ (0 : Int) ∧
      0 ≤ (0 : Int) ∧ 0 ≤ (0 : Int)) ∧ 1 ≤ (2 : Int)) ∧
    (CompareRowNumbers 7 (RowNumber.Preceding [3, 0, 0, 0, 0, 0, 0, 2])
        [3, 0, 0, 0, 0, 0, 0, 2] = -1 ∧
     ∀ b0 b1 b2 b3 b4 b5 b6 b7 : Int,
      ¬ (CompareRowNumbers 7 (RowNumber.Preceding [3, 0, 0, 0, 0, 0, 0, 2])
            [b0, b1, b2, b3, b4, b5, b6, b7] = -1 ∧
         CompareRowNumbers 7 [b0, b1, b2, b3, b4, b5, b6, b7]
            [3, 0, 0, 0, 0, 0, 0, 2] = -1)) :=
  ⟨⟨by norm_num, by norm_num⟩,
    c5_preceding_amended 3 0 0 0 0 0 0 2 (by norm_num) (by norm_num)⟩

end Tempo
